import Mathlib

/-!
# libmfs: a shallow embedding of the MFS reader and its fork engine

The definitions below follow `src/mfs.c`, `src/mfs.h` and `src/appledouble.h`.

Conventions of the embedding

* Bytes and machine integers are natural numbers; every place where the C
  code truncates or wraps (a `uint16_t` or `uint32_t` variable, `size_t`
  arithmetic, the `int` return value) is written with an explicit
  reduction.  The data model is LP64: `int` has 32 bits, `long` and
  `size_t` have 64 bits.  Plain `char` is signed, and a conversion to a
  signed type that cannot hold the value wraps, as with the compilers for
  x86-64.
* A C function whose execution can leave the defined behaviour of the
  language (a read or write outside an object, a use of freed memory, a
  division by zero, a NULL dereference) returns an `Option`; `none` stands for such an execution.
  The read of an array slot that was never written is treated like a read
  outside the array.
* A pointer that may be NULL is an `Option`.
* A C string argument is the list of the bytes of the memory at the pointer:
  the bytes of the string, its NUL and what follows it in the object.
* The backing file is the list of its bytes.
-/

namespace LibMFS

/-! ## Machine integers -/

/-- Conversion to `uint16_t`. -/
def toU16 (n : Nat) : Nat := n % 2 ^ 16

/-- Conversion to `uint32_t` (also `unsigned int`). -/
def toU32 (n : Nat) : Nat := n % 2 ^ 32

/-- Conversion to `size_t` or `unsigned long`. -/
def toU64 (n : Nat) : Nat := n % 2 ^ 64

/-- Conversion of an unsigned value to `int` (two's complement, 32 bits). -/
def toInt32 (n : Nat) : Int :=
  if n % 2 ^ 32 < 2 ^ 31 then ((n % 2 ^ 32 : Nat) : Int) else ((n % 2 ^ 32 : Nat) : Int) - 2 ^ 32

/-- Conversion of a signed value to `size_t` or `unsigned long`. -/
def ofInt64 (i : Int) : Nat := (i % 2 ^ 64).toNat

/-- Conversion of an unsigned 64-bit value to `long`. -/
def toInt64 (n : Nat) : Int :=
  if n % 2 ^ 64 < 2 ^ 63 then ((n % 2 ^ 64 : Nat) : Int) else ((n % 2 ^ 64 : Nat) : Int) - 2 ^ 64

/-- Big-endian value of a byte sequence (`ntohs` and `ntohl` of the bytes in memory). -/
def beVal (bytes : List Nat) : Nat := bytes.foldl (fun acc b => acc * 256 + b) 0

/-- The bytes `[off, off + len)` of a buffer. -/
def slice (buf : List Nat) (off len : Nat) : List Nat := (buf.drop off).take len

/-- Big-endian field of `len` bytes at offset `off` of a buffer. -/
def beField (buf : List Nat) (off len : Nat) : Nat := beVal (slice buf off len)

/-- Bytes of `htons x` as laid out in memory. -/
def htons (x : Nat) : List Nat := [x / 256 % 256, x % 256]

/-- Bytes of `htonl x` as laid out in memory. -/
def htonl (x : Nat) : List Nat :=
  [x / 16777216 % 256, x / 65536 % 256, x / 256 % 256, x % 256]

/-- The effect of `memcpy (buf + pos, bytes, bytes.length)` on a buffer. -/
def writeAt (buf : List Nat) (pos : Nat) (bytes : List Nat) : List Nat :=
  buf.take pos ++ bytes ++ buf.drop (pos + bytes.length)

/-! ## Constants of `mfs.h` and `appledouble.h` -/

def kMFSBlockSize : Nat := 512
def kMFSSignature : Nat := 0xD2D7
def kMFSTimeDelta : Nat := 2082844800
def kMFSAlBkEmpty : Nat := 0
def kMFSAlBkLast : Nat := 1
def kMFSAlBkDir : Nat := 0xFFF
def kMFSFolderRoot : Int := 0

def kMFSForkData : Int := 0
def kMFSForkRsrc : Int := 1
def kMFSForkAppleDouble : Int := 2

def kMFSPathError : Nat := 0
def kMFSPathFile : Nat := 1
def kMFSPathFolder : Nat := 2

def MFS_FOLDERS : Nat := 1

def kMFSForkSignature : Nat := 0x1337D00D

def kAppleDoubleHeaderLength : Nat := 0x300
def kAppleDoubleResourceForkOffset : Nat := kAppleDoubleHeaderLength
def kAppleDoubleFileInfoOffset : Nat := 0x70
def kAppleDoubleFileInfoLength : Nat := 0x10
def kAppleDoubleFinderInfoOffset : Nat := 0x80
def kAppleDoubleFinderInfoLength : Nat := 0x20
def kAppleDoubleRealNameOffset : Nat := 0xA0
def kAppleDoubleCommentOffset : Nat := 0x1A0

def kAppleDoubleMagic : Nat := 0x00051607
def kAppleDoubleVersion : Nat := 0x00020000
def kAppleDoubleResourceForkEntry : Nat := 2
def kAppleDoubleRealNameEntry : Nat := 3
def kAppleDoubleCommentEntry : Nat := 4
def kAppleDoubleFileInfoEntry : Nat := 7
def kAppleDoubleFinderInfoEntry : Nat := 9

/-- Values of `SEEK_SET`, `SEEK_CUR` and `SEEK_END`. -/
def SEEK_SET : Int := 0
def SEEK_CUR : Int := 1
def SEEK_END : Int := 2

/-- The `errno` values the library sets. -/
inductive Errno where
  | ENOENT
  | EFBIG
  | EBUSY
  | EBADF
  | EINVAL
deriving DecidableEq, Repr

/-! ## Data model -/

/-- `struct MFSMasterDirectoryBlock` (64 bytes, packed), in host byte order. -/
structure MFSMasterDirectoryBlock where
  drSigWord : Nat
  drCrDate : Nat
  drLsBkUp : Nat
  drAtrb : Nat
  drNmFls : Nat
  drDirSt : Nat
  drBlLen : Nat
  drNmAlBlks : Nat
  drAlBlkSiz : Nat
  drClpSiz : Nat
  drAlBlSt : Nat
  drNxtFNum : Nat
  drFreeBks : Nat
  drVN : List Nat
deriving DecidableEq, Repr

/-- `struct MFSDirectoryRecord` as `mfs_directory_record` leaves it: the
integer fields in host byte order, `flUsrWds` as the 16 bytes found on disk,
`flNam0` the length byte `flNam[0]`, and `flCName` the bytes that follow it
in the allocation; the allocation ends with one NUL byte after them. -/
structure MFSDirectoryRecord where
  flFlags : Nat
  flTyp : Nat
  flUsrWds : List Nat
  flFlNum : Nat
  flStBlk : Nat
  flLgLen : Nat
  flPyLen : Nat
  flRStBlk : Nat
  flRLgLen : Nat
  flRPyLen : Nat
  flCrDat : Nat
  flMdDat : Nat
  flNam0 : Nat
  flCName : List Nat
deriving DecidableEq, Repr

/-- `struct MFSFolder`; `fdCNam` holds the bytes of the C string. -/
structure MFSFolder where
  fdID : Int
  fdParent : Int
  fdSubdirs : Int
  fdCrDat : Nat
  fdMdDat : Nat
  fdFlags : Int
  fdLocV : Int
  fdLocH : Int
  fdCNam : List Nat
deriving DecidableEq, Repr

/-- `struct MFSVolume`.  `fp` is the content of the backing file, `vabm` is
NULL (`none`) or the decoded map, `directory` is the vector of record
pointers with its NULL entries, `folders` is NULL or the folder array
(`numFolders` is its length). -/
structure MFSVolume where
  fp : List Nat
  offset : Nat
  alBkOff : Nat
  openForks : Nat
  mdb : MFSMasterDirectoryBlock
  vabm : Option (List Nat)
  directory : List (Option MFSDirectoryRecord)
  folders : Option (List MFSFolder)
  name : List Nat
deriving DecidableEq, Repr

/-- `struct MFSFork`.  The back pointer `fkVol` is not stored: the functions
that follow it take the volume as an argument.  `fkAlMap` holds the slots of
the flexible array that `mfs_fkopen` has written. -/
structure MFSFork where
  _fkSgn : Nat
  fkDrRec : Option MFSDirectoryRecord
  fkLgLen : Nat
  fkNmBks : Nat
  fkMode : Int
  fkAppleDouble : Option (List Nat)
  fkOffset : Nat
  fkAlMap : List Nat
deriving DecidableEq, Repr

/-! ## Block I/O -/

/-- `fread (buf, size, n, fp)` with the file positioned at `pos`: the bytes
that are available (at most `size * n`) overwrite the start of the buffer,
and the number of complete items is returned. -/
def fread (fp : List Nat) (pos size n : Nat) (buf : List Nat) : Nat × List Nat :=
  let got := (fp.drop pos).take (size * n)
  (got.length / size, got ++ buf.drop got.length)

/-- `mfs_blkread`: status and the buffer afterwards.  `fseek` fails when the
position, taken as a `long`, is negative. -/
def mfs_blkread (vol : MFSVolume) (numBlocks offset : Nat) (buf : List Nat) : Int × List Nat :=
  let pos := toU64 (vol.offset + toU64 (kMFSBlockSize * offset))
  if 2 ^ 63 ≤ pos then (-1, buf)
  else
    let r := fread vol.fp pos kMFSBlockSize numBlocks buf
    if numBlocks ≠ r.1 then (-1, r.2) else (0, r.2)

/-- `mfs_albkread`: status and the buffer afterwards.  The product
`drAlBlkSiz * start` is formed in `unsigned int`. -/
def mfs_albkread (vol : MFSVolume) (numBlocks start : Nat) (buf : List Nat) : Int × List Nat :=
  let pos := toU64 (toU64 (vol.offset + vol.alBkOff) + toU32 (vol.mdb.drAlBlkSiz * start))
  if 2 ^ 63 ≤ pos then (-1, buf)
  else
    let r := fread vol.fp pos vol.mdb.drAlBlkSiz numBlocks buf
    if numBlocks ≠ r.1 then (-1, r.2) else (0, r.2)

/-! ## Filename comparison and lookup -/

/-- The table `mfs_chars_toupper` of `mfs_fneq`. -/
def mfs_chars_toupper : List Nat :=
  [0x00, 0x01, 0x02, 0x03, 0x04, 0x05, 0x06, 0x07, 0x08, 0x09, 0x0A, 0x0B, 0x0C, 0x0D, 0x0E, 0x0F,
   0x10, 0x11, 0x12, 0x13, 0x14, 0x15, 0x16, 0x17, 0x18, 0x19, 0x1A, 0x1B, 0x1C, 0x1D, 0x1E, 0x1F,
   0x20, 0x21, 0x22, 0x23, 0x24, 0x25, 0x26, 0x27, 0x28, 0x29, 0x2A, 0x2B, 0x2C, 0x2D, 0x2E, 0x2F,
   0x30, 0x31, 0x32, 0x33, 0x34, 0x35, 0x36, 0x37, 0x38, 0x39, 0x3A, 0x3B, 0x3C, 0x3D, 0x3E, 0x3F,
   0x40, 0x41, 0x42, 0x43, 0x44, 0x45, 0x46, 0x47, 0x48, 0x49, 0x4A, 0x4B, 0x4C, 0x4D, 0x4E, 0x4F,
   0x50, 0x51, 0x52, 0x53, 0x54, 0x55, 0x56, 0x57, 0x58, 0x59, 0x5A, 0x5B, 0x5C, 0x5D, 0x5E, 0x5F,
   0x60, 0x41, 0x42, 0x43, 0x44, 0x45, 0x46, 0x47, 0x48, 0x49, 0x4A, 0x4B, 0x4C, 0x4D, 0x4E, 0x4F,
   0x50, 0x51, 0x52, 0x53, 0x54, 0x55, 0x56, 0x57, 0x58, 0x59, 0x5A, 0x7B, 0x7C, 0x7D, 0x7E, 0x7F,
   0x80, 0x81, 0x82, 0x83, 0x84, 0x85, 0x86, 0x87, 0xCB, 0x89, 0x80, 0xCC, 0x81, 0x82, 0x83, 0x8F,
   0x90, 0x91, 0x92, 0x93, 0x94, 0x95, 0x84, 0x97, 0x98, 0x99, 0x85, 0xCD, 0x9C, 0x9D, 0x9E, 0x86,
   0xA0, 0xA1, 0xA2, 0xA3, 0xA4, 0xA5, 0xA6, 0xA7, 0xA8, 0xA9, 0xAA, 0xAB, 0xAC, 0xAD, 0xAE, 0xAF,
   0xB0, 0xB1, 0xB2, 0xB3, 0xB4, 0xB5, 0xB6, 0xB7, 0xB8, 0xB9, 0xBA, 0xBB, 0xBC, 0xBD, 0xAE, 0xAF,
   0xC0, 0xC1, 0xC2, 0xC3, 0xC4, 0xC5, 0xC6, 0xC7, 0xC8, 0xC9, 0xCA, 0xCB, 0xCC, 0xCD, 0xCE, 0xCF,
   0xD0, 0xD1, 0xD2, 0xD3, 0xD4, 0xD5, 0xD6, 0xD7, 0xD8, 0xD9, 0xDA, 0xDB, 0xDC, 0xDD, 0xDE, 0xDF,
   0xE0, 0xE1, 0xE2, 0xE3, 0xE4, 0xE5, 0xE6, 0xE7, 0xE8, 0xE9, 0xEA, 0xEB, 0xEC, 0xED, 0xEE, 0xEF,
   0xF0, 0xF1, 0xF2, 0xF3, 0xF4, 0xF5, 0xF6, 0xF7, 0xF8, 0xF9, 0xFA, 0xFB, 0xFC, 0xFD, 0xFE, 0xFF]

/-- The table lookup `mfs_chars_toupper[c]` for a byte `c`. -/
def toupper (c : Nat) : Nat := mfs_chars_toupper.getD c 0

/-- `mfs_fneq (s1, s2)`.  Each argument is the memory that starts at the
pointer, up to the end of its object; the result is `none` when the loop
reads past either object. -/
def mfs_fneq : List Nat → List Nat → Option Bool
  | a :: s1, b :: s2 =>
    if toupper a = toupper b then
      if a = 0 then some true else mfs_fneq s1 s2
    else some false
  | _, _ => none

/-- `strlen (s)` on the memory that starts at the pointer; `none` when the
object holds no NUL byte. -/
def strlen : List Nat → Option Nat
  | [] => none
  | c :: s => if c = 0 then some 0 else (strlen s).map (· + 1)

/-- The memory at `rec->flCName`: the name bytes and the terminator that
`mfs_directory_record` stores after them. -/
def flCNameMem (r : MFSDirectoryRecord) : List Nat := r.flCName ++ [0]

/-- The loop of `mfs_directory_find_name` from index `i` on, `dir` being the
slots of the vector from that index. -/
def mfs_directory_find_name_loop (namelen : Nat) (name : List Nat) :
    List (Option MFSDirectoryRecord) → Option (Option MFSDirectoryRecord)
  | [] => none
  | none :: _ => some none
  | some r :: dir =>
    if r.flNam0 ≠ namelen then mfs_directory_find_name_loop namelen name dir
    else
      match mfs_fneq (flCNameMem r) name with
      | none => none
      | some true => some (some r)
      | some false => mfs_directory_find_name_loop namelen name dir

/-- `mfs_directory_find_name (dir, name)`: `some none` is a NULL result. -/
def mfs_directory_find_name (dir : List (Option MFSDirectoryRecord)) (name : List Nat) :
    Option (Option MFSDirectoryRecord) :=
  match strlen name with
  | none => none
  | some namelen => mfs_directory_find_name_loop namelen name dir

/-! ## Volume allocation block map -/

/-- One iteration of the decoding loop of `mfs_vabm` for index `n`:
`vabm_bits` is the scratch buffer, `vabm_base = vabm_bits + sizeof (MDB)`.
The result is `none` when one of the two bytes fetched lies outside the
scratch buffer. -/
def mfs_vabm_entry (vabm_bits : List Nat) (n : Nat) : Option Nat :=
  let offset := ((n - 2) * 3) / 2
  match vabm_bits[64 + offset]?, vabm_bits[64 + offset + 1]? with
  | some hi, some lo =>
    let val := hi * 256 + lo
    if n % 2 ≠ 0 then some (val &&& 0xFFF) else some ((val &&& 0xFFF0) >>> 4)
  | _, _ => none

/-- The loop `for (n = ...; n < 2 + drNmAlBlks; n++)` of `mfs_vabm` with
`count` iterations left: the entries it stores, from index `n` on. -/
def mfs_vabm_loop (vabm_bits : List Nat) : Nat → Nat → Option (List Nat)
  | 0, _ => some []
  | count + 1, n =>
    match mfs_vabm_entry vabm_bits n with
    | none => none
    | some v =>
      match mfs_vabm_loop vabm_bits count (n + 1) with
      | none => none
      | some rest => some (v :: rest)

/-- `mfs_vabm (vol)`: `some none` is the NULL result after a failed read.
The scratch buffer comes from `malloc`; it is used only after a read that
has filled all of it. -/
def mfs_vabm (vol : MFSVolume) : Option (Option (List Nat)) :=
  let vabm_size := (vol.mdb.drNmAlBlks * 3) / 2
  let vabm_span := vabm_size + 64
  let vabm_blks := vabm_span / kMFSBlockSize + (if vabm_span % kMFSBlockSize ≠ 0 then 1 else 0)
  let r := mfs_blkread vol vabm_blks 2 []
  if r.1 = -1 then some none
  else
    match mfs_vabm_loop r.2 vol.mdb.drNmAlBlks 2 with
    | none => none
    | some entries => some (some (vol.mdb.drNmAlBlks :: 0x1337 :: entries))

/-! ## Directory -/

/-- `mfs_directory_record (src, size)`, `src` being the `size` bytes copied. -/
def mfs_directory_record (src : List Nat) : MFSDirectoryRecord :=
  { flFlags := src.getD 0 0
    flTyp := src.getD 1 0
    flUsrWds := slice src 2 16
    flFlNum := beField src 18 4
    flStBlk := beField src 22 2
    flLgLen := beField src 24 4
    flPyLen := beField src 28 4
    flRStBlk := beField src 32 2
    flRLgLen := beField src 34 4
    flRPyLen := beField src 38 4
    flCrDat := beField src 42 4
    flMdDat := beField src 46 4
    flNam0 := src.getD 50 0
    flCName := src.drop 51 }

/-- The inner loop `for (;;)` of `mfs_directory` in block `block`, from
`rec_offset` on.  `dir_blk` is the whole directory buffer, `dir` the vector
of record pointers.  Every iteration moves `rec_offset` forward by at least
51 bytes, so `fuel = dir_blk.length + 1` iterations are never used up before
a read leaves the buffer (`mfs_directory_block_fuel`).  The result is `none` when a byte outside
`dir_blk` is read or a slot outside `dir` is written. -/
def mfs_directory_block (dir_blk : List Nat) (block : Nat) :
    Nat → Nat → List (Option MFSDirectoryRecord) → Nat →
    Option (List (Option MFSDirectoryRecord) × Nat)
  | 0, _, _, _ => none
  | fuel + 1, rec_offset, dir, rec_count =>
    let pos := block * kMFSBlockSize + rec_offset
    match dir_blk[pos + 50]?, dir_blk[pos]? with
    | some nam0, some flFlags =>
      let rec_size := 51 + nam0
      if flFlags ≠ 0 then
        if dir_blk.length < pos + rec_size then none
        else if dir.length ≤ rec_count then none
        else
          let dir1 := dir.set rec_count (some (mfs_directory_record (slice dir_blk pos rec_size)))
          let off1 := rec_offset + rec_size
          let off2 := if off1 % 2 ≠ 0 then off1 + 1 else off1
          mfs_directory_block dir_blk block fuel off2 dir1 (rec_count + 1)
      else some (dir, rec_count)
    | _, _ => none

/-- The outer loop of `mfs_directory` with `n` blocks left, at block `block`. -/
def mfs_directory_blocks (dir_blk : List Nat) (drNmFls : Nat) :
    Nat → Nat → List (Option MFSDirectoryRecord) → Nat →
    Option (List (Option MFSDirectoryRecord))
  | 0, _, dir, _ => some dir
  | n + 1, block, dir, rec_count =>
    match mfs_directory_block dir_blk block (dir_blk.length + 1) 0 dir rec_count with
    | none => none
    | some (dir1, rec_count1) =>
      if rec_count1 = drNmFls then some dir1
      else mfs_directory_blocks dir_blk drNmFls n (block + 1) dir1 rec_count1

/-- `mfs_directory (vol)`.  Both buffers come from `calloc`; the status of
`mfs_blkread` is not looked at. -/
def mfs_directory (vol : MFSVolume) : Option (List (Option MFSDirectoryRecord)) :=
  let dir_blk0 := List.replicate (vol.mdb.drBlLen * kMFSBlockSize) 0
  let dir0 : List (Option MFSDirectoryRecord) := List.replicate (vol.mdb.drNmFls + 1) none
  let dir_blk := (mfs_blkread vol vol.mdb.drBlLen vol.mdb.drDirSt dir_blk0).2
  mfs_directory_blocks dir_blk vol.mdb.drNmFls vol.mdb.drBlLen 0 dir0 0

/-- `mfs_directory_free (dir)`: `none` when the vector holds no NULL entry. -/
def mfs_directory_free : List (Option MFSDirectoryRecord) → Option Unit
  | [] => none
  | none :: _ => some ()
  | some _ :: dir => mfs_directory_free dir

/-! ## Opening and closing a volume -/

/-- The first 64 bytes of logical block 2 brought to host byte order. -/
def mdbDecode (mdb_block : List Nat) : MFSMasterDirectoryBlock :=
  { drSigWord := beField mdb_block 0 2
    drCrDate := beField mdb_block 2 4
    drLsBkUp := beField mdb_block 6 4
    drAtrb := beField mdb_block 10 2
    drNmFls := beField mdb_block 12 2
    drDirSt := beField mdb_block 14 2
    drBlLen := beField mdb_block 16 2
    drNmAlBlks := beField mdb_block 18 2
    drAlBlkSiz := beField mdb_block 20 4
    drClpSiz := beField mdb_block 24 4
    drAlBlSt := beField mdb_block 28 2
    drNxtFNum := beField mdb_block 30 4
    drFreeBks := beField mdb_block 34 2
    drVN := slice mdb_block 36 28 }

/-- The 28 bytes of `vol->name` after `strncpy (vol->name, &drVN[1], drVN[0])`
on the zeroed volume, for `drVN[0] <= 28`. -/
def volName (drVN : List Nat) : List Nat :=
  let s := ((drVN.drop 1).takeWhile (· ≠ 0)).take (drVN.getD 0 0)
  s ++ List.replicate (28 - s.length) 0

/-- The value stored in `vol->alBkOff`: the difference is formed in
`unsigned int`. -/
def alBkOffOf (mdb : MFSMasterDirectoryBlock) : Nat :=
  toU32 (mdb.drAlBlSt * kMFSBlockSize + 2 ^ 32 - toU32 (2 * mdb.drAlBlkSiz))

/-- The volume structure after `malloc`, `bzero` and the stores of `fp`,
`offset` and `openForks`. -/
def volInit (fp : List Nat) (offset : Nat) : MFSVolume :=
  { fp := fp, offset := offset, alBkOff := 0, openForks := 0,
    mdb :=
      { drSigWord := 0, drCrDate := 0, drLsBkUp := 0, drAtrb := 0, drNmFls := 0, drDirSt := 0,
        drBlLen := 0, drNmAlBlks := 0, drAlBlkSiz := 0, drClpSiz := 0, drAlBlSt := 0,
        drNxtFNum := 0, drFreeBks := 0, drVN := List.replicate 28 0 },
    vabm := none, directory := [], folders := none, name := List.replicate 28 0 }

/-- `mfs_vopen (path, offset, flags)`.  `file` is the content of the file at
`path` (`none` when `fopen` fails); `folders` is what `mfs_load_folders`,
which reads the Desktop file through the external resource library, leaves
in `vol->folders`.  `some (Except.error e)` is a NULL result, `e` being the
`errno` the library has set, if any (`EINVAL`; `EFTYPE` where Darwin
defines it).  The call is `none` when `strncpy`
writes past the 28 bytes of `vol->name` or a decoder leaves its buffers. -/
def mfs_vopen (file : Option (List Nat)) (offset : Nat) (flags : Nat)
    (folders : Option (List MFSFolder)) : Option (Except (Option Errno) MFSVolume) :=
  match file with
  | none => some (.error none)
  | some fp =>
    let vol0 := volInit fp offset
    -- read MDB
    let r := mfs_blkread vol0 1 2 []
    if r.1 = -1 then some (.error (some .EINVAL))
    else
      let mdb := mdbDecode r.2
      if 28 < mdb.drVN.getD 0 0 then none
      else
        let vol1 : MFSVolume := { vol0 with mdb := mdb, name := volName mdb.drVN }
        -- check MDB
        if mdb.drSigWord ≠ kMFSSignature then some (.error (some .EINVAL))
        else
          -- read volume allocation block map
          match mfs_vabm vol1 with
          | none => none
          | some vabm =>
            let vol2 : MFSVolume := { vol1 with vabm := vabm, alBkOff := alBkOffOf mdb }
            -- read directory
            match mfs_directory vol2 with
            | none => none
            | some dir =>
              let vol3 : MFSVolume := { vol2 with directory := dir }
              if flags &&& MFS_FOLDERS ≠ 0 then some (.ok { vol3 with folders := folders })
              else some (.ok vol3)

/-- `mfs_vclose (vol)`: the value returned, the `errno` set, and the volume
afterwards (`none` once it has been freed). -/
def mfs_vclose (vol : MFSVolume) : Option (Int × Option Errno × Option MFSVolume) :=
  if vol.openForks ≠ 0 then some (-1, some .EBUSY, some vol)
  else
    match mfs_directory_free vol.directory with
    | none => none
    | some _ => some (0, none, none)

/-! ## AppleDouble header -/

/-- The 12 bytes of one `AppleDoubleEntry` (type, offset, length), each
field stored with `htonl`. -/
def appleDoubleEntry (type offset length : Nat) : List Nat :=
  htonl (toU32 type) ++ htonl (toU32 offset) ++ htonl (toU32 length)

/-- Byte offset of `as->entry[e]` in the packed `struct AppleDouble`. -/
def entryOffset (e : Nat) : Nat := 26 + 12 * e

/-- The bytes `"Macintosh       "` copied into `as->filesystem`. -/
def appleDoubleFilesystem : List Nat :=
  [0x4D, 0x61, 0x63, 0x69, 0x6E, 0x74, 0x6F, 0x73, 0x68,
   0x20, 0x20, 0x20, 0x20, 0x20, 0x20, 0x20]

/-- The bytes `strcpy` copies from a C string: up to and with the first NUL. -/
def strcpyBytes (mem : List Nat) : List Nat := mem.takeWhile (· ≠ 0) ++ [0]

/-- The zeroed buffer of `kAppleDoubleHeaderLength` bytes with magic,
version and filesystem tag written. -/
def appleDoubleInit : List Nat :=
  writeAt (writeAt (writeAt (List.replicate kAppleDoubleHeaderLength 0)
    0 (htonl kAppleDoubleMagic)) 4 (htonl kAppleDoubleVersion)) 8 appleDoubleFilesystem

/-- The finder-comment step shared by `mfs_fkopen` and `mfs_dhopen`,
followed by the store of `numEntries`.  `comment` stands for the external
Desktop bridge (`mfs_desktop` and `res_read`): `some c` when it reports a
comment, `c` being the bytes (at most 256) it has stored at
`kAppleDoubleCommentOffset`.  The bridge opens and closes the resource fork
of the Desktop file on its first use and leaves `openForks` as it found it. -/
def appleDoubleFinish (as : List Nat) (e : Nat) (comment : Option (List Nat)) : List Nat :=
  match comment with
  | some c =>
    let as1 := writeAt as kAppleDoubleCommentOffset (c.take 256)
    let as2 := writeAt as1 (entryOffset e)
      (appleDoubleEntry kAppleDoubleCommentEntry kAppleDoubleCommentOffset (c.take 256).length)
    writeAt as2 24 (htons (toU16 (e + 1)))
  | none => writeAt as 24 (htons (toU16 e))

/-- The header `mfs_fkopen` builds in AppleDouble mode for record `r` and
fork length `fkLgLen`. -/
def mfs_fkopen_header (r : MFSDirectoryRecord) (fkLgLen : Nat) (comment : Option (List Nat)) :
    List Nat :=
  let as0 := appleDoubleInit
  let e0 := 0
  -- resource fork
  let as1 := if fkLgLen ≠ 0 then
      writeAt as0 (entryOffset e0)
        (appleDoubleEntry kAppleDoubleResourceForkEntry kAppleDoubleResourceForkOffset fkLgLen)
    else as0
  let e1 := if fkLgLen ≠ 0 then e0 + 1 else e0
  -- real name
  let as2 := writeAt as1 (entryOffset e1)
    (appleDoubleEntry kAppleDoubleRealNameEntry kAppleDoubleRealNameOffset r.flNam0)
  let as3 := writeAt as2 kAppleDoubleRealNameOffset (strcpyBytes (flCNameMem r))
  let e2 := e1 + 1
  -- file info
  let as4 := writeAt as3 (entryOffset e2)
    (appleDoubleEntry kAppleDoubleFileInfoEntry kAppleDoubleFileInfoOffset
      kAppleDoubleFileInfoLength)
  let as5 := writeAt as4 kAppleDoubleFileInfoOffset
    (htonl r.flCrDat ++ htonl r.flMdDat ++ htonl 0 ++ htonl (toU32 (r.flFlags &&& 0x7F)))
  let e3 := e2 + 1
  -- finder info
  let as6 := writeAt as5 (entryOffset e3)
    (appleDoubleEntry kAppleDoubleFinderInfoEntry kAppleDoubleFinderInfoOffset
      kAppleDoubleFinderInfoLength)
  let as7 := writeAt as6 kAppleDoubleFinderInfoOffset (r.flUsrWds.take 16)
  let e4 := e3 + 1
  appleDoubleFinish as7 e4 comment

/-- Conversion of an `int16_t` to `uint16_t`. -/
def ofInt16 (i : Int) : Nat := (i % 2 ^ 16).toNat

/-- The header `mfs_dhopen` builds for a folder. -/
def mfs_dhopen_header (folder : MFSFolder) (comment : Option (List Nat)) : List Nat :=
  let as0 := appleDoubleInit
  let e0 := 0
  -- real name
  let as1 := writeAt as0 (entryOffset e0)
    (appleDoubleEntry kAppleDoubleRealNameEntry kAppleDoubleRealNameOffset
      (folder.fdCNam.takeWhile (· ≠ 0)).length)
  let as2 := writeAt as1 kAppleDoubleRealNameOffset (strcpyBytes folder.fdCNam)
  let e1 := e0 + 1
  -- file info
  let as3 := writeAt as2 (entryOffset e1)
    (appleDoubleEntry kAppleDoubleFileInfoEntry kAppleDoubleFileInfoOffset
      kAppleDoubleFileInfoLength)
  let as4 := writeAt as3 kAppleDoubleFileInfoOffset
    (htonl folder.fdCrDat ++ htonl folder.fdMdDat ++ htonl 0 ++ htonl 0)
  let e2 := e1 + 1
  -- finder info
  let finfo : List Nat :=
    [0, 0, 0, 0] ++ [0, 0, 0, 0] ++ htons (ofInt16 folder.fdFlags) ++
      htons (ofInt16 folder.fdLocV) ++ htons (ofInt16 folder.fdLocH) ++ [0, 0]
  let as5 := writeAt as4 (entryOffset e2)
    (appleDoubleEntry kAppleDoubleFinderInfoEntry kAppleDoubleFinderInfoOffset
      kAppleDoubleFinderInfoLength)
  let as6 := writeAt as5 kAppleDoubleFinderInfoOffset finfo
  let e3 := e2 + 1
  appleDoubleFinish as6 e3 comment

/-! ## Opening and closing forks -/

/-- The loop `for (i = 1; i < fkNmBks; i++)` of `mfs_fkopen` with `count`
iterations left: the entries it stores in `fkAlMap` and the final value of
`lastAlBk`; `none` when `vabm` is read outside its bounds. -/
def mfs_fkopen_loop (vabm : List Nat) : Nat → Nat → Option (List Nat × Nat)
  | 0, lastAlBk => some ([], lastAlBk)
  | count + 1, lastAlBk =>
    match vabm[lastAlBk]? with
    | none => none
    | some next =>
      match mfs_fkopen_loop vabm count next with
      | none => none
      | some (rest, last) => some (next :: rest, last)

/-- The block `if (fkNmBks) ...` of `mfs_fkopen`: the slots of `fkAlMap`
written and whether the terminator test fails. -/
def mfs_fkopen_map (vabm : Option (List Nat)) (fkNmBks first : Nat) : Option (List Nat × Bool) :=
  if fkNmBks ≠ 0 then
    match vabm with
    | none => none
    | some vabm =>
      match mfs_fkopen_loop vabm (fkNmBks - 1) first with
      | none => none
      | some (rest, lastAlBk) =>
        match vabm[lastAlBk]? with
        | none => none
        | some t => some (first :: rest ++ [0], decide (t ≠ kMFSAlBkLast))
  else some ([], false)

/-- `mfs_fkopen (vol, rec, mode, write)` for a non-NULL `vol`: the fork or
the `errno` of the NULL result, and the volume afterwards.  `none` when the
allocation block size is zero or the map is read outside its bounds. -/
def mfs_fkopen (vol : MFSVolume) (r : Option MFSDirectoryRecord) (mode : Int)
    (comment : Option (List Nat)) : Option (Except Errno MFSFork × MFSVolume) :=
  match r with
  | none => some (.error .ENOENT, vol)
  | some r =>
    let isResourceFork : Bool := decide (mode = kMFSForkRsrc ∨ mode = kMFSForkAppleDouble)
    if mode = kMFSForkRsrc ∧ r.flRStBlk = 0 then some (.error .ENOENT, vol)
    else if vol.mdb.drAlBlkSiz = 0 then none
    else
      let fkNmBks := toU16 ((if isResourceFork then r.flRPyLen else r.flPyLen) / vol.mdb.drAlBlkSiz)
      let fkLgLen := if isResourceFork then r.flRLgLen else r.flLgLen
      match mfs_fkopen_map vol.vabm fkNmBks (if isResourceFork then r.flRStBlk else r.flStBlk) with
      | none => none
      | some (fkAlMap, bad) =>
        if bad then some (.error .EFBIG, vol)
        else
          let fk : MFSFork :=
            { _fkSgn := kMFSForkSignature
              fkDrRec := some r
              fkLgLen := fkLgLen
              fkNmBks := fkNmBks
              fkMode := mode
              fkAppleDouble :=
                if mode = kMFSForkAppleDouble then some (mfs_fkopen_header r fkLgLen comment)
                else none
              fkOffset := 0
              fkAlMap := fkAlMap }
          some (.ok fk, { vol with openForks := toU64 (vol.openForks + 1) })

/-- `mfs_dhopen (vol, folder)`: the fork (`none` for the NULL result) and the
volume afterwards. -/
def mfs_dhopen (vol : MFSVolume) (folder : Option MFSFolder) (comment : Option (List Nat)) :
    Option MFSFork × MFSVolume :=
  match folder with
  | none => (none, vol)
  | some folder =>
    let fk : MFSFork :=
      { _fkSgn := kMFSForkSignature
        fkDrRec := none
        fkLgLen := 0
        fkNmBks := 0
        fkMode := kMFSForkAppleDouble
        fkAppleDouble := some (mfs_dhopen_header folder comment)
        fkOffset := 0
        fkAlMap := [] }
    (some fk, { vol with openForks := toU64 (vol.openForks + 1) })

/-- `mfs_fkclose (fk)`, `vol` being the volume `fk->fkVol` points to: the
value returned, the `errno` set, the memory of the handle and the volume
afterwards.  On success the function stores 0 in `_fkSgn` and then frees the
handle: the memory of the handle is `none` afterwards, and every later use of
the pointer is a use of freed memory.  On failure the handle is as it was. -/
def mfs_fkclose (vol : MFSVolume) (fk : MFSFork) :
    Int × Option Errno × Option MFSFork × MFSVolume :=
  if fk._fkSgn ≠ kMFSForkSignature then (-1, some .EBADF, some fk, vol)
  else (0, none, none, { vol with openForks := toU64 (vol.openForks + 2 ^ 64 - 1) })

/-! ## Reading forks -/

/-- The loop `while (btr)` of `mfs_fkread_at_real`: `bk` is the block
buffer, `out` the bytes copied to `buf` so far.  Every iteration copies at
least one byte when the block size is positive, so `fuel = btr` iterations
suffice (`mfs_fkread_at_real_loop_fuel`).  `none` when `fkAlMap` is read outside the slots written. -/
def mfs_fkread_at_real_loop (vol : MFSVolume) (fk : MFSFork) :
    Nat → Nat → Nat → List Nat → List Nat → Option (List Nat)
  | 0, _, _, _, out => some out
  | fuel + 1, btr, bkn, bk, out =>
    if btr = 0 then some out
    else
      match fk.fkAlMap[bkn]? with
      | none => none
      | some start =>
        let bk1 := (mfs_albkread vol 1 start bk).2
        let bkBtr := if vol.mdb.drAlBlkSiz ≤ btr then vol.mdb.drAlBlkSiz else btr
        mfs_fkread_at_real_loop vol fk fuel (btr - bkBtr) (toU16 (bkn + 1)) bk1
          (out ++ bk1.take bkBtr)

/-- `mfs_fkread_at_real (fk, size, offset, buf)`: the value returned and the
bytes stored in `buf`, in order.  `heap i` is the byte that the block buffer
obtained from `malloc` holds at index `i` before the first read. -/
def mfs_fkread_at_real (vol : MFSVolume) (fk : MFSFork) (size offset : Nat) (heap : Nat → Nat) :
    Option (Int × List Nat) :=
  if size = 0 then some (0, [])
  else if fk.fkLgLen ≤ offset then some (0, [])
  else
    let size1 := if fk.fkLgLen < toU64 (offset + size) then fk.fkLgLen - offset else size
    if vol.mdb.drAlBlkSiz = 0 then none
    else
      let bkn := toU16 (offset / vol.mdb.drAlBlkSiz)
      let bk1Off := offset % vol.mdb.drAlBlkSiz
      let bk0 := (List.range vol.mdb.drAlBlkSiz).map heap
      -- read first block
      match fk.fkAlMap[bkn]? with
      | none => none
      | some start =>
        let bk := (mfs_albkread vol 1 start bk0).2
        let bkBtr := if size1 < vol.mdb.drAlBlkSiz - bk1Off then size1
          else vol.mdb.drAlBlkSiz - bk1Off
        -- read other blocks
        match mfs_fkread_at_real_loop vol fk (size1 - bkBtr) (size1 - bkBtr) (toU16 (bkn + 1)) bk
            (slice bk bk1Off bkBtr) with
        | none => none
        | some out => some (toInt32 size1, out)

/-- `mfs_fkread_at_appledouble (fk, size, offset, buf)`.  The sum
`kAppleDoubleHeaderLength + fk->fkLgLen` of an `int` and a `uint32_t` is
formed in `unsigned int` before it is stored in the `size_t asLgLen`.
`none` also when the header pointer is NULL or the header is read past its
end. -/
def mfs_fkread_at_appledouble (vol : MFSVolume) (fk : MFSFork) (size offset : Nat)
    (heap : Nat → Nat) : Option (Int × List Nat) :=
  if size = 0 then some (0, [])
  else
    let asLgLen := toU32 (kAppleDoubleHeaderLength + fk.fkLgLen)
    if asLgLen ≤ offset then some (0, [])
    else
      let size1 := if asLgLen < toU64 (offset + size) then asLgLen - offset else size
      -- read in resource fork only
      if kAppleDoubleResourceForkOffset ≤ offset then
        mfs_fkread_at_real vol fk size1 (offset - kAppleDoubleResourceForkOffset) heap
      else
        -- read from AppleDouble header
        let hdBtr := if size1 < kAppleDoubleHeaderLength - offset then size1
          else kAppleDoubleHeaderLength - offset
        match fk.fkAppleDouble with
        | none => none
        | some as =>
          if as.length < hdBtr then none
          else
            let btr := size1 - hdBtr
            -- read from fork
            if btr ≠ 0 then
              match mfs_fkread_at_real vol fk btr 0 heap with
              | none => none
              | some (n, out) => some (toInt32 (toU64 (hdBtr + ofInt64 n)), as.take hdBtr ++ out)
            else some (toInt32 size1, as.take hdBtr)

/-- `mfs_fkread_at (fk, size, offset, buf)`.  The `switch` has no default:
for any other mode the function ends without a `return`. -/
def mfs_fkread_at (vol : MFSVolume) (fk : MFSFork) (size offset : Nat) (heap : Nat → Nat) :
    Option (Int × List Nat) :=
  if fk.fkMode = kMFSForkData ∨ fk.fkMode = kMFSForkRsrc then
    mfs_fkread_at_real vol fk size offset heap
  else if fk.fkMode = kMFSForkAppleDouble then
    mfs_fkread_at_appledouble vol fk size offset heap
  else none

/-- `mfs_fkread (fk, buf, length)`: the `int` of `mfs_fkread_at` converted to
`unsigned long`, and the bytes stored. -/
def mfs_fkread (vol : MFSVolume) (fk : MFSFork) (length : Nat) (heap : Nat → Nat) :
    Option (Nat × List Nat) :=
  match mfs_fkread_at vol fk length fk.fkOffset heap with
  | none => none
  | some (n, out) => some (ofInt64 n, out)

/-- `mfs_fkseek (fk, offset, whence)`: the value returned and the handle
afterwards.  `offset` is a `long`. -/
def mfs_fkseek (fk : MFSFork) (offset : Int) (whence : Int) : Nat × MFSFork :=
  let fkLen := toU32 (fk.fkLgLen +
    (if fk.fkMode = kMFSForkAppleDouble then kAppleDoubleHeaderLength else 0))
  let fk1 : MFSFork :=
    if whence = SEEK_SET then { fk with fkOffset := ofInt64 offset }
    else if whence = SEEK_END then { fk with fkOffset := ofInt64 ((fkLen : Int) + offset) }
    else if whence = SEEK_CUR then { fk with fkOffset := ofInt64 ((fk.fkOffset : Int) + offset) }
    else fk
  (fk1.fkOffset, fk1)

/-- `mfs_ftell (fk)`. -/
def mfs_ftell (fk : MFSFork) : Int := toInt64 fk.fkOffset

/-! ## Time -/

/-- `struct timespec`. -/
structure Timespec where
  tv_sec : Int
  tv_nsec : Int
deriving DecidableEq, Repr

/-- `mfs_time (mfsDate)`: `mfsDate - kMFSTimeDelta`.  `mfsDate` is a
`uint32_t` and the constant `2082844800` an `int`, so the subtraction is done
in `unsigned int`; its result is then converted to the 64-bit `time_t`. -/
def mfs_time (mfsDate : Nat) : Int :=
  toInt64 (toU32 (toU32 mfsDate + 2 ^ 32 - kMFSTimeDelta))

/-- `mfs_timespec (mfsDate)`. -/
def mfs_timespec (mfsDate : Nat) : Timespec :=
  { tv_sec := toInt64 (toU32 (toU32 mfsDate + 2 ^ 32 - kMFSTimeDelta)), tv_nsec := 0 }

/-! ## Folders and paths -/

/-- `mfs_folder_find (vol, fdID)`: the first folder of the array with that
id; NULL for the id `-2` and when the folder array is NULL. -/
def mfs_folder_find (vol : MFSVolume) (fdID : Int) : Option MFSFolder :=
  if fdID = -2 then none
  else
    match vol.folders with
    | none => none
    | some fs => fs.find? (fun f => decide (f.fdID = fdID))

/-- The loop of `mfs_folder_find_name` over the folder array: the first
folder whose name `mfs_fneq` accepts.  The memory of `fdCNam` is the bytes of
the folder name followed by its terminator. -/
def mfs_folder_find_name_loop (name : List Nat) : List MFSFolder → Option (Option MFSFolder)
  | [] => some none
  | f :: fs =>
    match mfs_fneq name (f.fdCNam ++ [0]) with
    | none => none
    | some true => some (some f)
    | some false => mfs_folder_find_name_loop name fs

/-- `mfs_folder_find_name (vol, name)`; `name` is the memory at the pointer. -/
def mfs_folder_find_name (vol : MFSVolume) (name : List Nat) : Option (Option MFSFolder) :=
  match vol.folders with
  | none => some none
  | some fs => mfs_folder_find_name_loop name fs

/-- The bytes of the C string held at the start of a memory object: what
precedes its first NUL; `none` when the object holds no NUL. -/
def cString : List Nat → Option (List Nat)
  | [] => none
  | c :: s => if c = 0 then some [] else (cString s).map (fun t => c :: t)

/-- The string `last` of `mfs_path_info`: `strrchr (path, ':')` advanced by
one, or `path` itself when it holds no `':'`. -/
def afterLastColon : List Nat → List Nat
  | [] => []
  | c :: s => if 0x3A ∈ s then afterLastColon s else if c = 0x3A then s else c :: s

/-- The items `strsep (&next, ":")` yields for a string, in order. -/
def strsepItems : List Nat → List (List Nat)
  | [] => [[]]
  | c :: s =>
    if c = 0x3A then [] :: strsepItems s
    else
      match strsepItems s with
      | [] => [[c]]
      | item :: items => (c :: item) :: items

/-- `ntohs (rec->flUsrWds.folder)`: the last two bytes of the Finder
information, read as an unsigned 16-bit number. -/
def flUsrWdsFolder (r : MFSDirectoryRecord) : Nat := beField r.flUsrWds 14 2

/-- The `for (;;)` loop of `mfs_path_info` over the items of the path.  The
item whose address is `last` is the final one; `parent` is dereferenced where
the C code does, which is undefined for a NULL `parent`. -/
def mfs_path_info_loop (vol : MFSVolume) (r : Option MFSDirectoryRecord) :
    List (List Nat) → Option MFSFolder → Option Nat
  | [], _ => none
  | [item], parent =>
    match mfs_folder_find_name vol (item ++ [0]) with
    | none => none
    | some folder =>
      match r with
      | some r1 =>
        match parent with
        | none => none
        | some p =>
          if (flUsrWdsFolder r1 : Int) ≠ p.fdID then some kMFSPathError
          else some kMFSPathFile
      | none =>
        match folder with
        | some f =>
          match parent with
          | none => none
          | some p =>
            if f.fdParent ≠ p.fdID then some kMFSPathError else some kMFSPathFolder
        | none => some kMFSPathFolder
  | item :: items, parent =>
    match mfs_folder_find_name vol (item ++ [0]) with
    | none => none
    | some none => some kMFSPathError
    | some (some f) =>
      match parent with
      | none => none
      | some p =>
        if f.fdParent ≠ p.fdID then some kMFSPathError
        else mfs_path_info_loop vol r items (some f)

/-- `mfs_path_info (vol, path)`; `path` is the memory at the pointer.  The
allocation of `strdup` is taken to succeed. -/
def mfs_path_info (vol : MFSVolume) (path : List Nat) : Option Nat :=
  match path with
  | [] => none
  | c :: rest =>
    let path1 := if c = 0x3A then rest else c :: rest
    match path1 with
    | [] => none
    | c1 :: _ =>
      if c1 = 0 then some kMFSPathFolder
      else
        match cString path1 with
        | none => none
        | some s =>
          let last := afterLastColon s
          match mfs_directory_find_name vol.directory (last ++ [0]) with
          | none => none
          | some r =>
            match vol.folders with
            | none => if r.isSome then some kMFSPathFile else some kMFSPathError
            | some _ =>
              match mfs_folder_find_name vol (last ++ [0]) with
              | none => none
              | some lastFolder =>
                if lastFolder = none ∧ r = none then some kMFSPathError
                else mfs_path_info_loop vol r (strsepItems s) (mfs_folder_find vol kMFSFolderRoot)

/-! ## Predicates used in the statements -/

/-- A byte string that holds no NUL: the bytes of a C string before its
terminator. -/
def IsName (s : List Nat) : Prop := ∀ c ∈ s, 0 < c ∧ c < 256

instance instDecidableIsName (s : List Nat) : Decidable (IsName s) := by
  unfold IsName
  infer_instance


/-- The content of allocation block `a`: the bytes `mfs_albkread` delivers
for it. -/
def albkContents (vol : MFSVolume) (a : Nat) : List Nat := (mfs_albkread vol 1 a []).2

/-- Allocation block `a` can be read: `mfs_albkread` reports success. -/
def albkReadable (vol : MFSVolume) (a : Nat) : Prop := (mfs_albkread vol 1 a []).1 = 0

instance instDecidableAlbkReadable (vol : MFSVolume) (a : Nat) : Decidable (albkReadable vol a) := by
  unfold albkReadable
  infer_instance

/-- The allocation chain of a fork: the first `fkNmBks` slots of `fkAlMap`. -/
def forkChain (fk : MFSFork) : List Nat := fk.fkAlMap.take fk.fkNmBks

/-- The logical stream of a fork: the contents of the allocation blocks of
its chain, in order. -/
def forkStream (vol : MFSVolume) (fk : MFSFork) : List Nat :=
  ((forkChain fk).map (albkContents vol)).flatten

/-- Example record named `TestFile`. -/
def recTestFile : MFSDirectoryRecord :=
  { flFlags := 0x80, flTyp := 0, flUsrWds := List.replicate 16 0, flFlNum := 1, flStBlk := 2,
    flLgLen := 100, flPyLen := 1024, flRStBlk := 0, flRLgLen := 0, flRPyLen := 0,
    flCrDat := 0, flMdDat := 0, flNam0 := 8,
    flCName := [0x54, 0x65, 0x73, 0x74, 0x46, 0x69, 0x6C, 0x65] }

/-- Example image: 512 bytes of zeros, then four allocation blocks of four
bytes (allocation blocks 2, 3, 4 and 5). -/
def exImage : List Nat :=
  List.replicate 512 0 ++ [10, 11, 12, 13, 20, 21, 22, 23, 30, 31, 32, 33, 40, 41, 42, 43]

/-- Example master directory block: four allocation blocks of four bytes,
the first of them at logical block 1. -/
def exMdb : MFSMasterDirectoryBlock :=
  { drSigWord := 0xD2D7, drCrDate := 0, drLsBkUp := 0, drAtrb := 0, drNmFls := 1, drDirSt := 0,
    drBlLen := 0, drNmAlBlks := 4, drAlBlkSiz := 4, drClpSiz := 0, drAlBlSt := 1,
    drNxtFNum := 2, drFreeBks := 0, drVN := List.replicate 28 0 }

/-- Example record: a data fork of 6 bytes in blocks 2 and 3, a resource
fork of 5 bytes in blocks 4 and 5. -/
def exRec : MFSDirectoryRecord :=
  { flFlags := 0x80, flTyp := 0, flUsrWds := List.replicate 16 0, flFlNum := 1, flStBlk := 2,
    flLgLen := 6, flPyLen := 8, flRStBlk := 4, flRLgLen := 5, flRPyLen := 8,
    flCrDat := 0, flMdDat := 0, flNam0 := 2, flCName := [0x48, 0x69] }

/-- Example volume over `exImage`, with no fork open. -/
def exVol : MFSVolume :=
  { fp := exImage, offset := 0, alBkOff := 504, openForks := 0, mdb := exMdb,
    vabm := some [4, 0x1337, 3, 1, 5, 1], directory := [some exRec, none], folders := none,
    name := List.replicate 28 0 }

/-- The example volume with one fork open. -/
def exVol1 : MFSVolume := { exVol with openForks := 1 }

/-- The example volume with two forks open. -/
def exVol2 : MFSVolume := { exVol with openForks := 2 }

/-- The data fork of `exRec` as `mfs_fkopen` returns it. -/
def exForkData : MFSFork :=
  { _fkSgn := kMFSForkSignature, fkDrRec := some exRec, fkLgLen := 6, fkNmBks := 2,
    fkMode := kMFSForkData, fkAppleDouble := none, fkOffset := 0, fkAlMap := [2, 3, 0] }

/-- The resource fork of `exRec` as `mfs_fkopen` returns it. -/
def exForkRsrc : MFSFork :=
  { _fkSgn := kMFSForkSignature, fkDrRec := some exRec, fkLgLen := 5, fkNmBks := 2,
    fkMode := kMFSForkRsrc, fkAppleDouble := none, fkOffset := 0, fkAlMap := [4, 5, 0] }

/-- The AppleDouble fork of `exRec` as `mfs_fkopen` returns it when the
Desktop bridge reports no comment. -/
def exForkAD : MFSFork :=
  { _fkSgn := kMFSForkSignature, fkDrRec := some exRec, fkLgLen := 5, fkNmBks := 2,
    fkMode := kMFSForkAppleDouble, fkAppleDouble := some (mfs_fkopen_header exRec 5 none),
    fkOffset := 0, fkAlMap := [4, 5, 0] }

/-- `fk` is a handle that `mfs_fkopen`, in one of its three modes, or
`mfs_dhopen` returns on the volume `vol`. -/
def OpenedOn (vol : MFSVolume) (fk : MFSFork) : Prop :=
  (∃ (r : MFSDirectoryRecord) (mode : Int) (comment : Option (List Nat)) (vol1 : MFSVolume),
    (mode = kMFSForkData ∨ mode = kMFSForkRsrc ∨ mode = kMFSForkAppleDouble) ∧
      mfs_fkopen vol (some r) mode comment = some (.ok fk, vol1)) ∨
  (∃ (folder : MFSFolder) (comment : Option (List Nat)) (vol1 : MFSVolume),
    mfs_dhopen vol (some folder) comment = (some fk, vol1))

/-- The virtual length of a fork as the specification words it: the logical
length, with `0x300` more for an AppleDouble fork. -/
def virtualLength (fk : MFSFork) : Nat :=
  if fk.fkMode = kMFSForkAppleDouble then 0x300 + fk.fkLgLen else fk.fkLgLen

/-- The count of a read as the specification words it: 0 when `size = 0` or
`offset >= V`, and `min (size, V - offset)` otherwise. -/
def readCount (fk : MFSFork) (size offset : Nat) : Nat :=
  if size = 0 ∨ virtualLength fk ≤ offset then 0 else min size (virtualLength fk - offset)

/-- A volume whose allocation blocks have `2 ^ 31` bytes. -/
def bigVol : MFSVolume :=
  { fp := [], offset := 0, alBkOff := 512, openForks := 0,
    mdb := { exMdb with drNmAlBlks := 1, drAlBlkSiz := 2147483648 },
    vabm := some [1, 0x1337, 1], directory := [none], folders := none,
    name := List.replicate 28 0 }

/-- A record whose data fork has `2 ^ 31` bytes in one allocation block. -/
def bigRec : MFSDirectoryRecord :=
  { exRec with flStBlk := 2, flLgLen := 2147483648, flPyLen := 2147483648 }

/-- The data fork of `bigRec` as `mfs_fkopen` returns it. -/
def bigFork : MFSFork :=
  { _fkSgn := kMFSForkSignature, fkDrRec := some bigRec, fkLgLen := 2147483648, fkNmBks := 1,
    fkMode := kMFSForkData, fkAppleDouble := none, fkOffset := 0, fkAlMap := [2, 0] }

/-- The allocation chain as the specification words it: `chain[0]` is the
start block and `chain[i] = vabm[chain[i-1]]`; `none` when an entry indexes
outside the map.  For `n >= 1`, `specChain vabm start n` is the entry
`vabm[chain[n-1]]`. -/
def specChain (vabm : List Nat) (start : Nat) : Nat → Option Nat
  | 0 => some start
  | i + 1 =>
    match specChain vabm start i with
    | none => none
    | some c => vabm[c]?

/-- The start block the mode selects. -/
def forkStart (r : MFSDirectoryRecord) (mode : Int) : Nat :=
  if mode = kMFSForkRsrc ∨ mode = kMFSForkAppleDouble then r.flRStBlk else r.flStBlk

/-- The physical EOF the mode selects. -/
def forkPyLen (r : MFSDirectoryRecord) (mode : Int) : Nat :=
  if mode = kMFSForkRsrc ∨ mode = kMFSForkAppleDouble then r.flRPyLen else r.flPyLen

/-- The logical EOF the mode selects. -/
def forkLgLen (r : MFSDirectoryRecord) (mode : Int) : Nat :=
  if mode = kMFSForkRsrc ∨ mode = kMFSForkAppleDouble then r.flRLgLen else r.flLgLen

/-- A volume with allocation blocks of 512 bytes whose block 2 is chained
to itself. -/
def loopVol : MFSVolume :=
  { fp := [], offset := 0, alBkOff := 0, openForks := 0,
    mdb := { exMdb with drNmAlBlks := 1, drAlBlkSiz := 512, drAlBlSt := 2 },
    vabm := some [1, 0x1337, 2], directory := [none], folders := none,
    name := List.replicate 28 0 }

/-- A record whose data fork states a physical EOF of `65536 * 512` bytes. -/
def loopRec : MFSDirectoryRecord :=
  { exRec with flStBlk := 2, flLgLen := 0, flPyLen := 33554432 }

/-- The handle `mfs_fkopen` returns for the data fork of `loopRec`. -/
def loopFork : MFSFork :=
  { _fkSgn := kMFSForkSignature, fkDrRec := some loopRec, fkLgLen := 0, fkNmBks := 0,
    fkMode := kMFSForkData, fkAppleDouble := none, fkOffset := 0, fkAlMap := [] }

/-! ## The volume and its fork handles as a state machine -/

/-- The state of a session on one volume: the volume and the memory of every
handle an open function has returned so far, in the order of their creation
(a handle is named by its index): the words of the handle, or `none` once
`mfs_fkclose` has freed it. -/
structure Session where
  vol : MFSVolume
  forks : List (Option MFSFork)
deriving DecidableEq, Repr

/-- A call of one of the three fork management functions. -/
inductive Call where
  | fkopen (r : Option MFSDirectoryRecord) (mode : Int) (comment : Option (List Nat))
  | dhopen (folder : Option MFSFolder) (comment : Option (List Nat))
  | fkclose (h : Nat)
deriving DecidableEq, Repr

/-- What the caller sees of a call. -/
inductive Outcome where
  | opened (h : Nat)
  | openFailed
  | closed (h : Nat)
  | closeFailed (h : Nat)
deriving DecidableEq, Repr

/-- One call on a session.  `none` when `mfs_fkopen` is undefined, or when
the argument of `mfs_fkclose` is not a handle or is a handle that has been
freed, whose signature word the function would read from freed memory. -/
def step (s : Session) : Call → Option (Session × Outcome)
  | .fkopen r mode comment =>
    match mfs_fkopen s.vol r mode comment with
    | none => none
    | some (.ok fk, vol1) =>
      some ({ vol := vol1, forks := s.forks ++ [some fk] }, .opened s.forks.length)
    | some (.error _, vol1) => some ({ vol := vol1, forks := s.forks }, .openFailed)
  | .dhopen folder comment =>
    match mfs_dhopen s.vol folder comment with
    | (some fk, vol1) =>
      some ({ vol := vol1, forks := s.forks ++ [some fk] }, .opened s.forks.length)
    | (none, vol1) => some ({ vol := vol1, forks := s.forks }, .openFailed)
  | .fkclose h =>
    match s.forks[h]? with
    | none => none
    | some none => none
    | some (some fk) =>
      match mfs_fkclose s.vol fk with
      | (ret, _, fk1, vol1) =>
        some ({ vol := vol1, forks := s.forks.set h fk1 },
          if ret = 0 then .closed h else .closeFailed h)

/-- A sequence of calls: the final session and the outcomes, in order. -/
def run (s : Session) : List Call → Option (Session × List Outcome)
  | [] => some (s, [])
  | c :: cs =>
    match step s c with
    | none => none
    | some (s1, o) =>
      match run s1 cs with
      | none => none
      | some (s2, os) => some (s2, o :: os)

/-- Whether the memory of a handle holds a fork whose signature word is
`kMFSForkSignature`. -/
def isLive (m : Option MFSFork) : Bool :=
  match m with
  | none => false
  | some fk => decide (fk._fkSgn = kMFSForkSignature)

/-- The handles of a session that have not been freed and whose signature
word is `kMFSForkSignature`. -/
def liveForks (s : Session) : List (Option MFSFork) := s.forks.filter isLive

/-- The number of successful opens among the outcomes. -/
def countOpened (os : List Outcome) : Nat :=
  (os.filter (fun o => match o with | .opened _ => true | _ => false)).length

/-- The number of successful closes among the outcomes. -/
def countClosed (os : List Outcome) : Nat :=
  (os.filter (fun o => match o with | .closed _ => true | _ => false)).length

/-- The effect of a call with outcome `o` on the counter `openForks`, as
the specification states it: a successful open adds one, the close of a live
handle subtracts one, a failed call leaves it unchanged. -/
def counterEffect (o : Outcome) (before after : Nat) : Prop :=
  match o with
  | .opened _ => after = before + 1
  | .openFailed => after = before
  | .closed _ => after + 1 = before
  | .closeFailed _ => after = before

/-- Example session: the data fork of `exRec` opened, two opens that fail,
the resource fork opened, the data fork closed. -/
def exCalls : List Call :=
  [.fkopen (some exRec) kMFSForkData none, .fkopen (some recTestFile) kMFSForkRsrc none,
   .dhopen none none, .fkopen (some exRec) kMFSForkRsrc none, .fkclose 0]

/-- The outcomes of `exCalls`. -/
def exOutcomes : List Outcome :=
  [.opened 0, .openFailed, .openFailed, .opened 1, .closed 0]

/-- The session `exCalls` leads to from the example volume: the handle 0 has
been freed, the resource fork is open. -/
def exSession : Session :=
  { vol := exVol1, forks := [none, some exForkRsrc] }

/-- An image of three logical blocks, all zero but for the signature
`D2 D7` at the start of block 2. -/
def goodImage : List Nat := List.replicate 1024 0 ++ [0xD2, 0xD7] ++ List.replicate 510 0

/-- An image of three logical blocks of zeros. -/
def zeroImage : List Nat := List.replicate 1536 0

/-- The volume `mfs_vopen` returns for `goodImage`: no allocation block, no
file. -/
def goodVol : MFSVolume :=
  { volInit goodImage 0 with
    mdb := { (volInit goodImage 0).mdb with drSigWord := 0xD2D7 },
    vabm := some [0, 0x1337], directory := [none] }

/-! ## Case folding as the specification words it -/

/-- Two byte strings have the same length and the same uppercase image at
every index. -/
def sameFold (a b : List Nat) : Prop :=
  a.length = b.length ∧ ∀ i, i < a.length → toupper (a.getD i 0) = toupper (b.getD i 0)

instance instDecidableSameFold (a b : List Nat) : Decidable (sameFold a b) := by
  unfold sameFold
  infer_instance

/-! ## The AppleDouble header as a sequence of stores -/

/-- The effect of a sequence of stores `(pos, bytes)` on a buffer, in
order. -/
def writeAll (buf : List Nat) (ws : List (Nat × List Nat)) : List Nat :=
  ws.foldl (fun b w => writeAt b w.1 w.2) buf

/-- The stores of `appleDoubleFinish`, in order. -/
def finishStores (e : Nat) (comment : Option (List Nat)) : List (Nat × List Nat) :=
  match comment with
  | some c =>
    [(kAppleDoubleCommentOffset, c.take 256),
     (entryOffset e, appleDoubleEntry kAppleDoubleCommentEntry kAppleDoubleCommentOffset
        (c.take 256).length),
     (24, htons (toU16 (e + 1)))]
  | none => [(24, htons (toU16 e))]

/-- The stores `mfs_fkopen` makes into the zeroed header buffer, in order;
`e` is the number of the first entry after the resource fork entry. -/
def headerStores (r : MFSDirectoryRecord) (fkLgLen : Nat) (comment : Option (List Nat)) :
    List (Nat × List Nat) :=
  let e := if fkLgLen ≠ 0 then 1 else 0
  [(0, htonl kAppleDoubleMagic), (4, htonl kAppleDoubleVersion), (8, appleDoubleFilesystem)] ++
  (if fkLgLen ≠ 0 then
    [(entryOffset 0, appleDoubleEntry kAppleDoubleResourceForkEntry
        kAppleDoubleResourceForkOffset fkLgLen)]
   else []) ++
  [(entryOffset e, appleDoubleEntry kAppleDoubleRealNameEntry kAppleDoubleRealNameOffset
      r.flNam0),
   (kAppleDoubleRealNameOffset, strcpyBytes (flCNameMem r)),
   (entryOffset (e + 1), appleDoubleEntry kAppleDoubleFileInfoEntry kAppleDoubleFileInfoOffset
      kAppleDoubleFileInfoLength),
   (kAppleDoubleFileInfoOffset, htonl r.flCrDat ++ htonl r.flMdDat ++ htonl 0 ++
      htonl (toU32 (r.flFlags &&& 0x7F))),
   (entryOffset (e + 1 + 1), appleDoubleEntry kAppleDoubleFinderInfoEntry
      kAppleDoubleFinderInfoOffset kAppleDoubleFinderInfoLength),
   (kAppleDoubleFinderInfoOffset, r.flUsrWds.take 16)] ++
  finishStores (e + 1 + 1 + 1) comment

/-- The entry descriptors (type, offset, length) the specification lists for
the header of a record when there is no comment, in order. -/
def specDescriptors (r : MFSDirectoryRecord) : List (Nat × Nat × Nat) :=
  (if r.flRLgLen ≠ 0 then [(2, 0x300, r.flRLgLen)] else []) ++
    [(3, 0xA0, r.flNam0), (7, 0x70, 16), (9, 0x80, 32)]

/-- The 12 bytes of a descriptor: three big-endian 32-bit numbers. -/
def descriptorBytes (d : Nat × Nat × Nat) : List Nat := htonl d.1 ++ htonl d.2.1 ++ htonl d.2.2

/-- The 53 bytes of a directory record on disk: flags `0x85`, type `TEXT`,
creator `ttxt`, folder 5, a data fork of 6 bytes in block 2, a resource fork
of 5 bytes in block 4, creation date `0xA0B1C2D3`, modification date
`0xA4B5C6D7`, name `Hi`. -/
def exRecBytes : List Nat :=
  [0x85, 0,
   0x54, 0x45, 0x58, 0x54, 0x74, 0x74, 0x78, 0x74, 0x01, 0x00, 0, 0x20, 0, 0x30, 0, 5,
   0, 0, 0, 1, 0, 2, 0, 0, 0, 6, 0, 0, 0, 8, 0, 4, 0, 0, 0, 5, 0, 0, 0, 8,
   0xA0, 0xB1, 0xC2, 0xD3, 0xA4, 0xB5, 0xC6, 0xD7, 2, 0x48, 0x69]

/-- The AppleDouble fork of the record of `exRecBytes` as `mfs_fkopen` returns
it on the example volume, with the comment `c`. -/
def exForkBytes (c : Option (List Nat)) : MFSFork :=
  { _fkSgn := kMFSForkSignature, fkDrRec := some (mfs_directory_record exRecBytes),
    fkLgLen := 5, fkNmBks := 2, fkMode := kMFSForkAppleDouble,
    fkAppleDouble := some (mfs_fkopen_header (mfs_directory_record exRecBytes) 5 c),
    fkOffset := 0, fkAlMap := [4, 5, 0] }

/-! ## Volumes with folders -/

/-- The signed reading of a 16-bit number. -/
def toInt16 (n : Nat) : Int :=
  if n % 2 ^ 16 < 2 ^ 15 then (n % 2 ^ 16 : Nat) else (n % 2 ^ 16 : Nat) - 2 ^ 16

/-- A folder with the given id, parent and name. -/
def folderOf (fdID fdParent : Int) (name : List Nat) : MFSFolder :=
  { fdID := fdID, fdParent := fdParent, fdSubdirs := 0, fdCrDat := 0, fdMdDat := 0,
    fdFlags := 0, fdLocV := 0, fdLocH := 0, fdCNam := name }

/-- A record named `Hello` whose Finder information ends with the two bytes
`folder`. -/
def recHello (folder : List Nat) : MFSDirectoryRecord :=
  { exRec with
    flUsrWds := List.replicate 14 0 ++ folder, flNam0 := 5,
    flCName := [0x48, 0x65, 0x6C, 0x6C, 0x6F] }

/-- The root folder, named `Disk`. -/
def folderRoot : MFSFolder := folderOf 0 (-2) [0x44, 0x69, 0x73, 0x6B]

/-- The folder `Apps`: id 5, in the root. -/
def folderApps : MFSFolder := folderOf 5 0 [0x41, 0x70, 0x70, 0x73]

/-- The folder `Trash`: id -3, in the root. -/
def folderTrash : MFSFolder := folderOf (-3) 0 [0x54, 0x72, 0x61, 0x73, 0x68]

/-- The folder `Other`: id 3, in the root. -/
def folderOther : MFSFolder := folderOf 3 0 [0x4F, 0x74, 0x68, 0x65, 0x72]

/-- The folder `Sub` of id 1, in the folder `Other`. -/
def folderSubOther : MFSFolder := folderOf 1 3 [0x53, 0x75, 0x62]

/-- The folder `Sub` of id 2, in the root. -/
def folderSubRoot : MFSFolder := folderOf 2 0 [0x53, 0x75, 0x62]

/-- A volume with the folder `Apps` and the file `Hello` whose folder field
is 5. -/
def appsVol : MFSVolume :=
  { exVol with
    directory := [some (recHello [0, 5]), none],
    folders := some [folderRoot, folderApps] }

/-- A volume with the folder `Trash` and the file `Hello` whose folder field
is `FF FD`, that is -3. -/
def trashVol : MFSVolume :=
  { exVol with
    directory := [some (recHello [0xFF, 0xFD]), none],
    folders := some [folderRoot, folderTrash] }

/-- A volume with two folders named `Sub`, the one inside `Other` first in
the folder array; the file `Hello` lies in the one inside the root. -/
def dupVol : MFSVolume :=
  { exVol with
    directory := [some (recHello [0, 2]), none],
    folders := some [folderRoot, folderOther, folderSubOther, folderSubRoot] }

/-- The volume `dupVol` without the folder `Sub` of id 1. -/
def dupVolOne : MFSVolume :=
  { dupVol with folders := some [folderRoot, folderOther, folderSubRoot] }

/-- The path `:Apps:Hello`. -/
def pathAppsHello : List Nat :=
  [0x3A, 0x41, 0x70, 0x70, 0x73, 0x3A, 0x48, 0x65, 0x6C, 0x6C, 0x6F, 0]

/-- The path `:Hello`. -/
def pathHello : List Nat := [0x3A, 0x48, 0x65, 0x6C, 0x6C, 0x6F, 0]

/-- The path `:Trash:Hello`. -/
def pathTrashHello : List Nat :=
  [0x3A, 0x54, 0x72, 0x61, 0x73, 0x68, 0x3A, 0x48, 0x65, 0x6C, 0x6C, 0x6F, 0]

/-- The path `:Sub:Hello`. -/
def pathSubHello : List Nat :=
  [0x3A, 0x53, 0x75, 0x62, 0x3A, 0x48, 0x65, 0x6C, 0x6C, 0x6F, 0]

/-! ## A fork whose virtual length is `2 ^ 32`, seeking, a short image -/

/-- A volume whose allocation blocks have `0xFFFFFE00` bytes. -/
def wrapVol : MFSVolume :=
  { fp := [], offset := 0, alBkOff := 1536, openForks := 0,
    mdb := { exMdb with drNmAlBlks := 1, drAlBlkSiz := 0xFFFFFE00 },
    vabm := some [1, 0x1337, 1], directory := [none], folders := none,
    name := List.replicate 28 0 }

/-- A record whose resource fork has `0xFFFFFD00` bytes in one allocation
block. -/
def wrapRec : MFSDirectoryRecord :=
  { exRec with flRStBlk := 2, flRLgLen := 0xFFFFFD00, flRPyLen := 0xFFFFFE00 }

/-- The resource fork of `wrapRec` as `mfs_fkopen` returns it. -/
def wrapForkRsrc : MFSFork :=
  { _fkSgn := kMFSForkSignature, fkDrRec := some wrapRec, fkLgLen := 0xFFFFFD00, fkNmBks := 1,
    fkMode := kMFSForkRsrc, fkAppleDouble := none, fkOffset := 0, fkAlMap := [2, 0] }

/-- The AppleDouble fork of `wrapRec` as `mfs_fkopen` returns it. -/
def wrapForkAD : MFSFork :=
  { _fkSgn := kMFSForkSignature, fkDrRec := some wrapRec, fkLgLen := 0xFFFFFD00, fkNmBks := 1,
    fkMode := kMFSForkAppleDouble,
    fkAppleDouble := some (mfs_fkopen_header wrapRec 0xFFFFFD00 none),
    fkOffset := 0, fkAlMap := [2, 0] }

/-- The offset a seek asks for, as the specification words it: `offset` for
`SEEK_SET`, `c + offset` for `SEEK_CUR`, `V + offset` for `SEEK_END`, and the
current offset `c` for any other `whence`. -/
def seekTarget (fk : MFSFork) (offset whence : Int) : Int :=
  if whence = SEEK_SET then offset
  else if whence = SEEK_CUR then (fk.fkOffset : Int) + offset
  else if whence = SEEK_END then (virtualLength fk : Int) + offset
  else (fk.fkOffset : Int)

/-- The example volume with one fork open, its image cut after allocation
block 2. -/
def shortVol : MFSVolume := { exVol1 with fp := exImage.take 516 }

/-! ## Comment ids -/

/-- The low 16 bits of `flCName[i]` once promoted to `int`: plain `char` is
signed, so a byte of `0x80` and more is extended with ones. -/
def charBits (c : Nat) : Nat := if c % 256 < 128 then c % 256 else c % 256 + 0xFF00

/-- One iteration of the loop of `mfs_comment_id`.  The `int16_t hash` is
held as its 16-bit two's complement pattern: `hash ^= c`, then the rotation
(`(hash >> 1) | 0x8000` when bit 0 is set, `(hash >> 1) & 0x7fff` otherwise,
each stored back into 16 bits), then `hash = -hash` when `hash > 0`. -/
def mfs_comment_id_step (hash c : Nat) : Nat :=
  let h1 := hash ^^^ charBits c
  let h2 := if h1 &&& 1 ≠ 0 then toU16 ((h1 >>> 1) ||| 0x8000) else (h1 >>> 1) &&& 0x7fff
  if 0 < h2 ∧ h2 < 0x8000 then toU16 (0x10000 - h2) else h2

/-- The loop `for (i = 0; flCName[i]; i++)` of `mfs_comment_id` on the memory
from `flCName + i` on; `none` when the object holds no NUL. -/
def mfs_comment_id_loop : Nat → List Nat → Option Nat
  | _, [] => none
  | hash, c :: s => if c = 0 then some hash else mfs_comment_id_loop (mfs_comment_id_step hash c) s

/-- `mfs_comment_id (flCName)`: the `int16_t` returned. -/
def mfs_comment_id (flCName : List Nat) : Option Int :=
  (mfs_comment_id_loop 0 flCName).map toInt16

/-- The rotation of a 16-bit pattern to the right by one: the old bit 0
becomes bit 15. -/
def ror16 (h : Nat) : Nat := (h >>> 1) ||| ((h &&& 1) <<< 15)

/-- One step of the reference fold of the specification on the 16-bit
pattern of the hash, `b` being an unsigned byte. -/
def specCommentStep (hash b : Nat) : Nat :=
  let h := ror16 (hash ^^^ b)
  if 0 < toInt16 h then toU16 (0x10000 - h) else h

/-- The reference fold of the specification over the bytes of a string. -/
def specCommentId (s : List Nat) : Int := toInt16 (s.foldl specCommentStep 0)

/-! ## The allocation block map on disk -/

/-- The number of logical blocks `mfs_vabm` reads for `drNmAlBlks` entries:
`vabm_blks`, from `vabm_size = (drNmAlBlks * 3) / 2` and
`vabm_span = vabm_size + sizeof (MFSMasterDirectoryBlock)`. -/
def vabm_blks (drNmAlBlks : Nat) : Nat :=
  ((drNmAlBlks * 3) / 2 + 64) / kMFSBlockSize +
    (if ((drNmAlBlks * 3) / 2 + 64) % kMFSBlockSize ≠ 0 then 1 else 0)

/-- The byte `b[i]` of the packed map of a volume: byte `64 + i` of logical
block 2. -/
def packedByte (vol : MFSVolume) (i : Nat) : Nat := vol.fp.getD (vol.offset + 1024 + 64 + i) 0

/-- A volume of four allocation blocks whose image of three logical blocks
holds the packed map `00 30 01 00 50 01`. -/
def mapVol : MFSVolume :=
  { exVol with
    fp := List.replicate 1088 0 ++ [0x00, 0x30, 0x01, 0x00, 0x50, 0x01] ++ List.replicate 442 0 }

/-- A volume of 299 allocation blocks over an image of four logical blocks
of zeros. -/
def vabmVol : MFSVolume :=
  { exVol with fp := List.replicate 2048 0, mdb := { exMdb with drNmAlBlks := 299 } }

/-! ## Well-formed directory areas -/

/-- A used record as it lies in a directory block: a flags byte that is not
zero, `51 + flNam[0]` bytes, and one more byte when that number is odd. -/
def IsPaddedRecord (p : List Nat) : Prop :=
  p.getD 0 0 ≠ 0 ∧ p.length = 51 + p.getD 50 0 + (51 + p.getD 50 0) % 2

instance instDecidableIsPaddedRecord (p : List Nat) : Decidable (IsPaddedRecord p) := by
  unfold IsPaddedRecord
  infer_instance

/-- The record `mfs_directory_record` makes of the bytes of a padded record. -/
def recordOf (p : List Nat) : MFSDirectoryRecord :=
  mfs_directory_record (p.take (51 + p.getD 50 0))

/-- The bytes of a directory block: a run of padded records, a zero flags
byte, and the rest of the block. -/
def blockBytes (b : List (List Nat) × List Nat) : List Nat := b.1.flatten ++ 0 :: b.2

/-- The bytes of a directory area made of the given blocks. -/
def areaBytes (blocks : List (List (List Nat) × List Nat)) : List Nat :=
  (blocks.map blockBytes).flatten

/-- The records of a directory area, in block order and then in-block order. -/
def areaRecords (blocks : List (List (List Nat) × List Nat)) : List MFSDirectoryRecord :=
  (blocks.map (fun b => b.1.map recordOf)).flatten

/-- The vector of record pointers after the records `rs` have been stored
from index `cnt` on. -/
def storeRecords (dir : List (Option MFSDirectoryRecord)) (cnt : Nat) :
    List MFSDirectoryRecord → List (Option MFSDirectoryRecord)
  | [] => dir
  | r :: rs => storeRecords (dir.set cnt (some r)) (cnt + 1) rs

/-! ## Directory areas -/

/-- The bytes of a used directory record on disk with the given name: flags
`0x80`, all other fields zero. -/
def dirRec (name : List Nat) : List Nat :=
  [0x80, 0] ++ List.replicate 48 0 ++ [name.length] ++ name

/-- A name of 13 bytes, which makes a record of 64 bytes. -/
def name13 : List Nat := List.replicate 13 0x41

/-- A volume whose directory is the area of `drBlLen` logical blocks at the
start of its image and whose master directory block states `drNmFls` files. -/
def dirVol (area : List Nat) (drBlLen drNmFls : Nat) : MFSVolume :=
  { exVol with
    fp := area,
    mdb := { exMdb with drDirSt := 0, drBlLen := drBlLen, drNmFls := drNmFls } }

/-- A directory block with the records `A` and `B`. -/
def blockAB : List Nat := dirRec [0x41] ++ dirRec [0x42] ++ List.replicate 408 0

/-- A directory block with the records `A`, `B` and `C`. -/
def blockABC : List Nat :=
  dirRec [0x41] ++ dirRec [0x42] ++ dirRec [0x43] ++ List.replicate 356 0

/-- A directory block filled to its last byte by eight records of 64 bytes. -/
def blockFull : List Nat :=
  dirRec name13 ++ dirRec name13 ++ dirRec name13 ++ dirRec name13 ++
  dirRec name13 ++ dirRec name13 ++ dirRec name13 ++ dirRec name13

/-- A directory block with the record `A` alone. -/
def blockA : List Nat := dirRec [0x41] ++ List.replicate 460 0

/-! ## The position of an allocation block, the chain indices of a read -/

/-- The position `mfs_albkread` passes to `fseek` for the block `start`:
`vol->offset + vol->alBkOff + drAlBlkSiz * start`, the product being formed
in `unsigned int` and the sums in `size_t`. -/
def albkSeekPos (vol : MFSVolume) (start : Nat) : Nat :=
  toU64 (toU64 (vol.offset + vol.alBkOff) + toU32 (vol.mdb.drAlBlkSiz * start))

/-- The position the specification gives for allocation block `k`. -/
def specAlbkPos (vol : MFSVolume) (k : Nat) : Nat :=
  vol.offset + vol.mdb.drAlBlSt * 512 + (k - 2) * vol.mdb.drAlBlkSiz

/-- A volume, as `mfs_vopen` sets it up, whose allocation blocks of 512
bytes start at logical block 1: the image holds 512 bytes of zeros and then
allocation block 2, filled with `0x41`. -/
def farVol : MFSVolume :=
  { exVol with
    fp := List.replicate 512 0 ++ List.replicate 512 0x41,
    mdb := { exMdb with drAlBlkSiz := 512, drAlBlSt := 1 },
    alBkOff := alBkOffOf { exMdb with drAlBlkSiz := 512, drAlBlSt := 1 } }

/-- The values of `bkn` at which the loop `while (btr)` of
`mfs_fkread_at_real` reads `fkAlMap`, with `fuel` iterations at most; `blk`
is the allocation block size. -/
def mfs_fkread_at_real_loop_reads (blk : Nat) : Nat → Nat → Nat → List Nat
  | 0, _, _ => []
  | fuel + 1, btr, bkn =>
    if btr = 0 then []
    else
      let bkBtr := if blk ≤ btr then blk else btr
      bkn :: mfs_fkread_at_real_loop_reads blk fuel (btr - bkBtr) (toU16 (bkn + 1))

/-- The values of `bkn` at which `mfs_fkread_at_real (fk, size, offset, buf)`
reads `fkAlMap`, in order: the one of the first block, then those of the
loop. -/
def mfs_fkread_at_real_reads (vol : MFSVolume) (fk : MFSFork) (size offset : Nat) : List Nat :=
  if size = 0 then []
  else if fk.fkLgLen ≤ offset then []
  else
    let size1 := if fk.fkLgLen < toU64 (offset + size) then fk.fkLgLen - offset else size
    if vol.mdb.drAlBlkSiz = 0 then []
    else
      let bkn := toU16 (offset / vol.mdb.drAlBlkSiz)
      let bk1Off := offset % vol.mdb.drAlBlkSiz
      let bkBtr := if size1 < vol.mdb.drAlBlkSiz - bk1Off then size1
        else vol.mdb.drAlBlkSiz - bk1Off
      bkn :: mfs_fkread_at_real_loop_reads vol.mdb.drAlBlkSiz (size1 - bkBtr) (size1 - bkBtr)
        (toU16 (bkn + 1))


/-- The indices at which `mfs_fkopen` reads `vol->vabm`, in order, for a
fork of `count + 1` blocks whose chain has reached `lastAlBk`: one read for
each iteration of the loop left, then the read of the terminator test.  The
list ends at the first index outside `vabm`. -/
def mfs_fkopen_loop_reads (vabm : List Nat) : Nat → Nat → List Nat
  | 0, lastAlBk => [lastAlBk]
  | count + 1, lastAlBk =>
    match vabm[lastAlBk]? with
    | none => [lastAlBk]
    | some next => lastAlBk :: mfs_fkopen_loop_reads vabm count next

/-- The indices at which the block `if (fkNmBks) ...` of `mfs_fkopen` reads
`vol->vabm`. -/
def mfs_fkopen_reads (vabm : List Nat) (fkNmBks first : Nat) : List Nat :=
  if fkNmBks ≠ 0 then mfs_fkopen_loop_reads vabm (fkNmBks - 1) first else []

/-! ## Reads through the cursor -/

/-- One call `mfs_fkread (fk, buf, length)` as a step on the handle: what
the call returns and stores in `buf`, and the words of the handle afterwards.
Neither `mfs_fkread` nor the readers it calls store through `fk`. -/
def mfs_fkread_step (vol : MFSVolume) (fk : MFSFork) (length : Nat) (heap : Nat → Nat) :
    Option ((Nat × List Nat) × MFSFork) :=
  match mfs_fkread vol fk length heap with
  | none => none
  | some r => some (r, fk)

/-- Consecutive calls of `mfs_fkread` on one handle, with no other call in
between: each call comes with its `length` and with the content of the block
buffer that `malloc` gives it.  The results in order and the handle after the
last call. -/
def mfs_fkread_run (vol : MFSVolume) :
    MFSFork → List (Nat × (Nat → Nat)) → Option (List (Nat × List Nat) × MFSFork)
  | fk, [] => some ([], fk)
  | fk, c :: cs =>
    match mfs_fkread_step vol fk c.1 c.2 with
    | none => none
    | some (r, fk1) =>
      match mfs_fkread_run vol fk1 cs with
      | none => none
      | some (rs, fk2) => some (r :: rs, fk2)

/-! ## Inputs on which a decoder leaves its buffer -/

/-- An image of three logical blocks of zeros but for the length byte of the
volume name, byte 36 of block 2, which is 255. -/
def badNameImage : List Nat := List.replicate 1060 0 ++ [255] ++ List.replicate 475 0

/-- The image `badNameImage` with the signature `D2 D7` at the start of
block 2. -/
def sigNameImage : List Nat :=
  List.replicate 1024 0 ++ [0xD2, 0xD7] ++ List.replicate 34 0 ++ [255] ++ List.replicate 475 0

/-- A volume of 299 allocation blocks over an image of four logical blocks
whose packed map holds `b[447] = 0x12` and `b[448] = 0x30`, the second being
the first byte of logical block 3. -/
def oddVol : MFSVolume :=
  { exVol with
    fp := List.replicate 1535 0 ++ [0x12, 0x30] ++ List.replicate 511 0,
    mdb := { exMdb with drNmAlBlks := 299 } }

/-- More iterations than `btr` do not change the result of the read loop. -/
theorem mfs_fkread_at_real_loop_fuel (vol : MFSVolume) (fk : MFSFork)
    (hblk : 0 < vol.mdb.drAlBlkSiz) :
    ∀ (fuel k btr bkn : Nat) (bk out : List Nat), btr ≤ fuel →
      mfs_fkread_at_real_loop vol fk (fuel + k) btr bkn bk out =
        mfs_fkread_at_real_loop vol fk fuel btr bkn bk out := by
  intro fuel
  induction fuel with
  | zero =>
    intro k btr bkn bk out hf
    have h0 : btr = 0 := by omega
    subst h0
    cases k with
    | zero => rfl
    | succ k => simp [mfs_fkread_at_real_loop]
  | succ fuel ih =>
    intro k btr bkn bk out hf
    have hk : fuel + 1 + k = (fuel + k) + 1 := by omega
    rw [hk]
    unfold mfs_fkread_at_real_loop
    by_cases h0 : btr = 0
    · simp [h0]
    · rw [if_neg h0, if_neg h0]
      cases fk.fkAlMap[bkn]? with
      | none => rfl
      | some start =>
        simp only
        apply ih
        split <;> omega

/-- More iterations than `dir_blk.length + 1` do not change the result of
the record walk of a directory block: when the bound is used up, the next
read lies outside the buffer. -/
theorem mfs_directory_block_fuel (dir_blk : List Nat) (block : Nat) :
    ∀ (fuel k rec_offset : Nat) (dir : List (Option MFSDirectoryRecord)) (rec_count : Nat),
      dir_blk.length ≤ block * kMFSBlockSize + rec_offset + 50 + 51 * fuel →
      mfs_directory_block dir_blk block (fuel + k) rec_offset dir rec_count =
        mfs_directory_block dir_blk block fuel rec_offset dir rec_count := by
  intro fuel
  induction fuel with
  | zero =>
    intro k rec_offset dir rec_count hlen
    have hnone : dir_blk[block * kMFSBlockSize + rec_offset + 50]? = none :=
      List.getElem?_eq_none (by omega)
    cases k with
    | zero => rfl
    | succ k =>
      simp only [Nat.zero_add, mfs_directory_block, hnone]
  | succ fuel ih =>
    intro k rec_offset dir rec_count hlen
    have hk : fuel + 1 + k = (fuel + k) + 1 := by omega
    rw [hk]
    unfold mfs_directory_block
    simp only
    cases h1 : dir_blk[block * kMFSBlockSize + rec_offset + 50]? with
    | none => rfl
    | some nam0 =>
      cases h2 : dir_blk[block * kMFSBlockSize + rec_offset]? with
      | none => rfl
      | some flFlags =>
        simp only
        split
        · split
          · rfl
          · split
            · rfl
            · apply ih
              split <;> omega
        · rfl

/-! ## What a successful `mfs_fkopen` establishes -/

theorem mfs_fkopen_loop_length (vabm : List Nat) :
    ∀ (count lastAlBk : Nat) (rest : List Nat) (last : Nat),
      mfs_fkopen_loop vabm count lastAlBk = some (rest, last) → rest.length = count := by
  intro count
  induction count with
  | zero =>
    intro lastAlBk rest last h
    simp [mfs_fkopen_loop] at h
    simp [h.1.symm]
  | succ count ih =>
    intro lastAlBk rest last h
    unfold mfs_fkopen_loop at h
    split at h
    · simp at h
    · rename_i next _
      split at h
      · simp at h
      · rename_i rest1 last1 hrec
        simp only [Option.some.injEq, Prod.mk.injEq] at h
        rw [← h.1]
        simp [ih next rest1 last1 hrec]

theorem mfs_fkopen_map_length (vabm : Option (List Nat)) (fkNmBks first : Nat)
    (alMap : List Nat) (bad : Bool)
    (h : mfs_fkopen_map vabm fkNmBks first = some (alMap, bad)) :
    fkNmBks ≤ alMap.length := by
  unfold mfs_fkopen_map at h
  split at h
  · rename_i hne
    split at h
    · simp at h
    · split at h
      · simp at h
      · rename_i rest lastAlBk hloop
        split at h
        · simp at h
        · simp only [Option.some.injEq, Prod.mk.injEq] at h
          rw [← h.1]
          have := mfs_fkopen_loop_length _ _ _ _ _ hloop
          simp [this]
          omega
  · simp only [Option.some.injEq, Prod.mk.injEq] at h
    omega

/-- What a successful `mfs_fkopen` establishes. -/
theorem mfs_fkopen_ok (vol vol1 : MFSVolume) (r : MFSDirectoryRecord) (mode : Int)
    (comment : Option (List Nat)) (fk : MFSFork)
    (h : mfs_fkopen vol (some r) mode comment = some (.ok fk, vol1)) :
    0 < vol.mdb.drAlBlkSiz ∧
    vol1 = { vol with openForks := toU64 (vol.openForks + 1) } ∧
    fk._fkSgn = kMFSForkSignature ∧ fk.fkMode = mode ∧ fk.fkOffset = 0 ∧
    fk.fkNmBks = toU16 ((if mode = kMFSForkRsrc ∨ mode = kMFSForkAppleDouble then r.flRPyLen
      else r.flPyLen) / vol.mdb.drAlBlkSiz) ∧
    fk.fkLgLen = (if mode = kMFSForkRsrc ∨ mode = kMFSForkAppleDouble then r.flRLgLen
      else r.flLgLen) ∧
    fk.fkNmBks ≤ fk.fkAlMap.length ∧
    fk.fkAppleDouble = (if mode = kMFSForkAppleDouble then
      some (mfs_fkopen_header r fk.fkLgLen comment) else none) ∧
    fk.fkDrRec = some r ∧
    mfs_fkopen_map vol.vabm fk.fkNmBks (if mode = kMFSForkRsrc ∨ mode = kMFSForkAppleDouble
      then r.flRStBlk else r.flStBlk) = some (fk.fkAlMap, false) := by
  unfold mfs_fkopen at h
  simp only at h
  split at h
  · simp at h
  · split at h
    · simp at h
    · rename_i hblk
      split at h
      · simp at h
      · rename_i alMap bad hmap
        split at h
        · simp at h
        · simp only [Option.some.injEq, Prod.mk.injEq, Except.ok.injEq] at h
          obtain ⟨hfk, hvol⟩ := h
          have hlen := mfs_fkopen_map_length _ _ _ _ _ hmap
          subst hfk
          rename_i hbad
          have hbad2 : bad = false := by simpa using hbad
          subst hbad2
          refine ⟨by omega, hvol.symm, rfl, rfl, rfl, ?_, ?_, hlen, rfl, rfl, ?_⟩
          · by_cases hm : mode = kMFSForkRsrc ∨ mode = kMFSForkAppleDouble <;> simp [hm]
          · by_cases hm : mode = kMFSForkRsrc ∨ mode = kMFSForkAppleDouble <;> simp [hm]
          · simp only
            rw [← hmap]
            by_cases hm : mode = kMFSForkRsrc ∨ mode = kMFSForkAppleDouble <;> simp [hm]

/-! ## Reading a data or resource fork -/

theorem albkread_of_readable (vol : MFSVolume) (a : Nat) (bk : List Nat)
    (h : albkReadable vol a) (hbk : bk.length ≤ vol.mdb.drAlBlkSiz) :
    (mfs_albkread vol 1 a bk).2 = albkContents vol a ∧
      (albkContents vol a).length = vol.mdb.drAlBlkSiz := by
  unfold albkReadable mfs_albkread at h
  unfold albkContents mfs_albkread
  simp only [fread, Nat.mul_one] at h ⊢
  generalize hg : List.take vol.mdb.drAlBlkSiz (List.drop (toU64 (toU64 (vol.offset + vol.alBkOff) +
        toU32 (vol.mdb.drAlBlkSiz * a))) vol.fp) = got at h ⊢
  have hle : got.length ≤ vol.mdb.drAlBlkSiz := by
    rw [← hg]; simp [List.length_take]
  split_ifs at h ⊢ with hpos hne
  · simp at h
  · simp at h
  · have hlen : got.length = vol.mdb.drAlBlkSiz := by
      by_contra hne2
      have hlt := lt_of_le_of_ne hle hne2
      rw [Nat.div_eq_of_lt hlt] at hne
      simp at hne
    have hd : List.drop got.length bk = [] := List.drop_eq_nil_of_le (by omega)
    rw [hd]
    simp [hlen]

theorem stream_drop (f : Nat → List Nat) (blk : Nat) (cs : List Nat) (i a : Nat)
    (hall : ∀ c ∈ cs, (f c).length = blk) (hi : cs[i]? = some a) :
    ((cs.map f).flatten).drop (i * blk) = f a ++ ((cs.map f).flatten).drop ((i + 1) * blk) := by
  induction cs generalizing i with
  | nil => simp at hi
  | cons c cs ih =>
    have hc : (f c).length = blk := hall c (List.mem_cons_self _ _)
    have hall2 : ∀ d ∈ cs, (f d).length = blk := fun d hd => hall d (List.mem_cons_of_mem _ hd)
    cases i with
    | zero =>
      simp only [List.getElem?_cons_zero, Option.some.injEq] at hi
      subst hi
      simp only [List.map_cons, List.flatten_cons, Nat.zero_mul, List.drop_zero, Nat.zero_add,
        Nat.one_mul]
      rw [← hc, List.drop_left]
    | succ j =>
      simp only [List.getElem?_cons_succ] at hi
      have h1 : (j + 1) * blk = (f c).length + j * blk := by rw [hc, Nat.succ_mul]; omega
      have h2 : (j + 1 + 1) * blk = (f c).length + (j + 1) * blk := by
        rw [hc, Nat.succ_mul (j + 1)]; omega
      simp only [List.map_cons, List.flatten_cons]
      rw [h1, h2, List.drop_append, List.drop_append]
      exact ih j hall2 hi

theorem forkChain_getElem? (fk : MFSFork) (i : Nat) (hi : i < fk.fkNmBks)
    (hlen : fk.fkNmBks ≤ fk.fkAlMap.length) :
    ∃ a, fk.fkAlMap[i]? = some a ∧ (forkChain fk)[i]? = some a ∧ a ∈ forkChain fk := by
  have h1 : i < fk.fkAlMap.length := by omega
  refine ⟨fk.fkAlMap[i], List.getElem?_eq_getElem h1, ?_, ?_⟩
  · unfold forkChain
    rw [List.getElem?_take_of_lt hi, List.getElem?_eq_getElem h1]
  · unfold forkChain
    have h2 : i < (fk.fkAlMap.take fk.fkNmBks).length := by
      rw [List.length_take]; omega
    have h3 : (fk.fkAlMap.take fk.fkNmBks)[i] = fk.fkAlMap[i] := by
      simp
    rw [← h3]
    exact List.getElem_mem h2

theorem mfs_fkread_at_real_loop_spec (vol : MFSVolume) (fk : MFSFork)
    (hblk : 0 < vol.mdb.drAlBlkSiz) (hn : fk.fkNmBks < 65536)
    (hlen : fk.fkNmBks ≤ fk.fkAlMap.length)
    (hread : ∀ a ∈ forkChain fk, albkReadable vol a) :
    ∀ (fuel btr bkn : Nat) (bk out : List Nat), btr ≤ fuel →
      bkn * vol.mdb.drAlBlkSiz + btr ≤ fk.fkNmBks * vol.mdb.drAlBlkSiz →
      bk.length ≤ vol.mdb.drAlBlkSiz →
      mfs_fkread_at_real_loop vol fk fuel btr bkn bk out =
        some (out ++ slice (forkStream vol fk) (bkn * vol.mdb.drAlBlkSiz) btr) := by
  intro fuel
  induction fuel with
  | zero =>
    intro btr bkn bk out hf _ _
    have : btr = 0 := by omega
    subst this
    simp [mfs_fkread_at_real_loop, slice]
  | succ fuel ih =>
    intro btr bkn bk out hf hb hbk
    unfold mfs_fkread_at_real_loop
    by_cases h0 : btr = 0
    · subst h0
      simp [slice]
    · rw [if_neg h0]
      have hlt : bkn < fk.fkNmBks := by
        by_contra hge
        have hge2 : fk.fkNmBks ≤ bkn := by omega
        have := Nat.mul_le_mul_right vol.mdb.drAlBlkSiz hge2
        omega
      obtain ⟨a, ha1, ha2, ha3⟩ := forkChain_getElem? fk bkn hlt hlen
      rw [ha1]
      simp only
      obtain ⟨hb1, hb2⟩ := albkread_of_readable vol a bk (hread a ha3) hbk
      rw [hb1]
      have hu : toU16 (bkn + 1) = bkn + 1 := by
        unfold toU16
        apply Nat.mod_eq_of_lt
        omega
      rw [hu]
      have hall : ∀ c ∈ forkChain fk, (albkContents vol c).length = vol.mdb.drAlBlkSiz :=
        fun c hc => (albkread_of_readable vol c [] (hread c hc) (by simp)).2
      have hdrop := stream_drop (albkContents vol) vol.mdb.drAlBlkSiz (forkChain fk) bkn a hall ha2
      have hsucc : (bkn + 1) * vol.mdb.drAlBlkSiz = bkn * vol.mdb.drAlBlkSiz + vol.mdb.drAlBlkSiz :=
        Nat.succ_mul _ _
      have hlt2 : (bkn + 1) * vol.mdb.drAlBlkSiz ≤ fk.fkNmBks * vol.mdb.drAlBlkSiz :=
        Nat.mul_le_mul_right _ hlt
      by_cases hfull : vol.mdb.drAlBlkSiz ≤ btr
      · rw [if_pos hfull]
        rw [ih (btr - vol.mdb.drAlBlkSiz) (bkn + 1) (albkContents vol a)
          (out ++ (albkContents vol a).take vol.mdb.drAlBlkSiz) (by omega) (by omega) (by omega)]
        congr 1
        unfold slice forkStream
        rw [hdrop, List.take_append_eq_append_take, hb2]
        rw [List.take_of_length_le (by omega : (albkContents vol a).length ≤ btr)]
        rw [List.take_of_length_le (by omega : (albkContents vol a).length ≤ vol.mdb.drAlBlkSiz)]
        simp [List.append_assoc]
      · rw [if_neg hfull]
        rw [ih (btr - btr) (bkn + 1) (albkContents vol a)
          (out ++ (albkContents vol a).take btr) (by omega) (by omega) (by omega)]
        congr 1
        unfold slice forkStream
        rw [hdrop, List.take_append_eq_append_take, hb2]
        have hz : btr - vol.mdb.drAlBlkSiz = 0 := by omega
        simp [hz]

theorem mfs_fkread_at_real_spec (vol : MFSVolume) (fk : MFSFork) (size offset : Nat)
    (heap : Nat → Nat)
    (hblk : 0 < vol.mdb.drAlBlkSiz) (hn : fk.fkNmBks < 65536)
    (hlen : fk.fkNmBks ≤ fk.fkAlMap.length)
    (hread : ∀ a ∈ forkChain fk, albkReadable vol a)
    (hL : fk.fkLgLen ≤ fk.fkNmBks * vol.mdb.drAlBlkSiz)
    (hoff : offset < fk.fkLgLen) (hsize : 0 < size) (hov : offset + size < 2 ^ 64) :
    mfs_fkread_at_real vol fk size offset heap =
      some (toInt32 (min size (fk.fkLgLen - offset)),
        slice (forkStream vol fk) offset (min size (fk.fkLgLen - offset))) := by
  unfold mfs_fkread_at_real
  rw [if_neg (by omega : ¬ size = 0), if_neg (by omega : ¬ fk.fkLgLen ≤ offset),
    if_neg (by omega : ¬ vol.mdb.drAlBlkSiz = 0)]
  have hu64 : toU64 (offset + size) = offset + size := Nat.mod_eq_of_lt hov
  have hsize1 : (if fk.fkLgLen < toU64 (offset + size) then fk.fkLgLen - offset else size) =
      min size (fk.fkLgLen - offset) := by
    rw [hu64]
    split <;> omega
  rw [hsize1]
  generalize hn1 : min size (fk.fkLgLen - offset) = n
  have hnle : offset + n ≤ fk.fkLgLen := by omega
  have hdm : vol.mdb.drAlBlkSiz * (offset / vol.mdb.drAlBlkSiz) + offset % vol.mdb.drAlBlkSiz =
      offset := Nat.div_add_mod _ _
  have hmod : offset % vol.mdb.drAlBlkSiz < vol.mdb.drAlBlkSiz := Nat.mod_lt _ hblk
  have hcomm : vol.mdb.drAlBlkSiz * (offset / vol.mdb.drAlBlkSiz) =
      offset / vol.mdb.drAlBlkSiz * vol.mdb.drAlBlkSiz := Nat.mul_comm _ _
  have hbkn : offset / vol.mdb.drAlBlkSiz < fk.fkNmBks := by
    by_contra hge
    have hge2 : fk.fkNmBks ≤ offset / vol.mdb.drAlBlkSiz := by omega
    have := Nat.mul_le_mul_right vol.mdb.drAlBlkSiz hge2
    omega
  have hu : toU16 (offset / vol.mdb.drAlBlkSiz) = offset / vol.mdb.drAlBlkSiz := by
    unfold toU16
    apply Nat.mod_eq_of_lt
    omega
  have hu1 : toU16 (offset / vol.mdb.drAlBlkSiz + 1) = offset / vol.mdb.drAlBlkSiz + 1 := by
    unfold toU16
    apply Nat.mod_eq_of_lt
    omega
  rw [hu]
  simp only
  rw [hu1]
  obtain ⟨a, ha1, ha2, ha3⟩ := forkChain_getElem? fk _ hbkn hlen
  rw [ha1]
  simp only
  obtain ⟨hb1, hb2⟩ := albkread_of_readable vol a ((List.range vol.mdb.drAlBlkSiz).map heap)
    (hread a ha3) (by simp)
  rw [hb1]
  have hall : ∀ c ∈ forkChain fk, (albkContents vol c).length = vol.mdb.drAlBlkSiz :=
    fun c hc => (albkread_of_readable vol c [] (hread c hc) (by simp)).2
  have hdrop := stream_drop (albkContents vol) vol.mdb.drAlBlkSiz (forkChain fk) _ a hall ha2
  have hsucc : (offset / vol.mdb.drAlBlkSiz + 1) * vol.mdb.drAlBlkSiz =
      offset / vol.mdb.drAlBlkSiz * vol.mdb.drAlBlkSiz + vol.mdb.drAlBlkSiz := Nat.succ_mul _ _
  have hlt2 : (offset / vol.mdb.drAlBlkSiz + 1) * vol.mdb.drAlBlkSiz ≤
      fk.fkNmBks * vol.mdb.drAlBlkSiz := Nat.mul_le_mul_right _ hbkn
  have hstream : slice (forkStream vol fk) offset n =
      ((albkContents vol a).drop (offset % vol.mdb.drAlBlkSiz)).take n ++
        (((forkChain fk).map (albkContents vol)).flatten.drop
          ((offset / vol.mdb.drAlBlkSiz + 1) * vol.mdb.drAlBlkSiz)).take
          (n - (vol.mdb.drAlBlkSiz - offset % vol.mdb.drAlBlkSiz)) := by
    unfold slice forkStream
    have h1 : offset = offset / vol.mdb.drAlBlkSiz * vol.mdb.drAlBlkSiz +
        offset % vol.mdb.drAlBlkSiz := by omega
    conv_lhs => rw [h1, ← List.drop_drop, hdrop]
    rw [List.drop_append_of_le_length (by omega), List.take_append_eq_append_take]
    simp [hb2]
  by_cases hfirst : n < vol.mdb.drAlBlkSiz - offset % vol.mdb.drAlBlkSiz
  · rw [if_pos hfirst]
    rw [mfs_fkread_at_real_loop_spec vol fk hblk hn hlen hread (n - n) (n - n) _ _ _
      (by omega) (by omega) (by omega)]
    rw [hstream]
    have hz : n - (vol.mdb.drAlBlkSiz - offset % vol.mdb.drAlBlkSiz) = 0 := by omega
    simp [slice, hz]
  · rw [if_neg hfirst]
    rw [mfs_fkread_at_real_loop_spec vol fk hblk hn hlen hread _ _ _ _ _
      (le_refl _) (by omega) (by omega)]
    rw [hstream]
    unfold slice forkStream
    have hl : ((albkContents vol a).drop (offset % vol.mdb.drAlBlkSiz)).length =
        vol.mdb.drAlBlkSiz - offset % vol.mdb.drAlBlkSiz := by simp [hb2]
    rw [List.take_of_length_le (by omega : ((albkContents vol a).drop
      (offset % vol.mdb.drAlBlkSiz)).length ≤ n)]
    rw [List.take_of_length_le (by omega : ((albkContents vol a).drop
      (offset % vol.mdb.drAlBlkSiz)).length ≤ vol.mdb.drAlBlkSiz - offset % vol.mdb.drAlBlkSiz)]

theorem albkread_length (vol : MFSVolume) (a : Nat) (bk : List Nat)
    (hbk : bk.length = vol.mdb.drAlBlkSiz) :
    (mfs_albkread vol 1 a bk).2.length = vol.mdb.drAlBlkSiz := by
  unfold mfs_albkread
  simp only [fread, Nat.mul_one]
  have hle : (List.take vol.mdb.drAlBlkSiz (List.drop (toU64 (toU64 (vol.offset + vol.alBkOff) +
        toU32 (vol.mdb.drAlBlkSiz * a))) vol.fp)).length ≤ vol.mdb.drAlBlkSiz := by
    simp [List.length_take]
  generalize List.take vol.mdb.drAlBlkSiz (List.drop (toU64 (toU64 (vol.offset + vol.alBkOff) +
        toU32 (vol.mdb.drAlBlkSiz * a))) vol.fp) = got at *
  split_ifs <;> simp only [List.length_append, List.length_drop, hbk] <;> omega

theorem mfs_fkread_at_real_loop_defined (vol : MFSVolume) (fk : MFSFork)
    (hblk : 0 < vol.mdb.drAlBlkSiz) (hn : fk.fkNmBks < 65536)
    (hlen : fk.fkNmBks ≤ fk.fkAlMap.length) :
    ∀ (fuel btr bkn : Nat) (bk out : List Nat), btr ≤ fuel →
      bkn * vol.mdb.drAlBlkSiz + btr ≤ fk.fkNmBks * vol.mdb.drAlBlkSiz →
      bk.length = vol.mdb.drAlBlkSiz →
      ∃ out1, mfs_fkread_at_real_loop vol fk fuel btr bkn bk out = some out1 ∧
        out1.length = out.length + btr := by
  intro fuel
  induction fuel with
  | zero =>
    intro btr bkn bk out hf _ _
    have : btr = 0 := by omega
    subst this
    exact ⟨out, by simp [mfs_fkread_at_real_loop], by simp⟩
  | succ fuel ih =>
    intro btr bkn bk out hf hb hbk
    unfold mfs_fkread_at_real_loop
    by_cases h0 : btr = 0
    · subst h0
      exact ⟨out, by simp, by simp⟩
    · rw [if_neg h0]
      have hlt : bkn < fk.fkNmBks := by
        by_contra hge
        have hge2 : fk.fkNmBks ≤ bkn := by omega
        have := Nat.mul_le_mul_right vol.mdb.drAlBlkSiz hge2
        omega
      obtain ⟨a, ha1, _, _⟩ := forkChain_getElem? fk bkn hlt hlen
      rw [ha1]
      simp only
      have hl1 := albkread_length vol a bk hbk
      have hu : toU16 (bkn + 1) = bkn + 1 := by
        unfold toU16
        apply Nat.mod_eq_of_lt
        omega
      rw [hu]
      have hsucc : (bkn + 1) * vol.mdb.drAlBlkSiz = bkn * vol.mdb.drAlBlkSiz + vol.mdb.drAlBlkSiz :=
        Nat.succ_mul _ _
      have hlt2 : (bkn + 1) * vol.mdb.drAlBlkSiz ≤ fk.fkNmBks * vol.mdb.drAlBlkSiz :=
        Nat.mul_le_mul_right _ hlt
      by_cases hfull : vol.mdb.drAlBlkSiz ≤ btr
      · rw [if_pos hfull]
        obtain ⟨o, ho1, ho2⟩ := ih (btr - vol.mdb.drAlBlkSiz) (bkn + 1)
          (mfs_albkread vol 1 a bk).2
          (out ++ (mfs_albkread vol 1 a bk).2.take vol.mdb.drAlBlkSiz)
          (by omega) (by omega) hl1
        refine ⟨o, ho1, ?_⟩
        rw [ho2, List.length_append, List.length_take, hl1]
        omega
      · rw [if_neg hfull]
        obtain ⟨o, ho1, ho2⟩ := ih (btr - btr) (bkn + 1)
          (mfs_albkread vol 1 a bk).2
          (out ++ (mfs_albkread vol 1 a bk).2.take btr)
          (by omega) (by omega) hl1
        refine ⟨o, ho1, ?_⟩
        rw [ho2, List.length_append, List.length_take, hl1]
        omega

/-- The number of bytes `mfs_fkread_at_real` has to deliver. -/
theorem mfs_fkread_at_real_count (vol : MFSVolume) (fk : MFSFork) (size offset : Nat)
    (heap : Nat → Nat)
    (hblk : 0 < vol.mdb.drAlBlkSiz ∨ fk.fkLgLen = 0) (hn : fk.fkNmBks < 65536)
    (hlen : fk.fkNmBks ≤ fk.fkAlMap.length)
    (hL : fk.fkLgLen ≤ fk.fkNmBks * vol.mdb.drAlBlkSiz)
    (hov : offset + size < 2 ^ 64) :
    ∃ out, mfs_fkread_at_real vol fk size offset heap =
        some (toInt32 (if size = 0 ∨ fk.fkLgLen ≤ offset then 0 else min size (fk.fkLgLen - offset)),
          out) ∧
      out.length = (if size = 0 ∨ fk.fkLgLen ≤ offset then 0 else min size (fk.fkLgLen - offset)) := by
  unfold mfs_fkread_at_real
  by_cases hs : size = 0
  · exact ⟨[], by simp [hs, toInt32], by simp [hs]⟩
  by_cases ho : fk.fkLgLen ≤ offset
  · exact ⟨[], by simp [hs, ho, toInt32], by simp [ho]⟩
  have hblk1 : 0 < vol.mdb.drAlBlkSiz := by
    rcases hblk with h | h
    · exact h
    · omega
  rw [if_neg hs, if_neg ho, if_neg (by omega : ¬ vol.mdb.drAlBlkSiz = 0)]
  have hcond : ¬ (size = 0 ∨ fk.fkLgLen ≤ offset) := by
    intro h
    rcases h with h | h
    · exact hs h
    · exact ho h
  rw [if_neg hcond]
  have hu64 : toU64 (offset + size) = offset + size := Nat.mod_eq_of_lt hov
  have hsize1 : (if fk.fkLgLen < toU64 (offset + size) then fk.fkLgLen - offset else size) =
      min size (fk.fkLgLen - offset) := by
    rw [hu64]
    split <;> omega
  rw [hsize1]
  generalize hn1 : min size (fk.fkLgLen - offset) = n
  have hnle : offset + n ≤ fk.fkLgLen := by omega
  have hdm : vol.mdb.drAlBlkSiz * (offset / vol.mdb.drAlBlkSiz) + offset % vol.mdb.drAlBlkSiz =
      offset := Nat.div_add_mod _ _
  have hmod : offset % vol.mdb.drAlBlkSiz < vol.mdb.drAlBlkSiz := Nat.mod_lt _ hblk1
  have hcomm : vol.mdb.drAlBlkSiz * (offset / vol.mdb.drAlBlkSiz) =
      offset / vol.mdb.drAlBlkSiz * vol.mdb.drAlBlkSiz := Nat.mul_comm _ _
  have hbkn : offset / vol.mdb.drAlBlkSiz < fk.fkNmBks := by
    by_contra hge
    have hge2 : fk.fkNmBks ≤ offset / vol.mdb.drAlBlkSiz := by omega
    have := Nat.mul_le_mul_right vol.mdb.drAlBlkSiz hge2
    omega
  have hu : toU16 (offset / vol.mdb.drAlBlkSiz) = offset / vol.mdb.drAlBlkSiz := by
    unfold toU16
    apply Nat.mod_eq_of_lt
    omega
  have hu1 : toU16 (offset / vol.mdb.drAlBlkSiz + 1) = offset / vol.mdb.drAlBlkSiz + 1 := by
    unfold toU16
    apply Nat.mod_eq_of_lt
    omega
  rw [hu]
  simp only
  rw [hu1]
  obtain ⟨a, ha1, _, _⟩ := forkChain_getElem? fk _ hbkn hlen
  rw [ha1]
  simp only
  have hl1 := albkread_length vol a ((List.range vol.mdb.drAlBlkSiz).map heap) (by simp)
  have hsucc : (offset / vol.mdb.drAlBlkSiz + 1) * vol.mdb.drAlBlkSiz =
      offset / vol.mdb.drAlBlkSiz * vol.mdb.drAlBlkSiz + vol.mdb.drAlBlkSiz := Nat.succ_mul _ _
  have hlt2 : (offset / vol.mdb.drAlBlkSiz + 1) * vol.mdb.drAlBlkSiz ≤
      fk.fkNmBks * vol.mdb.drAlBlkSiz := Nat.mul_le_mul_right _ hbkn
  by_cases hfirst : n < vol.mdb.drAlBlkSiz - offset % vol.mdb.drAlBlkSiz
  · rw [if_pos hfirst]
    obtain ⟨o, ho1, ho2⟩ := mfs_fkread_at_real_loop_defined vol fk hblk1 hn hlen (n - n) (n - n)
      (offset / vol.mdb.drAlBlkSiz + 1)
      (mfs_albkread vol 1 a ((List.range vol.mdb.drAlBlkSiz).map heap)).2
      (slice (mfs_albkread vol 1 a ((List.range vol.mdb.drAlBlkSiz).map heap)).2
        (offset % vol.mdb.drAlBlkSiz) n) (by omega) (by omega) hl1
    rw [ho1]
    refine ⟨o, rfl, ?_⟩
    rw [ho2]
    unfold slice
    rw [List.length_take, List.length_drop, hl1]
    omega
  · rw [if_neg hfirst]
    obtain ⟨o, ho1, ho2⟩ := mfs_fkread_at_real_loop_defined vol fk hblk1 hn hlen
      (n - (vol.mdb.drAlBlkSiz - offset % vol.mdb.drAlBlkSiz))
      (n - (vol.mdb.drAlBlkSiz - offset % vol.mdb.drAlBlkSiz))
      (offset / vol.mdb.drAlBlkSiz + 1)
      (mfs_albkread vol 1 a ((List.range vol.mdb.drAlBlkSiz).map heap)).2
      (slice (mfs_albkread vol 1 a ((List.range vol.mdb.drAlBlkSiz).map heap)).2
        (offset % vol.mdb.drAlBlkSiz) (vol.mdb.drAlBlkSiz - offset % vol.mdb.drAlBlkSiz))
      (le_refl _) (by omega) hl1
    rw [ho1]
    refine ⟨o, rfl, ?_⟩
    rw [ho2]
    unfold slice
    rw [List.length_take, List.length_drop, hl1]
    omega

theorem toInt32_congr (x y : Nat) (h : x % 2 ^ 32 = y % 2 ^ 32) : toInt32 x = toInt32 y := by
  unfold toInt32
  rw [h]

theorem toInt32_of_lt (n : Nat) (h : n < 2 ^ 31) : toInt32 n = (n : Int) := by
  unfold toInt32
  have h1 : n % 2 ^ 32 = n := Nat.mod_eq_of_lt (by omega)
  rw [h1, if_pos h]

theorem toInt32_add_ofInt64 (a b : Nat) :
    toInt32 (toU64 (a + ofInt64 (toInt32 b))) = toInt32 (a + b) := by
  apply toInt32_congr
  unfold toU64 ofInt64 toInt32
  split <;> omega

theorem le_length_writeAt (buf bytes : List Nat) (pos n : Nat) (hn : n ≤ buf.length)
    (hpos : pos ≤ n) : n ≤ (writeAt buf pos bytes).length := by
  unfold writeAt
  simp only [List.length_append, List.length_take, List.length_drop]
  omega

set_option maxRecDepth 100000 in
theorem appleDoubleInit_length : appleDoubleInit.length = 0x300 := by
  decide

theorem appleDoubleFinish_length (as : List Nat) (e : Nat) (comment : Option (List Nat))
    (h : 0x300 ≤ as.length) (he : e ≤ 8) : 0x300 ≤ (appleDoubleFinish as e comment).length := by
  unfold appleDoubleFinish
  cases comment with
  | none => exact le_length_writeAt _ _ _ _ h (by norm_num)
  | some c =>
    simp only
    apply le_length_writeAt _ _ _ _ _ (by norm_num)
    apply le_length_writeAt _ _ _ _ _ (by unfold entryOffset; omega)
    exact le_length_writeAt _ _ _ _ h (by unfold kAppleDoubleCommentOffset; norm_num)

theorem mfs_fkopen_header_length (r : MFSDirectoryRecord) (fkLgLen : Nat)
    (comment : Option (List Nat)) :
    kAppleDoubleHeaderLength ≤ (mfs_fkopen_header r fkLgLen comment).length := by
  unfold mfs_fkopen_header kAppleDoubleHeaderLength
  simp only
  apply appleDoubleFinish_length
  · apply le_length_writeAt _ _ _ _ _ (by unfold kAppleDoubleFinderInfoOffset; norm_num)
    apply le_length_writeAt _ _ _ _ _ (by unfold entryOffset; split <;> omega)
    apply le_length_writeAt _ _ _ _ _ (by unfold kAppleDoubleFileInfoOffset; norm_num)
    apply le_length_writeAt _ _ _ _ _ (by unfold entryOffset; split <;> omega)
    apply le_length_writeAt _ _ _ _ _ (by unfold kAppleDoubleRealNameOffset; norm_num)
    apply le_length_writeAt _ _ _ _ _ (by unfold entryOffset; split <;> omega)
    split
    · apply le_length_writeAt _ _ _ _ _ (by unfold entryOffset; omega)
      exact le_of_eq appleDoubleInit_length.symm
    · exact le_of_eq appleDoubleInit_length.symm
  · split <;> omega

theorem mfs_dhopen_header_length (folder : MFSFolder) (comment : Option (List Nat)) :
    kAppleDoubleHeaderLength ≤ (mfs_dhopen_header folder comment).length := by
  unfold mfs_dhopen_header kAppleDoubleHeaderLength
  simp only
  apply appleDoubleFinish_length
  · apply le_length_writeAt _ _ _ _ _ (by unfold kAppleDoubleFinderInfoOffset; norm_num)
    apply le_length_writeAt _ _ _ _ _ (by unfold entryOffset; omega)
    apply le_length_writeAt _ _ _ _ _ (by unfold kAppleDoubleFileInfoOffset; norm_num)
    apply le_length_writeAt _ _ _ _ _ (by unfold entryOffset; omega)
    apply le_length_writeAt _ _ _ _ _ (by unfold kAppleDoubleRealNameOffset; norm_num)
    apply le_length_writeAt _ _ _ _ _ (by unfold entryOffset; omega)
    exact le_of_eq appleDoubleInit_length.symm
  · omega

theorem mfs_fkread_at_appledouble_count (vol : MFSVolume) (fk : MFSFork) (size offset : Nat)
    (heap : Nat → Nat) (as : List Nat)
    (has : fk.fkAppleDouble = some as) (haslen : 0x300 ≤ as.length)
    (hblk : 0 < vol.mdb.drAlBlkSiz ∨ fk.fkLgLen = 0) (hn : fk.fkNmBks < 65536)
    (hlen : fk.fkNmBks ≤ fk.fkAlMap.length)
    (hL : fk.fkLgLen ≤ fk.fkNmBks * vol.mdb.drAlBlkSiz) (hLr : 0x300 + fk.fkLgLen < 2 ^ 32)
    (hov : offset + size < 2 ^ 64) :
    ∃ out, mfs_fkread_at_appledouble vol fk size offset heap =
        some (toInt32 (if size = 0 ∨ 0x300 + fk.fkLgLen ≤ offset then 0
          else min size (0x300 + fk.fkLgLen - offset)), out) ∧
      out.length = (if size = 0 ∨ 0x300 + fk.fkLgLen ≤ offset then 0
          else min size (0x300 + fk.fkLgLen - offset)) := by
  unfold mfs_fkread_at_appledouble
  by_cases hs : size = 0
  · exact ⟨[], by simp [hs, toInt32], by simp [hs]⟩
  have hV : toU32 (kAppleDoubleHeaderLength + fk.fkLgLen) = 0x300 + fk.fkLgLen := by
    unfold toU32 kAppleDoubleHeaderLength
    apply Nat.mod_eq_of_lt
    omega
  rw [if_neg hs, hV]
  by_cases ho : 0x300 + fk.fkLgLen ≤ offset
  · exact ⟨[], by simp [hs, ho, toInt32], by simp [ho]⟩
  have hcond : ¬ (size = 0 ∨ 0x300 + fk.fkLgLen ≤ offset) := by
    intro h
    rcases h with h | h
    · exact hs h
    · exact ho h
  rw [if_neg ho, if_neg hcond]
  have hu64 : toU64 (offset + size) = offset + size := Nat.mod_eq_of_lt hov
  have hsize1 : (if 0x300 + fk.fkLgLen < toU64 (offset + size) then 0x300 + fk.fkLgLen - offset
      else size) = min size (0x300 + fk.fkLgLen - offset) := by
    rw [hu64]
    split <;> omega
  simp only [hsize1]
  generalize hn1 : min size (0x300 + fk.fkLgLen - offset) = n
  have hnle : offset + n ≤ 0x300 + fk.fkLgLen := by omega
  have hnpos : 0 < n := by omega
  by_cases hres : kAppleDoubleResourceForkOffset ≤ offset
  · rw [if_pos hres]
    have hres2 : 0x300 ≤ offset := hres
    obtain ⟨out, h1, h2⟩ := mfs_fkread_at_real_count vol fk n
      (offset - kAppleDoubleResourceForkOffset) heap hblk hn hlen hL
      (by unfold kAppleDoubleResourceForkOffset kAppleDoubleHeaderLength; omega)
    have hk : offset - kAppleDoubleResourceForkOffset = offset - 0x300 := rfl
    have hc : (if n = 0 ∨ fk.fkLgLen ≤ offset - kAppleDoubleResourceForkOffset then 0
        else min n (fk.fkLgLen - (offset - kAppleDoubleResourceForkOffset))) = n := by
      rw [hk]
      split
      · omega
      · omega
    rw [hc] at h1 h2
    exact ⟨out, h1, h2⟩
  · rw [if_neg hres]
    have hres2 : offset < 0x300 := Nat.lt_of_not_le hres
    rw [has]
    simp only
    have hlen2 : ¬ as.length < (if n < kAppleDoubleHeaderLength - offset then n
        else kAppleDoubleHeaderLength - offset) := by
      unfold kAppleDoubleHeaderLength
      split <;> omega
    rw [if_neg hlen2]
    by_cases hin : n < kAppleDoubleHeaderLength - offset
    · have hin2 : n < 0x300 - offset := hin
      simp only [if_pos hin, Nat.sub_self, ne_eq, not_true_eq_false, if_false]
      refine ⟨as.take n, rfl, ?_⟩
      rw [List.length_take]
      omega
    · have hin2 : 0x300 - offset ≤ n := Nat.le_of_not_lt hin
      simp only [if_neg hin]
      by_cases hbtr : n - (kAppleDoubleHeaderLength - offset) = 0
      · have hbtr2 : n = 0x300 - offset := by
          have : n - (0x300 - offset) = 0 := hbtr
          omega
        simp only [hbtr, ne_eq, not_true_eq_false, if_false]
        refine ⟨as.take (kAppleDoubleHeaderLength - offset), rfl, ?_⟩
        rw [List.length_take]
        unfold kAppleDoubleHeaderLength
        omega
      · have hbtr2 : 0x300 - offset < n := by
          have : ¬ n - (0x300 - offset) = 0 := hbtr
          omega
        rw [if_pos hbtr]
        obtain ⟨out, h1, h2⟩ := mfs_fkread_at_real_count vol fk
          (n - (kAppleDoubleHeaderLength - offset)) 0 heap hblk hn hlen hL
          (by unfold kAppleDoubleHeaderLength; omega)
        have hc : (if n - (kAppleDoubleHeaderLength - offset) = 0 ∨ fk.fkLgLen ≤ 0 then 0
            else min (n - (kAppleDoubleHeaderLength - offset)) (fk.fkLgLen - 0)) =
            n - (kAppleDoubleHeaderLength - offset) := by
          unfold kAppleDoubleHeaderLength
          split
          · omega
          · omega
        rw [hc] at h1 h2
        rw [h1]
        simp only
        rw [toInt32_add_ofInt64]
        have hsum : kAppleDoubleHeaderLength - offset + (n - (kAppleDoubleHeaderLength - offset)) =
            n := by
          unfold kAppleDoubleHeaderLength
          omega
        rw [hsum]
        refine ⟨_, rfl, ?_⟩
        rw [List.length_append, List.length_take, h2]
        unfold kAppleDoubleHeaderLength
        omega

theorem openedOn_facts (vol : MFSVolume) (fk : MFSFork) (h : OpenedOn vol fk) :
    (fk.fkMode = kMFSForkData ∨ fk.fkMode = kMFSForkRsrc ∨ fk.fkMode = kMFSForkAppleDouble) ∧
    fk.fkNmBks < 65536 ∧ fk.fkNmBks ≤ fk.fkAlMap.length ∧
    (0 < vol.mdb.drAlBlkSiz ∨ fk.fkLgLen = 0) ∧
    (fk.fkMode = kMFSForkAppleDouble → ∃ as, fk.fkAppleDouble = some as ∧ 0x300 ≤ as.length) := by
  rcases h with ⟨r, mode, comment, vol1, hmode, hopen⟩ | ⟨folder, comment, vol1, hopen⟩
  · obtain ⟨hblk, _, _, hm, _, hnm, _, hlen, had, _⟩ :=
      mfs_fkopen_ok vol vol1 r mode comment fk hopen
    refine ⟨by rw [hm]; exact hmode, ?_, hlen, Or.inl hblk, ?_⟩
    · rw [hnm]
      unfold toU16
      exact Nat.mod_lt _ (by norm_num)
    · intro hAD
      rw [hm] at hAD
      rw [had, if_pos hAD]
      exact ⟨_, rfl, mfs_fkopen_header_length r fk.fkLgLen comment⟩
  · unfold mfs_dhopen at hopen
    simp only [Prod.mk.injEq, Option.some.injEq] at hopen
    obtain ⟨hfk, _⟩ := hopen
    subst hfk
    refine ⟨Or.inr (Or.inr rfl), by simp, by simp, Or.inr rfl, ?_⟩
    intro _
    exact ⟨_, rfl, mfs_dhopen_header_length folder comment⟩

/-- The count `mfs_fkread_at` delivers and the `int` it returns. -/
theorem mfs_fkread_at_returns (vol : MFSVolume) (fk : MFSFork) (size offset : Nat)
    (heap : Nat → Nat)
    (hopen : OpenedOn vol fk)
    (hL : fk.fkLgLen ≤ fk.fkNmBks * vol.mdb.drAlBlkSiz)
    (hLr : fk.fkMode = kMFSForkAppleDouble → 0x300 + fk.fkLgLen < 2 ^ 32)
    (hov : offset + size < 2 ^ 64) :
    ∃ out, out.length = readCount fk size offset ∧
      mfs_fkread_at vol fk size offset heap = some (toInt32 (readCount fk size offset), out) := by
  obtain ⟨hmode, hn, hlen, hblk, had⟩ := openedOn_facts vol fk hopen
  unfold mfs_fkread_at readCount virtualLength
  by_cases hAD : fk.fkMode = kMFSForkAppleDouble
  · have hnot : ¬ (fk.fkMode = kMFSForkData ∨ fk.fkMode = kMFSForkRsrc) := by
      rw [hAD]
      decide
    rw [if_neg hnot, if_pos hAD, if_pos hAD]
    obtain ⟨as, has, haslen⟩ := had hAD
    obtain ⟨out, h1, h2⟩ := mfs_fkread_at_appledouble_count vol fk size offset heap as has haslen
      hblk hn hlen hL (hLr hAD) hov
    exact ⟨out, h2, h1⟩
  · have hreal : fk.fkMode = kMFSForkData ∨ fk.fkMode = kMFSForkRsrc := by
      rcases hmode with h | h | h
      · exact Or.inl h
      · exact Or.inr h
      · exact absurd h hAD
    rw [if_pos hreal, if_neg hAD]
    obtain ⟨out, h1, h2⟩ := mfs_fkread_at_real_count vol fk size offset heap hblk hn hlen hL hov
    exact ⟨out, h2, h1⟩

/-- C2 (amended): for a handle returned by `mfs_fkopen` or `mfs_dhopen` whose
chain covers its logical length and, in AppleDouble mode, whose virtual
length `0x300 + L` is below `2 ^ 32`, `mfs_fkread_at` stores `n` bytes, where
`n` is 0 when `size = 0` or `offset >= V` and `min (size, V - offset)`
otherwise, and returns `n` converted to `int`: the value `n` itself when
`n < 2 ^ 31`. -/
theorem mfs_fkread_at_count (vol : MFSVolume) (fk : MFSFork) (size offset : Nat)
    (heap : Nat → Nat)
    (hopen : OpenedOn vol fk)
    (hL : fk.fkLgLen ≤ fk.fkNmBks * vol.mdb.drAlBlkSiz)
    (hLr : fk.fkMode = kMFSForkAppleDouble → 0x300 + fk.fkLgLen < 2 ^ 32)
    (hov : offset + size < 2 ^ 64) :
    ∃ out, out.length = readCount fk size offset ∧
      mfs_fkread_at vol fk size offset heap = some (toInt32 (readCount fk size offset), out) ∧
      (readCount fk size offset < 2 ^ 31 →
        mfs_fkread_at vol fk size offset heap = some ((readCount fk size offset : Int), out)) := by
  obtain ⟨out, h1, h2⟩ := mfs_fkread_at_returns vol fk size offset heap hopen hL hLr hov
  refine ⟨out, h1, h2, ?_⟩
  intro hlt
  rw [h2, toInt32_of_lt _ hlt]

set_option maxRecDepth 100000 in
/-- C2 at the example volume: reading 200 bytes at offset 0 yields the 6
bytes of the data fork, the 5 bytes of the resource fork, and `0x300 + 5`
bytes of the AppleDouble fork. -/
theorem mfs_fkread_at_count_witness :
    (mfs_fkread_at exVol1 exForkData 200 0 (fun _ => 0)).map Prod.fst = some 6 ∧
      (mfs_fkread_at exVol1 exForkRsrc 200 0 (fun _ => 0)).map Prod.fst = some 5 ∧
      (mfs_fkread_at exVol1 exForkAD 0x400 0 (fun _ => 0)).map Prod.fst = some 0x305 := by
  obtain ⟨o1, _, _, h1⟩ := mfs_fkread_at_count exVol1 exForkData 200 0 (fun _ => 0)
    (Or.inl ⟨exRec, kMFSForkData, none, _, Or.inl rfl, rfl⟩) (by decide) (by decide) (by decide)
  obtain ⟨o2, _, _, h2⟩ := mfs_fkread_at_count exVol1 exForkRsrc 200 0 (fun _ => 0)
    (Or.inl ⟨exRec, kMFSForkRsrc, none, _, Or.inr (Or.inl rfl), rfl⟩) (by decide) (by decide)
    (by decide)
  obtain ⟨o3, _, _, h3⟩ := mfs_fkread_at_count exVol1 exForkAD 0x400 0 (fun _ => 0)
    (Or.inl ⟨exRec, kMFSForkAppleDouble, none, _, Or.inr (Or.inr rfl), rfl⟩) (by decide)
    (by decide) (by decide)
  rw [h1 (by decide), h2 (by decide), h3 (by decide)]
  simp only [Option.map]
  decide

/-- C2 as stated fails: a data fork of `2 ^ 31` bytes in one allocation block
of `2 ^ 31` bytes is opened, and a read of `2 ^ 31` bytes at offset 0, for
which `min (size, V - offset) = 2 ^ 31`, returns `-2 ^ 31`. -/
theorem mfs_fkread_at_count_counterexample :
    mfs_fkopen bigVol (some bigRec) kMFSForkData none =
        some (.ok bigFork, { bigVol with openForks := 1 }) ∧
      readCount bigFork 2147483648 0 = 2147483648 ∧
      (mfs_fkread_at { bigVol with openForks := 1 } bigFork 2147483648 0 (fun _ => 0)).map
        Prod.fst = some (-2147483648) := by
  refine ⟨rfl, by decide, ?_⟩
  obtain ⟨out, _, h⟩ := mfs_fkread_at_returns { bigVol with openForks := 1 } bigFork 2147483648 0
    (fun _ => 0) (Or.inl ⟨bigRec, kMFSForkData, none, _, Or.inl rfl, rfl⟩) (by decide) (by decide)
    (by decide)
  rw [h]
  simp only [Option.map]
  decide

/-! ## Reading an AppleDouble fork -/

set_option maxRecDepth 1000000 in
/-- C3 fails on the code: on the AppleDouble fork of the example record, as
`mfs_fkopen` returns it, a read of 4 bytes at offset 1 stores the header
bytes 0 to 3 (the magic `00 05 16 07`), whereas bytes 1 to 4 of the header
followed by the resource stream are `05 16 07 00`. -/
theorem mfs_fkread_at_appledouble_ignores_offset :
    mfs_fkopen exVol (some exRec) kMFSForkAppleDouble none = some (.ok exForkAD, exVol1) ∧
      mfs_fkread_at exVol1 exForkAD 4 1 (fun _ => 0) = some (4, [0x00, 0x05, 0x16, 0x07]) ∧
      slice (mfs_fkopen_header exRec 5 none ++ forkStream exVol1 exForkAD) 1 4 =
        [0x05, 0x16, 0x07, 0x00] := by
  refine ⟨rfl, ?_, ?_⟩
  · decide
  · decide

theorem mfs_fkread_at_real_loop_congr (vol : MFSVolume) (fk1 fk2 : MFSFork)
    (hmap : fk1.fkAlMap = fk2.fkAlMap) :
    ∀ (fuel btr bkn : Nat) (bk out : List Nat),
      mfs_fkread_at_real_loop vol fk1 fuel btr bkn bk out =
        mfs_fkread_at_real_loop vol fk2 fuel btr bkn bk out := by
  intro fuel
  induction fuel with
  | zero => intro btr bkn bk out; rfl
  | succ fuel ih =>
    intro btr bkn bk out
    unfold mfs_fkread_at_real_loop
    rw [hmap]
    split
    · rfl
    · split
      · rfl
      · simp only [ih]

theorem mfs_fkread_at_real_congr (vol : MFSVolume) (fk1 fk2 : MFSFork) (size offset : Nat)
    (heap : Nat → Nat) (hmap : fk1.fkAlMap = fk2.fkAlMap) (hlg : fk1.fkLgLen = fk2.fkLgLen) :
    mfs_fkread_at_real vol fk1 size offset heap = mfs_fkread_at_real vol fk2 size offset heap := by
  unfold mfs_fkread_at_real
  simp only [hmap, hlg, mfs_fkread_at_real_loop_congr vol fk1 fk2 hmap]

/-- C4 (amended): when a record whose resource fork has a length `flRLgLen`
with `0x300 + flRLgLen < 2 ^ 32` is opened in Resource mode and in AppleDouble
mode, a read of the AppleDouble fork at offset `0x300 + k` gives the same
return value and the same bytes as the read of the Resource fork at offset
`k`, for every `k` and `size`. -/
theorem mfs_fkread_at_appledouble_eq_rsrc (vol vol1 vol2 : MFSVolume) (r : MFSDirectoryRecord)
    (cR cA : Option (List Nat)) (fkR fkA : MFSFork) (k size : Nat) (heap : Nat → Nat)
    (hR : mfs_fkopen vol (some r) kMFSForkRsrc cR = some (.ok fkR, vol1))
    (hA : mfs_fkopen vol1 (some r) kMFSForkAppleDouble cA = some (.ok fkA, vol2))
    (hLr : 0x300 + r.flRLgLen < 2 ^ 32) :
    mfs_fkread_at vol2 fkA size (0x300 + k) heap = mfs_fkread_at vol2 fkR size k heap := by
  obtain ⟨_, hv1, _, hmR, _, hnR, hlR, _, _, _, hmapR⟩ := mfs_fkopen_ok vol vol1 r _ cR fkR hR
  obtain ⟨_, _, _, hmA, _, hnA, hlA, _, _, _, hmapA⟩ := mfs_fkopen_ok vol1 vol2 r _ cA fkA hA
  have hnm : fkA.fkNmBks = fkR.fkNmBks := by
    rw [hnA, hnR, hv1]
    simp [kMFSForkRsrc, kMFSForkAppleDouble]
  have hlg : fkA.fkLgLen = fkR.fkLgLen := by
    rw [hlA, hlR]
    simp [kMFSForkRsrc, kMFSForkAppleDouble]
  have hmap : fkA.fkAlMap = fkR.fkAlMap := by
    rw [hnm, hv1] at hmapA
    simp [kMFSForkRsrc, kMFSForkAppleDouble] at hmapA hmapR
    rw [hmapR] at hmapA
    simp only [Option.some.injEq, Prod.mk.injEq, and_true] at hmapA
    exact hmapA.symm
  have hL : 0x300 + fkA.fkLgLen < 2 ^ 32 := by
    rw [hlA]
    simpa [kMFSForkRsrc, kMFSForkAppleDouble] using hLr
  have hcongr := mfs_fkread_at_real_congr vol2 fkA fkR
  unfold mfs_fkread_at
  rw [hmA, hmR]
  rw [if_neg (by decide : ¬ (kMFSForkAppleDouble = kMFSForkData ∨
      kMFSForkAppleDouble = kMFSForkRsrc)), if_pos rfl,
    if_pos (Or.inr rfl : kMFSForkRsrc = kMFSForkData ∨ kMFSForkRsrc = kMFSForkRsrc)]
  unfold mfs_fkread_at_appledouble
  have hV : toU32 (kAppleDoubleHeaderLength + fkA.fkLgLen) = 0x300 + fkA.fkLgLen := by
    unfold toU32 kAppleDoubleHeaderLength
    apply Nat.mod_eq_of_lt
    omega
  rw [hV]
  by_cases hs : size = 0
  · rw [if_pos hs]
    unfold mfs_fkread_at_real
    rw [if_pos hs]
  rw [if_neg hs]
  by_cases ho : fkA.fkLgLen ≤ k
  · rw [if_pos (by omega : 0x300 + fkA.fkLgLen ≤ 0x300 + k)]
    unfold mfs_fkread_at_real
    rw [if_neg hs, if_pos (by rw [← hlg]; exact ho)]
  rw [if_neg (by omega : ¬ 0x300 + fkA.fkLgLen ≤ 0x300 + k)]
  simp only
  rw [if_pos (by unfold kAppleDoubleResourceForkOffset kAppleDoubleHeaderLength; omega :
    kAppleDoubleResourceForkOffset ≤ 0x300 + k)]
  have hsub : 0x300 + k - kAppleDoubleResourceForkOffset = k := by
    unfold kAppleDoubleResourceForkOffset kAppleDoubleHeaderLength
    omega
  rw [hsub]
  by_cases hclamp : 0x300 + fkA.fkLgLen < toU64 (0x300 + k + size)
  · rw [if_pos hclamp]
    have hsub2 : 0x300 + fkA.fkLgLen - (0x300 + k) = fkA.fkLgLen - k := by omega
    rw [hsub2, hcongr _ _ heap hmap hlg]
    rw [hlg] at hclamp ho hL ⊢
    have hclampR : fkR.fkLgLen < toU64 (k + size) := by
      unfold toU64 at hclamp ⊢
      omega
    unfold mfs_fkread_at_real
    have hne : ¬ fkR.fkLgLen - k = 0 := by omega
    have hno : ¬ fkR.fkLgLen < toU64 (k + (fkR.fkLgLen - k)) := by
      unfold toU64
      have : k + (fkR.fkLgLen - k) = fkR.fkLgLen := by omega
      rw [this, Nat.mod_eq_of_lt (by omega)]
      omega
    simp only [if_neg hs, if_neg hne, if_neg ho, if_pos hclampR, if_neg hno]
  · rw [if_neg hclamp]
    exact hcongr _ _ heap hmap hlg

set_option maxRecDepth 1000000 in
/-- C4 at the example volume: three bytes at offset `0x300 + 1` of the
AppleDouble fork are the three bytes at offset 1 of the resource fork. -/
theorem mfs_fkread_at_appledouble_eq_rsrc_witness :
    mfs_fkread_at exVol2 exForkAD 3 (0x300 + 1) (fun _ => 0) =
        mfs_fkread_at exVol2 exForkRsrc 3 1 (fun _ => 0) ∧
      mfs_fkread_at exVol2 exForkRsrc 3 1 (fun _ => 0) = some (3, [31, 32, 33]) :=
  ⟨mfs_fkread_at_appledouble_eq_rsrc exVol exVol1 exVol2 exRec none none exForkRsrc exForkAD 1 3
    (fun _ => 0) rfl rfl (by decide), by decide⟩

set_option maxRecDepth 1000000 in
/-- C4 as stated fails: the record `wrapRec`, whose resource fork of
`0xFFFFFD00` bytes lies in one allocation block, is opened in both modes; a
read of 1 byte of the resource fork at offset 0 returns 1, and the read of
1 byte of the AppleDouble fork at offset `0x300` returns 0, the sum
`0x300 + 0xFFFFFD00` being 0 in `unsigned int`. -/
theorem mfs_fkread_at_appledouble_eq_rsrc_counterexample :
    mfs_fkopen wrapVol (some wrapRec) kMFSForkRsrc none =
      some (.ok wrapForkRsrc, { wrapVol with openForks := 1 }) ∧
    mfs_fkopen { wrapVol with openForks := 1 } (some wrapRec) kMFSForkAppleDouble none =
      some (.ok wrapForkAD, { wrapVol with openForks := 2 }) ∧
    (mfs_fkread_at { wrapVol with openForks := 2 } wrapForkRsrc 1 0 (fun _ => 0)).map Prod.fst =
      some 1 ∧
    mfs_fkread_at { wrapVol with openForks := 2 } wrapForkAD 1 0x300 (fun _ => 0) =
      some (0, []) := by
  refine ⟨rfl, rfl, ?_, ?_⟩
  · obtain ⟨out, _, h⟩ := mfs_fkread_at_returns { wrapVol with openForks := 2 } wrapForkRsrc 1 0
      (fun _ => 0) (Or.inl ⟨wrapRec, kMFSForkRsrc, none, _, Or.inr (Or.inl rfl), rfl⟩) (by decide)
      (by decide) (by decide)
    rw [h]
    simp only [Option.map]
    decide
  · decide

/-! ## The outcome of `mfs_fkopen` -/

theorem mfs_fkopen_loop_spec (v : List Nat) (start : Nat) :
    ∀ (count i c : Nat), specChain v start i = some c →
      (∀ j, i ≤ j → j < i + count → ∃ d, specChain v start j = some d ∧ d < v.length) →
      ∃ rest last, mfs_fkopen_loop v count c = some (rest, last) ∧
        specChain v start (i + count) = some last ∧ rest.length = count ∧
        ∀ k, k < count → rest[k]? = specChain v start (i + 1 + k) := by
  intro count
  induction count with
  | zero =>
    intro i c hc _
    exact ⟨[], c, rfl, hc, rfl, fun k hk => absurd hk (Nat.not_lt_zero k)⟩
  | succ count ih =>
    intro i c hc hin
    obtain ⟨d, hd1, hd2⟩ := hin i (le_refl _) (by omega)
    rw [hc] at hd1
    simp only [Option.some.injEq] at hd1
    subst hd1
    have hnext : specChain v start (i + 1) = some v[c] := by
      simp only [specChain, hc]
      exact List.getElem?_eq_getElem hd2
    obtain ⟨rest, last, h1, h2, h3, h4⟩ := ih (i + 1) v[c] hnext
      (fun j hj1 hj2 => hin j (by omega) (by omega))
    refine ⟨v[c] :: rest, last, ?_, ?_, ?_, ?_⟩
    · unfold mfs_fkopen_loop
      rw [List.getElem?_eq_getElem hd2]
      simp only [h1]
    · rw [← h2]
      congr 1
      omega
    · simp [h3]
    · intro k hk
      cases k with
      | zero => simpa using hnext.symm
      | succ k =>
        simp only [List.getElem?_cons_succ]
        rw [h4 k (by omega)]
        congr 1
        omega

theorem mfs_fkopen_map_spec (v : List Nat) (start bc : Nat) (hbc : 1 ≤ bc)
    (hin : ∀ i, i < bc → ∃ c, specChain v start i = some c ∧ c < v.length) :
    ∃ alMap t, specChain v start bc = some t ∧
      mfs_fkopen_map (some v) bc start = some (alMap, decide (t ≠ kMFSAlBkLast)) ∧
      alMap.length = bc + 1 ∧ ∀ i, i < bc → alMap[i]? = specChain v start i := by
  obtain ⟨rest, last, h1, h2, h3, h4⟩ := mfs_fkopen_loop_spec v start (bc - 1) 0 start rfl
    (fun j _ hj2 => hin j (by omega))
  obtain ⟨d, hd1, hd2⟩ := hin (bc - 1) (by omega)
  rw [Nat.zero_add] at h2
  rw [h2] at hd1
  simp only [Option.some.injEq] at hd1
  subst hd1
  have hend : specChain v start bc = some v[last] := by
    have hb : bc = (bc - 1) + 1 := by omega
    rw [hb]
    simp only [specChain, h2]
    exact List.getElem?_eq_getElem hd2
  refine ⟨start :: rest ++ [0], v[last], hend, ?_, ?_, ?_⟩
  · unfold mfs_fkopen_map
    rw [if_pos (by omega : bc ≠ 0)]
    simp only [h1, List.getElem?_eq_getElem hd2]
  · simp [h3]
    omega
  · intro i hi
    cases i with
    | zero => simp [specChain]
    | succ i =>
      simp only [List.cons_append, List.getElem?_cons_succ]
      rw [List.getElem?_append_left (by omega)]
      rw [h4 i (by omega)]
      congr 1
      omega

theorem mfs_fkopen_unfold (vol : MFSVolume) (r : MFSDirectoryRecord) (mode : Int)
    (comment : Option (List Nat)) (hblk : 0 < vol.mdb.drAlBlkSiz)
    (hne : ¬ (mode = kMFSForkRsrc ∧ r.flRStBlk = 0)) :
    mfs_fkopen vol (some r) mode comment =
      match mfs_fkopen_map vol.vabm (toU16 (forkPyLen r mode / vol.mdb.drAlBlkSiz))
          (forkStart r mode) with
      | none => none
      | some (fkAlMap, bad) =>
        if bad then some (.error .EFBIG, vol)
        else some (.ok
          { _fkSgn := kMFSForkSignature
            fkDrRec := some r
            fkLgLen := forkLgLen r mode
            fkNmBks := toU16 (forkPyLen r mode / vol.mdb.drAlBlkSiz)
            fkMode := mode
            fkAppleDouble :=
              if mode = kMFSForkAppleDouble then
                some (mfs_fkopen_header r (forkLgLen r mode) comment)
              else none
            fkOffset := 0
            fkAlMap := fkAlMap }, { vol with openForks := toU64 (vol.openForks + 1) }) := by
  unfold mfs_fkopen forkPyLen forkStart forkLgLen
  simp only
  rw [if_neg hne, if_neg (by omega : ¬ vol.mdb.drAlBlkSiz = 0)]
  by_cases hm : mode = kMFSForkRsrc ∨ mode = kMFSForkAppleDouble
  · simp only [hm, decide_True, if_true]
  · simp only [hm, decide_False, if_false]
    rfl

/-- C5 (amended): with `block_count` the quotient `physical_EOF / drAlBlkSiz`
as the 16-bit `fkNmBks` holds it, on a volume whose map is loaded and for a
chain whose entries index inside the map, `mfs_fkopen` fails with ENOENT
exactly when the mode is Resource and `flRStBlk = 0`; otherwise, when
`block_count >= 1`, it fails with EFBIG exactly when
`vabm[chain[block_count-1]]` is not 1; in every other case it succeeds,
adds one to `openForks`, and the handle carries the chain and the logical
EOF the mode selects. -/
theorem mfs_fkopen_outcome (vol : MFSVolume) (r : MFSDirectoryRecord) (mode : Int)
    (comment : Option (List Nat)) (v : List Nat)
    (hblk : 0 < vol.mdb.drAlBlkSiz) (hv : vol.vabm = some v)
    (hin : ∀ i, i < toU16 (forkPyLen r mode / vol.mdb.drAlBlkSiz) →
      ∃ c, specChain v (forkStart r mode) i = some c ∧ c < v.length) :
    (mfs_fkopen vol (some r) mode comment = some (.error .ENOENT, vol) ↔
      (mode = kMFSForkRsrc ∧ r.flRStBlk = 0)) ∧
    (¬ (mode = kMFSForkRsrc ∧ r.flRStBlk = 0) →
      1 ≤ toU16 (forkPyLen r mode / vol.mdb.drAlBlkSiz) →
      (mfs_fkopen vol (some r) mode comment = some (.error .EFBIG, vol) ↔
        specChain v (forkStart r mode) (toU16 (forkPyLen r mode / vol.mdb.drAlBlkSiz)) ≠
          some kMFSAlBkLast)) ∧
    (¬ (mode = kMFSForkRsrc ∧ r.flRStBlk = 0) →
      (toU16 (forkPyLen r mode / vol.mdb.drAlBlkSiz) = 0 ∨
        specChain v (forkStart r mode) (toU16 (forkPyLen r mode / vol.mdb.drAlBlkSiz)) =
          some kMFSAlBkLast) →
      ∃ fk, mfs_fkopen vol (some r) mode comment =
          some (.ok fk, { vol with openForks := toU64 (vol.openForks + 1) }) ∧
        fk.fkNmBks = toU16 (forkPyLen r mode / vol.mdb.drAlBlkSiz) ∧
        fk.fkLgLen = forkLgLen r mode ∧
        (forkChain fk).length = toU16 (forkPyLen r mode / vol.mdb.drAlBlkSiz) ∧
        ∀ i, i < toU16 (forkPyLen r mode / vol.mdb.drAlBlkSiz) →
          (forkChain fk)[i]? = specChain v (forkStart r mode) i) := by
  generalize hbc : toU16 (forkPyLen r mode / vol.mdb.drAlBlkSiz) = bc at hin ⊢
  refine ⟨?_, ?_, ?_⟩
  · constructor
    · intro h
      by_contra hne
      rw [mfs_fkopen_unfold vol r mode comment hblk hne] at h
      split at h
      · simp at h
      · split at h <;> simp at h
    · intro h
      unfold mfs_fkopen
      simp only
      rw [if_pos h]
  · intro hne hge
    rw [mfs_fkopen_unfold vol r mode comment hblk hne, hbc, hv]
    obtain ⟨alMap, t, ht, hmap, _, _⟩ := mfs_fkopen_map_spec v (forkStart r mode) bc hge hin
    rw [hmap, ht]
    simp only
    by_cases h1 : t = kMFSAlBkLast
    · simp [h1]
    · simp [h1]
  · intro hne hcase
    rw [mfs_fkopen_unfold vol r mode comment hblk hne, hbc, hv]
    by_cases h0 : bc = 0
    · subst h0
      have hmap0 : mfs_fkopen_map (some v) 0 (forkStart r mode) = some ([], false) := by
        simp [mfs_fkopen_map]
      rw [hmap0]
      simp only [Bool.false_eq_true, if_false]
      refine ⟨_, rfl, rfl, rfl, ?_, ?_⟩
      · simp [forkChain]
      · intro i hi
        omega
    · have hend : specChain v (forkStart r mode) bc = some kMFSAlBkLast := by
        rcases hcase with h | h
        · exact absurd h h0
        · exact h
      obtain ⟨alMap, t, ht, hmap, hlen, hent⟩ :=
        mfs_fkopen_map_spec v (forkStart r mode) bc (by omega) hin
      rw [hend] at ht
      simp only [Option.some.injEq] at ht
      subst ht
      rw [hmap]
      simp only [ne_eq, not_true_eq_false, decide_False, Bool.false_eq_true, if_false]
      refine ⟨_, rfl, rfl, rfl, ?_, ?_⟩
      · simp [forkChain, hlen]
      · intro i hi
        simp only [forkChain]
        rw [List.getElem?_take_of_lt hi]
        exact hent i hi

/-- C5 at the example volume: a Resource open of a record without resource
fork fails with ENOENT, and a data fork whose physical EOF states three
blocks while its chain ends after two fails with EFBIG. -/
theorem mfs_fkopen_outcome_witness :
    mfs_fkopen exVol (some recTestFile) kMFSForkRsrc none = some (.error .ENOENT, exVol) ∧
      mfs_fkopen exVol (some { exRec with flPyLen := 12 }) kMFSForkData none =
        some (.error .EFBIG, exVol) := by
  constructor
  · refine (mfs_fkopen_outcome exVol recTestFile kMFSForkRsrc none [4, 0x1337, 3, 1, 5, 1]
      (by decide) rfl ?_).1.mpr (by decide)
    intro i hi
    have h0 : toU16 (forkPyLen recTestFile kMFSForkRsrc / exVol.mdb.drAlBlkSiz) = 0 := by decide
    omega
  · refine ((mfs_fkopen_outcome exVol { exRec with flPyLen := 12 } kMFSForkData none
      [4, 0x1337, 3, 1, 5, 1] (by decide) rfl ?_).2.1 (by decide) (by decide)).mpr (by decide)
    intro i hi
    have h3 : toU16 (forkPyLen { exRec with flPyLen := 12 } kMFSForkData /
        exVol.mdb.drAlBlkSiz) = 3 := by decide
    rw [h3] at hi
    have hcases : i = 0 ∨ i = 1 ∨ i = 2 := by omega
    rcases hcases with h | h | h <;> subst h <;> exact ⟨_, rfl, by decide⟩

/-- C5 as stated fails: for a physical EOF of `65536 * 512` bytes on a volume
with blocks of 512 bytes the quotient is 65536 and `vabm[chain[65535]]` is 2,
not the terminator, yet `mfs_fkopen` succeeds, with a block count of 0 and
an empty chain. -/
theorem mfs_fkopen_outcome_counterexample :
    loopRec.flPyLen / loopVol.mdb.drAlBlkSiz = 65536 ∧
      specChain [1, 0x1337, 2] 2 65536 = some 2 ∧
      mfs_fkopen loopVol (some loopRec) kMFSForkData none =
        some (.ok loopFork, { loopVol with openForks := 1 }) := by
  refine ⟨by decide, ?_, rfl⟩
  have h : ∀ i, specChain [1, 0x1337, 2] 2 i = some 2 := by
    intro i
    induction i with
    | zero => rfl
    | succ i ih => simp [specChain, ih]
  exact h 65536

/-! ## The open-fork counter -/

theorem filter_length_set_drop (p : Option MFSFork → Bool) (l : List (Option MFSFork)) (h : Nat)
    (x y : Option MFSFork) (hx : l[h]? = some x) (hpx : p x = true) (hpy : p y = false) :
    ((l.set h y).filter p).length + 1 = (l.filter p).length := by
  induction l generalizing h with
  | nil => simp at hx
  | cons a l ih =>
    cases h with
    | zero =>
      simp only [List.getElem?_cons_zero, Option.some.injEq] at hx
      subst hx
      simp [List.filter_cons, hpx, hpy]
    | succ h =>
      simp only [List.getElem?_cons_succ] at hx
      have := ih h hx
      simp only [List.set_cons_succ, List.filter_cons]
      split
      · simp only [List.length_cons]
        omega
      · exact this

theorem set_same (l : List (Option MFSFork)) (h : Nat) (x : Option MFSFork)
    (hx : l[h]? = some x) :
    l.set h x = l := by
  induction l generalizing h with
  | nil => simp
  | cons a l ih =>
    cases h with
    | zero =>
      simp only [List.getElem?_cons_zero, Option.some.injEq] at hx
      subst hx
      rfl
    | succ h =>
      simp only [List.getElem?_cons_succ] at hx
      simp [ih h hx]

/-- The effect of one call on a session in which `openForks` counts the
live handles. -/
theorem step_counter (s s1 : Session) (c : Call) (o : Outcome)
    (hinv : s.vol.openForks = (liveForks s).length) (hb : s.vol.openForks + 1 < 2 ^ 64)
    (hstep : step s c = some (s1, o)) :
    s1.vol.openForks = (liveForks s1).length ∧
      counterEffect o s.vol.openForks s1.vol.openForks := by
  have hu : toU64 (s.vol.openForks + 1) = s.vol.openForks + 1 := Nat.mod_eq_of_lt hb
  cases c with
  | fkopen r mode comment =>
    unfold step at hstep
    simp only at hstep
    split at hstep
    · simp at hstep
    · rename_i fk vol1 hopen
      simp only [Option.some.injEq, Prod.mk.injEq] at hstep
      obtain ⟨hs, ho⟩ := hstep
      subst hs ho
      unfold counterEffect
      cases r with
      | none => simp [mfs_fkopen] at hopen
      | some r =>
        obtain ⟨_, hvol, hsgn, _⟩ := mfs_fkopen_ok s.vol vol1 r mode comment fk hopen
        subst hvol
        simp only [liveForks] at hinv
        simp [liveForks, List.filter_append, isLive, hsgn, hu]
        omega
    · rename_i e vol1 hopen
      simp only [Option.some.injEq, Prod.mk.injEq] at hstep
      obtain ⟨hs, ho⟩ := hstep
      subst hs ho
      have hv : vol1 = s.vol := by
        unfold mfs_fkopen at hopen
        simp only at hopen
        split at hopen
        · simp only [Option.some.injEq, Prod.mk.injEq] at hopen
          exact hopen.2.symm
        · split at hopen
          · simp only [Option.some.injEq, Prod.mk.injEq] at hopen
            exact hopen.2.symm
          · split at hopen
            · simp at hopen
            · split at hopen
              · simp at hopen
              · split at hopen
                · simp only [Option.some.injEq, Prod.mk.injEq] at hopen
                  exact hopen.2.symm
                · simp at hopen
      subst hv
      exact ⟨hinv, rfl⟩
  | dhopen folder comment =>
    unfold step at hstep
    simp only at hstep
    cases folder with
    | none =>
      simp only [mfs_dhopen, Option.some.injEq, Prod.mk.injEq] at hstep
      obtain ⟨hs, ho⟩ := hstep
      subst hs ho
      exact ⟨hinv, rfl⟩
    | some folder =>
      simp only [mfs_dhopen, Option.some.injEq, Prod.mk.injEq] at hstep
      obtain ⟨hs, ho⟩ := hstep
      subst hs ho
      unfold counterEffect
      simp only [liveForks] at hinv
      simp [liveForks, List.filter_append, isLive, hu]
      omega
  | fkclose h =>
    unfold step at hstep
    simp only at hstep
    split at hstep
    · simp at hstep
    · simp at hstep
    · rename_i fk hfk
      by_cases hsgn : fk._fkSgn = kMFSForkSignature
      · simp only [mfs_fkclose, hsgn, ne_eq, not_true_eq_false, if_false, if_true,
          Option.some.injEq, Prod.mk.injEq] at hstep
        obtain ⟨hs, ho⟩ := hstep
        subst hs ho
        unfold counterEffect
        have hcnt := filter_length_set_drop isLive s.forks h (some fk) none hfk
          (by simp [isLive, hsgn]) rfl
        simp only [liveForks] at hinv ⊢
        have hpos : 0 < s.vol.openForks := by omega
        have hu2 : toU64 (s.vol.openForks + 2 ^ 64 - 1) = s.vol.openForks - 1 := by
          unfold toU64
          omega
        simp only [hu2]
        omega
      · simp only [mfs_fkclose, hsgn, ne_eq, not_false_eq_true, if_true,
          Option.some.injEq, Prod.mk.injEq] at hstep
        obtain ⟨hs, ho⟩ := hstep
        subst hs ho
        unfold counterEffect
        simp only [liveForks, set_same s.forks h (some fk) hfk] at hinv ⊢
        simp [hinv]

theorem countOpened_cons (o : Outcome) (os : List Outcome) :
    countOpened (o :: os) = (match o with | .opened _ => 1 | _ => 0) + countOpened os := by
  cases o
  all_goals simp [countOpened, List.filter_cons]
  all_goals omega

theorem countClosed_cons (o : Outcome) (os : List Outcome) :
    countClosed (o :: os) = (match o with | .closed _ => 1 | _ => 0) + countClosed os := by
  cases o
  all_goals simp [countClosed, List.filter_cons]
  all_goals omega

theorem run_counter (calls : List Call) :
    ∀ (s0 s : Session) (os : List Outcome),
      s0.vol.openForks = (liveForks s0).length →
      s0.vol.openForks + calls.length < 2 ^ 64 →
      run s0 calls = some (s, os) →
      s.vol.openForks = (liveForks s).length ∧
        s.vol.openForks + countClosed os = s0.vol.openForks + countOpened os ∧
        s.vol.openForks ≤ s0.vol.openForks + calls.length := by
  induction calls with
  | nil =>
    intro s0 s os hinv _ hrun
    simp only [run, Option.some.injEq, Prod.mk.injEq] at hrun
    obtain ⟨hs, ho⟩ := hrun
    subst hs ho
    exact ⟨hinv, by simp [countOpened, countClosed], by simp⟩
  | cons c cs ih =>
    intro s0 s os hinv hb hrun
    simp only [List.length_cons] at hb
    unfold run at hrun
    split at hrun
    · simp at hrun
    · rename_i s1 o hstep
      split at hrun
      · simp at hrun
      · rename_i s2 os1 hrun1
        simp only [Option.some.injEq, Prod.mk.injEq] at hrun
        obtain ⟨hs, ho⟩ := hrun
        subst hs ho
        obtain ⟨hinv1, heff⟩ := step_counter s0 s1 c o hinv (by omega) hstep
        have hle : s1.vol.openForks ≤ s0.vol.openForks + 1 := by
          cases o <;> simp only [counterEffect] at heff <;> omega
        obtain ⟨h1, h2, h3⟩ := ih s1 s2 os1 hinv1 (by omega) hrun1
        refine ⟨h1, ?_, by simp only [List.length_cons]; omega⟩
        rw [countOpened_cons, countClosed_cons]
        cases o <;> simp only [counterEffect] at heff ⊢ <;> omega

/-- C6: from a freshly opened volume (`openForks = 0`, no handle), after any
sequence of `mfs_fkopen`, `mfs_dhopen` and `mfs_fkclose` calls `openForks`
is the number of handles that are not freed and whose signature is live,
which is the number of successful opens minus the number of successful
closes; and the next call adds exactly 1 when it is a successful open,
subtracts exactly 1 when it closes a live handle, and leaves `openForks`
unchanged when it fails. -/
theorem openForks_counter (vol0 : MFSVolume) (calls : List Call) (c : Call)
    (s s1 : Session) (os : List Outcome) (o : Outcome)
    (h0 : vol0.openForks = 0) (hlen : calls.length + 1 < 2 ^ 64)
    (hrun : run { vol := vol0, forks := [] } calls = some (s, os))
    (hstep : step s c = some (s1, o)) :
    s.vol.openForks = (liveForks s).length ∧
      s.vol.openForks + countClosed os = countOpened os ∧
      counterEffect o s.vol.openForks s1.vol.openForks := by
  obtain ⟨h1, h2, h3⟩ := run_counter calls { vol := vol0, forks := [] } s os
    (by simp [liveForks, h0]) (by simp only [h0]; omega) hrun
  simp only [h0, Nat.zero_add] at h2 h3
  exact ⟨h1, h2, (step_counter s s1 c o h1 (by omega) hstep).2⟩

/-- C6 at the example session: after two successful opens, two failed opens
and one close, `openForks` is 1, and the close of the resource fork, handle
1, brings it to 0. -/
theorem openForks_counter_witness :
    exSession.vol.openForks = (liveForks exSession).length ∧
      exSession.vol.openForks + countClosed exOutcomes = countOpened exOutcomes ∧
      counterEffect (.closed 1) exSession.vol.openForks
        ({ vol := exVol, forks := [none, none] } : Session).vol.openForks :=
  openForks_counter exVol exCalls (.fkclose 1) exSession { vol := exVol, forks := [none, none] }
    exOutcomes (.closed 1) rfl (by decide) rfl rfl

/-! ## Closing a volume -/

theorem mfs_directory_free_of_mem (dir : List (Option MFSDirectoryRecord)) (h : none ∈ dir) :
    mfs_directory_free dir = some () := by
  induction dir with
  | nil => simp at h
  | cons a dir ih =>
    cases a with
    | none => rfl
    | some r =>
      simp only [mfs_directory_free]
      apply ih
      simpa using h

/-- C7: `mfs_vclose` returns -1 exactly when `openForks > 0`; it then sets
EBUSY and leaves the volume as it was; with `openForks = 0` it returns 0 and
the volume is gone.  Hence on a volume with no fork open, after a successful
`mfs_fkopen` the close fails, and after `mfs_fkclose` of that handle it
succeeds. -/
theorem mfs_vclose_busy (vol : MFSVolume) (hdir : none ∈ vol.directory) :
    ((∃ e v, mfs_vclose vol = some (-1, e, v)) ↔ 0 < vol.openForks) ∧
      (0 < vol.openForks → mfs_vclose vol = some (-1, some .EBUSY, some vol)) ∧
      (vol.openForks = 0 → mfs_vclose vol = some (0, none, none)) ∧
      (∀ (r : Option MFSDirectoryRecord) (mode : Int) (comment : Option (List Nat))
          (fk : MFSFork) (vol1 : MFSVolume),
        vol.openForks = 0 → mfs_fkopen vol r mode comment = some (.ok fk, vol1) →
          mfs_vclose vol1 = some (-1, some .EBUSY, some vol1) ∧
            (mfs_fkclose vol1 fk).1 = 0 ∧
            mfs_vclose (mfs_fkclose vol1 fk).2.2.2 = some (0, none, none)) := by
  have hfree := mfs_directory_free_of_mem vol.directory hdir
  refine ⟨?_, ?_, ?_, ?_⟩
  · constructor
    · rintro ⟨e, v, h⟩
      by_contra h0
      have h0 : vol.openForks = 0 := by omega
      simp [mfs_vclose, h0, hfree] at h
    · intro h
      exact ⟨some .EBUSY, some vol, by simp [mfs_vclose, Nat.pos_iff_ne_zero.mp h]⟩
  · intro h
    simp [mfs_vclose, Nat.pos_iff_ne_zero.mp h]
  · intro h
    simp [mfs_vclose, h, hfree]
  · intro r mode comment fk vol1 h0 hopen
    cases r with
    | none => simp [mfs_fkopen] at hopen
    | some r =>
      obtain ⟨_, hvol, hsgn, _⟩ := mfs_fkopen_ok vol vol1 r mode comment fk hopen
      subst hvol
      have h1 : toU64 (vol.openForks + 1) = 1 := by rw [h0]; rfl
      refine ⟨?_, ?_, ?_⟩
      · simp [mfs_vclose, h1]
      · simp [mfs_fkclose, hsgn]
      · have h2 : toU64 (toU64 (vol.openForks + 1) + 2 ^ 64 - 1) = 0 := by rw [h1]; rfl
        simp only [mfs_fkclose, hsgn, ne_eq, not_true_eq_false, if_false, mfs_vclose, h2, hfree]

/-- C7 at the example volume: with one fork open the close fails with EBUSY
and the volume is unchanged; with none open it returns 0. -/
theorem mfs_vclose_busy_witness :
    mfs_vclose exVol1 = some (-1, some .EBUSY, some exVol1) ∧
      mfs_vclose exVol = some (0, none, none) :=
  ⟨(mfs_vclose_busy exVol1 (by decide)).2.1 (by decide),
    (mfs_vclose_busy exVol (by decide)).2.2.1 rfl⟩

/-! ## Operations on a closed handle -/

theorem mfs_fkread_at_sgn (vol : MFSVolume) (fk : MFSFork) (sgn size offset : Nat)
    (heap : Nat → Nat) :
    mfs_fkread_at vol { fk with _fkSgn := sgn } size offset heap =
      mfs_fkread_at vol fk size offset heap := by
  have hreal : ∀ size offset, mfs_fkread_at_real vol { fk with _fkSgn := sgn } size offset heap =
      mfs_fkread_at_real vol fk size offset heap :=
    fun size offset => mfs_fkread_at_real_congr vol _ _ size offset heap rfl rfl
  unfold mfs_fkread_at mfs_fkread_at_appledouble
  simp only [hreal]

/-- On handle words that are not freed and whose signature word is not
`kMFSForkSignature`, `mfs_fkclose` returns -1 with EBADF and changes neither
the handle nor the volume; `mfs_fkread_at`, `mfs_fkread`, `mfs_fkseek` and
`mfs_ftell` do not look at the signature word: they do what they do on the
same words with a live signature. -/
theorem closed_fork_operations (vol : MFSVolume) (fk : MFSFork)
    (hsgn : fk._fkSgn ≠ kMFSForkSignature) :
    mfs_fkclose vol fk = (-1, some .EBADF, some fk, vol) ∧
      (∀ (size offset : Nat) (heap : Nat → Nat),
        mfs_fkread_at vol fk size offset heap =
          mfs_fkread_at vol { fk with _fkSgn := kMFSForkSignature } size offset heap) ∧
      (∀ (length : Nat) (heap : Nat → Nat),
        mfs_fkread vol fk length heap =
          mfs_fkread vol { fk with _fkSgn := kMFSForkSignature } length heap) ∧
      (∀ (offset whence : Int),
        (mfs_fkseek fk offset whence).1 =
            (mfs_fkseek { fk with _fkSgn := kMFSForkSignature } offset whence).1 ∧
          (mfs_fkseek fk offset whence).2 =
            { (mfs_fkseek { fk with _fkSgn := kMFSForkSignature } offset whence).2 with
              _fkSgn := fk._fkSgn }) ∧
      mfs_ftell fk = mfs_ftell { fk with _fkSgn := kMFSForkSignature } := by
  refine ⟨?_, ?_, ?_, ?_, rfl⟩
  · simp [mfs_fkclose, hsgn]
  · intro size offset heap
    exact (mfs_fkread_at_sgn vol fk kMFSForkSignature size offset heap).symm
  · intro length heap
    unfold mfs_fkread
    simp only [mfs_fkread_at_sgn]
  · intro offset whence
    unfold mfs_fkseek
    simp only
    split_ifs <;> exact ⟨rfl, rfl⟩

set_option maxRecDepth 100000 in
/-- C8 fails on the code.  The close of the data fork of the example record
succeeds and frees the handle, so a second close of it reads the signature
word from freed memory: the call is undefined, where the specification has a
failure with EBADF.  And `mfs_fkclose` alone tests the signature word: on
handle words whose signature is 0, `mfs_fkseek` moves the virtual offset to 5
and reports no error, `mfs_ftell` returns it, and `mfs_fkread_at` delivers two
bytes of the fork. -/
theorem mfs_fkclose_frees_handle :
    mfs_fkclose exVol1 exForkData = (0, none, none, exVol) ∧
      run { vol := exVol, forks := [] } [.fkopen (some exRec) kMFSForkData none, .fkclose 0] =
        some ({ vol := exVol, forks := [none] }, [.opened 0, .closed 0]) ∧
      step { vol := exVol, forks := [none] } (.fkclose 0) = none ∧
      run { vol := exVol, forks := [] }
        [.fkopen (some exRec) kMFSForkData none, .fkclose 0, .fkclose 0] = none ∧
      mfs_fkseek { exForkData with _fkSgn := 0 } 5 SEEK_SET =
        (5, { exForkData with _fkSgn := 0, fkOffset := 5 }) ∧
      mfs_ftell (mfs_fkseek { exForkData with _fkSgn := 0 } 5 SEEK_SET).2 = 5 ∧
      mfs_fkread_at exVol { exForkData with _fkSgn := 0 } 2 3 (fun _ => 0) =
        some (2, [13, 20]) := by
  refine ⟨rfl, rfl, rfl, rfl, rfl, rfl, ?_⟩
  decide

/-! ## Opening a volume -/

theorem beField_take_drop (img : List Nat) (pos : Nat) :
    beField (List.take 512 (List.drop pos img)) 0 2 = beField img pos 2 := by
  unfold beField slice
  simp only [List.drop_zero, List.take_take]
  rfl

theorem mfs_blkread_block2 (img : List Nat) (offset : Nat)
    (hfit : offset + 1536 ≤ img.length) (hpos : offset + 1024 < 2 ^ 63) :
    mfs_blkread (volInit img offset) 1 2 [] = (0, List.take 512 (List.drop (offset + 1024) img)) := by
  have hp : toU64 (offset + toU64 (kMFSBlockSize * 2)) = offset + 1024 := by
    unfold toU64 kMFSBlockSize
    omega
  have hlen : (List.take 512 (List.drop (offset + 1024) img)).length = 512 := by
    rw [List.length_take, List.length_drop]
    omega
  unfold mfs_blkread
  simp only [volInit, hp, fread]
  rw [if_neg (by omega)]
  simp [kMFSBlockSize, hlen]

theorem mfs_vopen_cases (img : List Nat) (offset flags : Nat)
    (folders : Option (List MFSFolder))
    (hfit : offset + 1536 ≤ img.length) (hpos : offset + 1024 < 2 ^ 63) :
    (beField img (offset + 1024) 2 ≠ kMFSSignature →
      (mfs_vopen (some img) offset flags folders = none ∨
        mfs_vopen (some img) offset flags folders = some (.error (some .EINVAL))) ∧
      (img.getD (offset + 1060) 0 ≤ 28 →
        mfs_vopen (some img) offset flags folders = some (.error (some .EINVAL)))) ∧
    (beField img (offset + 1024) 2 = kMFSSignature →
      mfs_vopen (some img) offset flags folders = none ∨
        ∃ vol, mfs_vopen (some img) offset flags folders = some (.ok vol)) := by
  have hsig : (mdbDecode (List.take 512 (List.drop (offset + 1024) img))).drSigWord =
      beField img (offset + 1024) 2 := beField_take_drop img (offset + 1024)
  have hvn : (mdbDecode (List.take 512 (List.drop (offset + 1024) img))).drVN.getD 0 0 =
      img.getD (offset + 1060) 0 := by
    simp only [mdbDecode, slice, List.getD_eq_getElem?_getD, List.getElem?_take, List.getElem?_drop]
    simp
  unfold mfs_vopen
  simp only [mfs_blkread_block2 img offset hfit hpos]
  rw [if_neg (by decide), hsig, hvn]
  constructor
  · intro hne
    by_cases h28 : 28 < img.getD (offset + 1060) 0
    · rw [if_pos h28]
      exact ⟨Or.inl rfl, fun h => absurd h28 (by omega)⟩
    · rw [if_neg h28, if_pos hne]
      exact ⟨Or.inr rfl, fun _ => rfl⟩
  · intro heq
    by_cases h28 : 28 < img.getD (offset + 1060) 0
    · rw [if_pos h28]
      exact Or.inl rfl
    · rw [if_neg h28, if_neg (by simpa using heq)]
      split
      · exact Or.inl rfl
      · split
        · exact Or.inl rfl
        · split
          · exact Or.inr ⟨_, rfl⟩
          · exact Or.inr ⟨_, rfl⟩

/-- When logical block 2 lies inside the image, a defined call of
`mfs_vopen` returns a volume exactly when the big-endian word at byte
`offset + 1024` is `0xD2D7`, and returns NULL with EINVAL otherwise; the
rejection of a wrong signature is a defined call whenever the length byte of
the volume name is at most 28. -/
theorem mfs_vopen_signature (img : List Nat) (offset flags : Nat)
    (folders : Option (List MFSFolder))
    (hfit : offset + 1536 ≤ img.length) (hpos : offset + 1024 < 2 ^ 63) :
    (mfs_vopen (some img) offset flags folders ≠ none →
      ((∃ vol, mfs_vopen (some img) offset flags folders = some (.ok vol)) ↔
          beField img (offset + 1024) 2 = 0xD2D7) ∧
        (beField img (offset + 1024) 2 ≠ 0xD2D7 →
          mfs_vopen (some img) offset flags folders = some (.error (some .EINVAL)))) ∧
    (beField img (offset + 1024) 2 ≠ 0xD2D7 → img.getD (offset + 1060) 0 ≤ 28 →
      mfs_vopen (some img) offset flags folders = some (.error (some .EINVAL))) := by
  obtain ⟨hbad, hgood⟩ := mfs_vopen_cases img offset flags folders hfit hpos
  refine ⟨?_, ?_⟩
  · intro hdef
    refine ⟨⟨?_, ?_⟩, ?_⟩
    · rintro ⟨vol, hvol⟩
      by_contra hne
      rcases (hbad hne).1 with h | h
      · exact hdef h
      · rw [h] at hvol
        simp at hvol
    · intro heq
      rcases hgood heq with h | h
      · exact absurd h hdef
      · exact h
    · intro hne
      rcases (hbad hne).1 with h | h
      · exact absurd h hdef
      · exact h
  · intro hne h28
    exact (hbad hne).2 h28

set_option maxRecDepth 1000000 in
/-- Two images of three logical blocks: with `D2 D7` at byte 1024 the
volume is returned; with block 2 all zero the result is NULL with EINVAL. -/
theorem mfs_vopen_signature_witness :
    mfs_vopen (some goodImage) 0 0 none = some (.ok goodVol) ∧
      beField goodImage (0 + 1024) 2 = 0xD2D7 ∧
      mfs_vopen (some zeroImage) 0 0 none = some (.error (some .EINVAL)) := by
  have hgood : mfs_vopen (some goodImage) 0 0 none = some (.ok goodVol) := by rfl
  exact ⟨hgood,
    ((mfs_vopen_signature goodImage 0 0 none (by decide) (by decide)).1
      (by rw [hgood]; simp)).1.mp ⟨goodVol, hgood⟩,
    (mfs_vopen_signature zeroImage 0 0 none (by decide) (by decide)).2 (by decide) (by decide)⟩

/-! ## Filename lookup -/

/-- In a record copied from `51 + flNam[0]` bytes, as `mfs_directory` copies
it, `flNam[0]` is the number of bytes of `flCName`. -/
theorem mfs_directory_record_name_length (src : List Nat)
    (h : src.length = 51 + src.getD 50 0) :
    (mfs_directory_record src).flNam0 = (mfs_directory_record src).flCName.length := by
  simp only [mfs_directory_record, List.length_drop]
  omega

set_option maxRecDepth 100000 in
theorem toupper_eq_zero : ∀ c, c < 256 → toupper c = 0 → c = 0 := by
  decide

theorem strlen_name (q rest : List Nat) (hq : IsName q) :
    strlen (q ++ 0 :: rest) = some q.length := by
  induction q with
  | nil => simp [strlen]
  | cons c q ih =>
    have hc : c ≠ 0 := by
      have := (hq c (List.mem_cons_self _ _)).1
      omega
    have hq2 : IsName q := fun d hd => hq d (List.mem_cons_of_mem _ hd)
    simp [strlen, hc, ih hq2]

theorem mfs_fneq_defined (a b : List Nat) (ha : IsName a) :
    ∃ e, mfs_fneq (a ++ [0]) (b ++ [0]) = some e := by
  induction a generalizing b with
  | nil =>
    cases b with
    | nil => simp [mfs_fneq]
    | cons d b =>
      simp only [List.nil_append, List.cons_append, mfs_fneq]
      split <;> simp
  | cons c a ih =>
    have hc := ha c (List.mem_cons_self _ _)
    have ha2 : IsName a := fun d hd => ha d (List.mem_cons_of_mem _ hd)
    have hc0 : c ≠ 0 := by omega
    cases b with
    | nil =>
      have hne : toupper c ≠ toupper 0 := by
        intro h
        exact hc0 (toupper_eq_zero c hc.2 (by rw [h]; rfl))
      simp [mfs_fneq, hne]
    | cons d b =>
      simp only [List.cons_append, mfs_fneq, hc0, if_false]
      split
      · exact ih b ha2
      · exact ⟨false, rfl⟩

/-- C10: on a NULL-terminated directory whose record names hold no NUL byte,
`mfs_directory_find_name` returns the first record, in directory order,
whose name has the length of the query and equals it under `mfs_fneq`
(MacRoman case folding); the result is NULL exactly when no record does. -/
theorem mfs_directory_find_name_first_match (recs : List MFSDirectoryRecord)
    (rest : List (Option MFSDirectoryRecord)) (q : List Nat)
    (hrecs : ∀ r ∈ recs, IsName r.flCName ∧ r.flNam0 = r.flCName.length)
    (hq : IsName q) :
    mfs_directory_find_name (recs.map some ++ none :: rest) (q ++ [0]) =
      some (recs.find? (fun r => decide (r.flCName.length = q.length) &&
        decide (mfs_fneq (flCNameMem r) (q ++ [0]) = some true))) ∧
    (mfs_directory_find_name (recs.map some ++ none :: rest) (q ++ [0]) = some none ↔
      ∀ r ∈ recs, ¬ (r.flCName.length = q.length ∧
        mfs_fneq (flCNameMem r) (q ++ [0]) = some true)) := by
  have hmain : mfs_directory_find_name (recs.map some ++ none :: rest) (q ++ [0]) =
      some (recs.find? (fun r => decide (r.flCName.length = q.length) &&
        decide (mfs_fneq (flCNameMem r) (q ++ [0]) = some true))) := by
    unfold mfs_directory_find_name
    rw [strlen_name q [] hq]
    simp only
    induction recs with
    | nil => simp [mfs_directory_find_name_loop]
    | cons r recs ih =>
      have hr := hrecs r (List.mem_cons_self _ _)
      have ih2 := ih (fun x hx => hrecs x (List.mem_cons_of_mem _ hx))
      simp only [List.map_cons, List.cons_append, mfs_directory_find_name_loop, List.find?_cons]
      by_cases hlen : r.flCName.length = q.length
      · have h0 : ¬ (r.flNam0 ≠ q.length) := by rw [hr.2]; simpa using hlen
        rw [if_neg h0]
        obtain ⟨e, he⟩ := mfs_fneq_defined r.flCName q hr.1
        have he2 : mfs_fneq (flCNameMem r) (q ++ [0]) = some e := he
        rw [he2]
        cases e with
        | true => simp [hlen]
        | false => simp [hlen, ih2]
      · have h0 : r.flNam0 ≠ q.length := by rw [hr.2]; exact hlen
        rw [if_pos h0]
        simp [hlen, ih2]
  refine ⟨hmain, ?_⟩
  rw [hmain]
  simp [List.find?_eq_none]

set_option maxRecDepth 100000 in
/-- The examples of C10: the query `testfile` finds the record named
`TestFile`, and the query `TEST` finds nothing. -/
theorem mfs_directory_find_name_first_match_witness :
    mfs_directory_find_name [some recTestFile, none]
        [0x74, 0x65, 0x73, 0x74, 0x66, 0x69, 0x6C, 0x65, 0] = some (some recTestFile) ∧
      mfs_directory_find_name [some recTestFile, none] [0x54, 0x45, 0x53, 0x54, 0] = some none := by
  have h1 := (mfs_directory_find_name_first_match [recTestFile] []
    [0x74, 0x65, 0x73, 0x74, 0x66, 0x69, 0x6C, 0x65] (by decide) (by decide)).1
  have h2 := (mfs_directory_find_name_first_match [recTestFile] []
    [0x54, 0x45, 0x53, 0x54] (by decide) (by decide)).1
  refine ⟨?_, ?_⟩
  · rw [show [some recTestFile, none] = [recTestFile].map some ++ none :: [] from rfl,
      show [0x74, 0x65, 0x73, 0x74, 0x66, 0x69, 0x6C, 0x65, 0] =
        [0x74, 0x65, 0x73, 0x74, 0x66, 0x69, 0x6C, 0x65] ++ [0] from rfl, h1]
    decide
  · rw [show [some recTestFile, none] = [recTestFile].map some ++ none :: [] from rfl,
      show [0x54, 0x45, 0x53, 0x54, 0] = [0x54, 0x45, 0x53, 0x54] ++ [0] from rfl, h2]
    decide

/-- `sameFold` is equality of the uppercase images. -/
theorem sameFold_iff_map (a b : List Nat) :
    sameFold a b ↔ a.map toupper = b.map toupper := by
  unfold sameFold
  induction a generalizing b with
  | nil =>
    cases b with
    | nil => simp
    | cons d b => simp
  | cons c a ih =>
    cases b with
    | nil => simp
    | cons d b =>
      simp only [List.length_cons, List.map_cons, List.cons.injEq, Nat.add_right_cancel_iff]
      rw [← ih b]
      constructor
      · rintro ⟨hl, h⟩
        refine ⟨?_, hl, ?_⟩
        · simpa using h 0 (Nat.succ_pos _)
        · intro i hi
          simpa using h (i + 1) (Nat.succ_lt_succ hi)
      · rintro ⟨h0, hl, h⟩
        refine ⟨hl, ?_⟩
        intro i hi
        cases i with
        | zero => simpa using h0
        | succ i => simpa using h i (Nat.lt_of_succ_lt_succ hi)

/-- The table maps NUL to NUL. -/
theorem toupper_zero : toupper 0 = 0 := by decide

/-- On NUL-terminated byte strings `mfs_fneq` decides equality of the
uppercase images. -/
theorem mfs_fneq_eq_map (a : List Nat) :
    ∀ (b ra rb : List Nat), IsName a → IsName b →
      mfs_fneq (a ++ 0 :: ra) (b ++ 0 :: rb) = some (decide (a.map toupper = b.map toupper)) := by
  induction a with
  | nil =>
    intro b ra rb _ hb
    cases b with
    | nil => simp [mfs_fneq]
    | cons d b =>
      have hd := hb d (List.mem_cons_self _ _)
      have : toupper d ≠ 0 := fun h => by
        have := toupper_eq_zero d hd.2 h
        omega
      simp [mfs_fneq, toupper_zero, Ne.symm this]
  | cons c a ih =>
    intro b ra rb ha hb
    have hc := ha c (List.mem_cons_self _ _)
    have hc0 : toupper c ≠ 0 := fun h => by
      have := toupper_eq_zero c hc.2 h
      omega
    have ha1 : IsName a := fun x hx => ha x (List.mem_cons_of_mem _ hx)
    cases b with
    | nil => simp [mfs_fneq, toupper_zero, hc0]
    | cons d b =>
      have hb1 : IsName b := fun x hx => hb x (List.mem_cons_of_mem _ hx)
      simp only [List.cons_append, mfs_fneq, List.map_cons, List.cons.injEq]
      by_cases h : toupper c = toupper d
      · have hcne : c ≠ 0 := by omega
        simp [h, hcne, ih b ra rb ha1 hb1]
      · simp [h]

/-- C11: for NUL-terminated byte strings `a` and `b`, `mfs_fneq` returns 1
exactly when both have the same length and the same uppercase image under
`mfs_chars_toupper` at every index, and 0 otherwise; it is reflexive,
symmetric and transitive. -/
theorem mfs_fneq_fold_equivalence (a b ra rb : List Nat) (ha : IsName a) (hb : IsName b) :
    mfs_fneq (a ++ 0 :: ra) (b ++ 0 :: rb) = some (decide (sameFold a b)) ∧
    mfs_fneq (a ++ 0 :: ra) (a ++ 0 :: ra) = some true ∧
    mfs_fneq (b ++ 0 :: rb) (a ++ 0 :: ra) = mfs_fneq (a ++ 0 :: ra) (b ++ 0 :: rb) ∧
    ∀ c rc : List Nat, IsName c →
      mfs_fneq (a ++ 0 :: ra) (b ++ 0 :: rb) = some true →
      mfs_fneq (b ++ 0 :: rb) (c ++ 0 :: rc) = some true →
      mfs_fneq (a ++ 0 :: ra) (c ++ 0 :: rc) = some true := by
  refine ⟨?_, ?_, ?_, ?_⟩
  · rw [mfs_fneq_eq_map a b ra rb ha hb]
    simp only [sameFold_iff_map]
  · rw [mfs_fneq_eq_map a a ra ra ha ha]
    simp
  · rw [mfs_fneq_eq_map a b ra rb ha hb, mfs_fneq_eq_map b a rb ra hb ha]
    simp only [eq_comm]
  · intro c rc hc
    rw [mfs_fneq_eq_map a b ra rb ha hb, mfs_fneq_eq_map b c rb rc hb hc,
      mfs_fneq_eq_map a c ra rc ha hc]
    simp only [Option.some.injEq, decide_eq_true_eq]
    intro h1 h2
    exact h1.trans h2

/-- The names `Ab` and `aB` compare equal, in both orders. -/
theorem mfs_fneq_fold_equivalence_witness :
    mfs_fneq [0x41, 0x62, 0] [0x61, 0x42, 0] = some true ∧
    mfs_fneq [0x61, 0x42, 0] [0x41, 0x62, 0] = some true := by
  have h := mfs_fneq_fold_equivalence [0x41, 0x62] [0x61, 0x42] [] [] (by decide) (by decide)
  refine ⟨?_, ?_⟩
  · rw [show [0x41, 0x62, 0] = [0x41, 0x62] ++ 0 :: [] from rfl,
      show [0x61, 0x42, 0] = [0x61, 0x42] ++ 0 :: [] from rfl, h.1]
    decide
  · rw [show [0x41, 0x62, 0] = [0x41, 0x62] ++ 0 :: [] from rfl,
      show [0x61, 0x42, 0] = [0x61, 0x42] ++ 0 :: [] from rfl, h.2.2.1, h.1]
    decide

/-! ## The AppleDouble header as a sequence of stores -/

theorem writeAll_length (M : Nat) (ws : List (Nat × List Nat)) :
    ∀ buf : List Nat, M ≤ buf.length → (∀ w ∈ ws, w.1 ≤ M) → M ≤ (writeAll buf ws).length := by
  induction ws with
  | nil => intro buf h _; exact h
  | cons w ws ih =>
    intro buf h hws
    unfold writeAll
    rw [List.foldl_cons]
    exact ih _ (le_length_writeAt _ _ _ _ h (hws w (List.mem_cons_self _ _)))
      (fun x hx => hws x (List.mem_cons_of_mem _ hx))

/-- Stores that stay inside the buffer keep its length. -/
theorem writeAll_length_eq (ws : List (Nat × List Nat)) :
    ∀ buf : List Nat, (∀ w ∈ ws, w.1 + w.2.length ≤ buf.length) →
      (writeAll buf ws).length = buf.length := by
  induction ws with
  | nil => intro buf _; rfl
  | cons w ws ih =>
    intro buf hws
    unfold writeAll
    rw [List.foldl_cons]
    have hw := hws w (List.mem_cons_self _ _)
    have hl : (writeAt buf w.1 w.2).length = buf.length := by
      unfold writeAt
      simp only [List.length_append, List.length_take, List.length_drop]
      omega
    have := ih (writeAt buf w.1 w.2) (fun x hx => by
      rw [hl]; exact hws x (List.mem_cons_of_mem _ hx))
    unfold writeAll at this
    rw [this, hl]

/-- A store outside a window leaves the window as it was. -/
theorem slice_writeAt_out (buf bytes : List Nat) (pos off len : Nat)
    (hbuf : off + len ≤ buf.length) (hpos : pos ≤ buf.length)
    (h : pos + bytes.length ≤ off ∨ off + len ≤ pos) :
    slice (writeAt buf pos bytes) off len = slice buf off len := by
  unfold slice writeAt
  rcases h with h | h
  · have h1 : off = (List.take pos buf ++ bytes).length + (off - (pos + bytes.length)) := by
      simp only [List.length_append, List.length_take]
      omega
    rw [h1, List.drop_append, List.drop_drop]
    simp only [List.length_append, List.length_take]
    congr 2
    omega
  · rw [List.append_assoc, List.drop_append_of_le_length (by simp; omega),
      List.take_append_of_le_length (by simp; omega), List.drop_take]
    rw [List.take_take]
    congr 1
    omega

/-- A store fills its own window. -/
theorem slice_writeAt_self (buf bytes : List Nat) (pos : Nat) (hpos : pos ≤ buf.length) :
    slice (writeAt buf pos bytes) pos bytes.length = bytes := by
  unfold slice writeAt
  have h1 : (List.take pos buf).length = pos := by simp; omega
  rw [List.append_assoc, List.drop_left' h1]
  simp

theorem slice_writeAll_out (M off len : Nat) (hwin : off + len ≤ M)
    (ws : List (Nat × List Nat)) :
    ∀ buf : List Nat, M ≤ buf.length →
      (∀ w ∈ ws, w.1 ≤ M ∧ (w.1 + w.2.length ≤ off ∨ off + len ≤ w.1)) →
      slice (writeAll buf ws) off len = slice buf off len := by
  induction ws with
  | nil => intro buf _ _; rfl
  | cons w ws ih =>
    intro buf h hws
    unfold writeAll
    rw [List.foldl_cons]
    have hw := hws w (List.mem_cons_self _ _)
    have := ih (writeAt buf w.1 w.2) (le_length_writeAt _ _ _ _ h hw.1)
      (fun x hx => hws x (List.mem_cons_of_mem _ hx))
    unfold writeAll at this
    rw [this, slice_writeAt_out _ _ _ _ _ (by omega) (by omega) hw.2]

/-- The bytes of a store are found in the final buffer when no later store
touches them. -/
theorem slice_writeAll_store (M : Nat) (buf : List Nat) (before after : List (Nat × List Nat))
    (w : Nat × List Nat) (hbuf : M ≤ buf.length) (hb : ∀ x ∈ before, x.1 ≤ M)
    (hw : w.1 + w.2.length ≤ M)
    (ha : ∀ x ∈ after, x.1 ≤ M ∧ (x.1 + x.2.length ≤ w.1 ∨ w.1 + w.2.length ≤ x.1)) :
    slice (writeAll buf (before ++ w :: after)) w.1 w.2.length = w.2 := by
  unfold writeAll
  rw [List.foldl_append, List.foldl_cons]
  have h1 : M ≤ (writeAll buf before).length := writeAll_length M before buf hbuf hb
  unfold writeAll at h1
  have h2 := slice_writeAll_out M w.1 w.2.length hw after
    (writeAt (List.foldl (fun b w => writeAt b w.1 w.2) buf before) w.1 w.2)
    (le_length_writeAt _ _ _ _ h1 (by omega)) ha
  unfold writeAll at h2
  rw [h2, slice_writeAt_self _ _ _ (by omega)]

theorem slice_add (buf : List Nat) (off m n : Nat) :
    slice buf off (m + n) = slice buf off m ++ slice buf (off + m) n := by
  unfold slice
  rw [List.take_add, List.drop_drop]

/-- The header `mfs_fkopen` builds is the zeroed buffer after the stores of
`headerStores`. -/
theorem mfs_fkopen_header_stores (r : MFSDirectoryRecord) (fkLgLen : Nat)
    (comment : Option (List Nat)) :
    mfs_fkopen_header r fkLgLen comment =
      writeAll (List.replicate kAppleDoubleHeaderLength 0) (headerStores r fkLgLen comment) := by
  unfold mfs_fkopen_header headerStores appleDoubleFinish finishStores appleDoubleInit writeAll
  by_cases h : fkLgLen ≠ 0
  · cases comment with
    | none => simp only [if_pos h]; rfl
    | some c => simp only [if_pos h]; rfl
  · cases comment with
    | none => simp only [if_neg h]; rfl
    | some c => simp only [if_neg h]; rfl

theorem htonl_length (x : Nat) : (htonl x).length = 4 := rfl
theorem htons_length (x : Nat) : (htons x).length = 2 := rfl
theorem appleDoubleEntry_length (a b c : Nat) : (appleDoubleEntry a b c).length = 12 := rfl

/-- The bytes of the `k`-th store of a sequence are found in the final
buffer when no later store touches them. -/
theorem slice_writeAll_nth (M : Nat) (buf : List Nat) (ws : List (Nat × List Nat))
    (k pos len : Nat) (bytes : List Nat) (hk : ws.get? k = some (pos, bytes))
    (hlen : bytes.length = len) (hbuf : M ≤ buf.length) (hw : pos + len ≤ M)
    (hb : ∀ x ∈ ws.take k, x.1 ≤ M)
    (ha : ∀ x ∈ ws.drop (k + 1), x.1 ≤ M ∧ (x.1 + x.2.length ≤ pos ∨ pos + len ≤ x.1)) :
    slice (writeAll buf ws) pos len = bytes := by
  have hsplit : ws = ws.take k ++ (pos, bytes) :: ws.drop (k + 1) := by
    have hlt : k < ws.length := by
      by_contra hcon
      rw [List.get?_eq_none.mpr (by omega)] at hk
      exact Option.noConfusion hk
    rw [List.get?_eq_get hlt] at hk
    have hget : ws.get ⟨k, hlt⟩ = (pos, bytes) := Option.some.inj hk
    rw [← hget]
    conv_lhs => rw [← List.take_append_drop k ws]
    congr 1
    exact List.drop_eq_getElem_cons hlt
  rw [hsplit]
  subst hlen
  exact slice_writeAll_store M buf (ws.take k) (ws.drop (k + 1)) (pos, bytes) hbuf hb hw ha

theorem replicate_header_length : 0x300 ≤ (List.replicate kAppleDoubleHeaderLength 0).length := by
  rw [List.length_replicate]
  decide

theorem takeWhile_terminated_length (l : List Nat) :
    ((l ++ [0]).takeWhile (· ≠ 0)).length ≤ l.length := by
  induction l with
  | nil => simp
  | cons c l ih =>
    rw [List.cons_append, List.takeWhile_cons]
    split
    · simp only [List.length_cons]
      omega
    · simp

/-- A record whose name fits its length byte gets a header of exactly
`0x300` bytes. -/
theorem mfs_fkopen_header_length_eq (r : MFSDirectoryRecord) (fkLgLen : Nat)
    (comment : Option (List Nat)) (hname : r.flCName.length ≤ 255) :
    (mfs_fkopen_header r fkLgLen comment).length = 0x300 := by
  rw [mfs_fkopen_header_stores, writeAll_length_eq]
  · rw [List.length_replicate]
    rfl
  · have hn : (strcpyBytes (flCNameMem r)).length ≤ r.flCName.length + 1 := by
      unfold strcpyBytes flCNameMem
      rw [List.length_append]
      exact Nat.add_le_add_right (takeWhile_terminated_length r.flCName) 1
    rw [List.length_replicate]
    unfold headerStores finishStores
    by_cases hL : fkLgLen ≠ 0
    · cases comment with
      | none =>
        simp only [if_pos hL]
        simp [appleDoubleEntry_length, htons_length, htonl_length, entryOffset,
          kAppleDoubleHeaderLength, kAppleDoubleRealNameOffset, kAppleDoubleFileInfoOffset,
          kAppleDoubleFinderInfoOffset, appleDoubleFilesystem]
        omega
      | some c =>
        simp only [if_pos hL]
        simp [appleDoubleEntry_length, htons_length, htonl_length, entryOffset,
          kAppleDoubleHeaderLength, kAppleDoubleRealNameOffset, kAppleDoubleFileInfoOffset,
          kAppleDoubleFinderInfoOffset, appleDoubleFilesystem,
          kAppleDoubleCommentOffset]
        omega
    · cases comment with
      | none =>
        simp only [if_neg hL]
        simp [appleDoubleEntry_length, htons_length, htonl_length, entryOffset,
          kAppleDoubleHeaderLength, kAppleDoubleRealNameOffset, kAppleDoubleFileInfoOffset,
          kAppleDoubleFinderInfoOffset, appleDoubleFilesystem]
        omega
      | some c =>
        simp only [if_neg hL]
        simp [appleDoubleEntry_length, htons_length, htonl_length, entryOffset,
          kAppleDoubleHeaderLength, kAppleDoubleRealNameOffset, kAppleDoubleFileInfoOffset,
          kAppleDoubleFinderInfoOffset, appleDoubleFilesystem,
          kAppleDoubleCommentOffset]
        omega

/-- The first 74 bytes of the header of a record with a resource fork, when
there is no comment. -/
theorem mfs_fkopen_header_prefix_rsrc (r : MFSDirectoryRecord) (L : Nat) (hL : L ≠ 0) :
    (mfs_fkopen_header r L none).take 74 =
      htonl kAppleDoubleMagic ++ (htonl kAppleDoubleVersion ++ (appleDoubleFilesystem ++
      (htons 4 ++ (appleDoubleEntry 2 0x300 L ++ (appleDoubleEntry 3 0xA0 r.flNam0 ++ (appleDoubleEntry 7 0x70 16 ++ (appleDoubleEntry 9 0x80 32))))))) := by
  rw [mfs_fkopen_header_stores]
  generalize hws : headerStores r L none = ws
  unfold headerStores finishStores at hws
  simp only [if_pos hL] at hws
  have p0 : slice (writeAll (List.replicate kAppleDoubleHeaderLength 0) ws) 0 4 =
      htonl kAppleDoubleMagic := by
    rw [← hws]
    exact slice_writeAll_nth 0x300 _ _ 0 _ _ _ (by rfl) (by rfl) replicate_header_length
      (by norm_num)
      (by simp [entryOffset, kAppleDoubleRealNameOffset, kAppleDoubleFileInfoOffset,
        kAppleDoubleFinderInfoOffset])
      (by simp [appleDoubleEntry_length, htons_length, htonl_length, entryOffset,
        kAppleDoubleRealNameOffset, kAppleDoubleFileInfoOffset, kAppleDoubleFinderInfoOffset,
        appleDoubleFilesystem])
  have p1 : slice (writeAll (List.replicate kAppleDoubleHeaderLength 0) ws) 4 4 =
      htonl kAppleDoubleVersion := by
    rw [← hws]
    exact slice_writeAll_nth 0x300 _ _ 1 _ _ _ (by rfl) (by rfl) replicate_header_length
      (by norm_num)
      (by simp [entryOffset, kAppleDoubleRealNameOffset, kAppleDoubleFileInfoOffset,
        kAppleDoubleFinderInfoOffset])
      (by simp [appleDoubleEntry_length, htons_length, htonl_length, entryOffset,
        kAppleDoubleRealNameOffset, kAppleDoubleFileInfoOffset, kAppleDoubleFinderInfoOffset,
        appleDoubleFilesystem])
  have p2 : slice (writeAll (List.replicate kAppleDoubleHeaderLength 0) ws) 8 16 =
      appleDoubleFilesystem := by
    rw [← hws]
    exact slice_writeAll_nth 0x300 _ _ 2 _ _ _ (by rfl) (by rfl) replicate_header_length
      (by norm_num)
      (by simp [entryOffset, kAppleDoubleRealNameOffset, kAppleDoubleFileInfoOffset,
        kAppleDoubleFinderInfoOffset])
      (by simp [appleDoubleEntry_length, htons_length, htonl_length, entryOffset,
        kAppleDoubleRealNameOffset, kAppleDoubleFileInfoOffset, kAppleDoubleFinderInfoOffset,
        appleDoubleFilesystem])
  have p3 : slice (writeAll (List.replicate kAppleDoubleHeaderLength 0) ws) 24 2 =
      htons 4 := by
    rw [← hws]
    exact slice_writeAll_nth 0x300 _ _ 10 _ _ _ (by rfl) (by rfl) replicate_header_length
      (by norm_num)
      (by simp [entryOffset, kAppleDoubleRealNameOffset, kAppleDoubleFileInfoOffset,
        kAppleDoubleFinderInfoOffset])
      (by simp [appleDoubleEntry_length, htons_length, htonl_length, entryOffset,
        kAppleDoubleRealNameOffset, kAppleDoubleFileInfoOffset, kAppleDoubleFinderInfoOffset,
        appleDoubleFilesystem])
  have p4 : slice (writeAll (List.replicate kAppleDoubleHeaderLength 0) ws) 26 12 =
      appleDoubleEntry 2 0x300 L := by
    rw [← hws]
    exact slice_writeAll_nth 0x300 _ _ 3 _ _ _ (by rfl) (by rfl) replicate_header_length
      (by norm_num)
      (by simp [entryOffset, kAppleDoubleRealNameOffset, kAppleDoubleFileInfoOffset,
        kAppleDoubleFinderInfoOffset])
      (by simp [appleDoubleEntry_length, htons_length, htonl_length, entryOffset,
        kAppleDoubleRealNameOffset, kAppleDoubleFileInfoOffset, kAppleDoubleFinderInfoOffset,
        appleDoubleFilesystem])
  have p5 : slice (writeAll (List.replicate kAppleDoubleHeaderLength 0) ws) 38 12 =
      appleDoubleEntry 3 0xA0 r.flNam0 := by
    rw [← hws]
    exact slice_writeAll_nth 0x300 _ _ 4 _ _ _ (by rfl) (by rfl) replicate_header_length
      (by norm_num)
      (by simp [entryOffset, kAppleDoubleRealNameOffset, kAppleDoubleFileInfoOffset,
        kAppleDoubleFinderInfoOffset])
      (by simp [appleDoubleEntry_length, htons_length, htonl_length, entryOffset,
        kAppleDoubleRealNameOffset, kAppleDoubleFileInfoOffset, kAppleDoubleFinderInfoOffset,
        appleDoubleFilesystem])
  have p6 : slice (writeAll (List.replicate kAppleDoubleHeaderLength 0) ws) 50 12 =
      appleDoubleEntry 7 0x70 16 := by
    rw [← hws]
    exact slice_writeAll_nth 0x300 _ _ 6 _ _ _ (by rfl) (by rfl) replicate_header_length
      (by norm_num)
      (by simp [entryOffset, kAppleDoubleRealNameOffset, kAppleDoubleFileInfoOffset,
        kAppleDoubleFinderInfoOffset])
      (by simp [appleDoubleEntry_length, htons_length, htonl_length, entryOffset,
        kAppleDoubleRealNameOffset, kAppleDoubleFileInfoOffset, kAppleDoubleFinderInfoOffset,
        appleDoubleFilesystem])
  have p7 : slice (writeAll (List.replicate kAppleDoubleHeaderLength 0) ws) 62 12 =
      appleDoubleEntry 9 0x80 32 := by
    rw [← hws]
    exact slice_writeAll_nth 0x300 _ _ 8 _ _ _ (by rfl) (by rfl) replicate_header_length
      (by norm_num)
      (by simp [entryOffset, kAppleDoubleRealNameOffset, kAppleDoubleFileInfoOffset,
        kAppleDoubleFinderInfoOffset])
      (by simp [appleDoubleEntry_length, htons_length, htonl_length, entryOffset,
        kAppleDoubleRealNameOffset, kAppleDoubleFileInfoOffset, kAppleDoubleFinderInfoOffset,
        appleDoubleFilesystem])
  have ht : (writeAll (List.replicate kAppleDoubleHeaderLength 0) ws).take 74 =
      slice (writeAll (List.replicate kAppleDoubleHeaderLength 0) ws) 0 (4 + (4 + (16 + (2 + (12 + (12 + (12 + (12)))))))) := rfl
  rw [ht]
  simp only [slice_add]
  rw [p0, p1, p2, p3, p4, p5, p6, p7]

/-- The first 62 bytes of the header of a record without resource fork, when
there is no comment. -/
theorem mfs_fkopen_header_prefix_norsrc (r : MFSDirectoryRecord) (L : Nat) (hL : ¬ L ≠ 0) :
    (mfs_fkopen_header r L none).take 62 =
      htonl kAppleDoubleMagic ++ (htonl kAppleDoubleVersion ++ (appleDoubleFilesystem ++
      (htons 3 ++ (appleDoubleEntry 3 0xA0 r.flNam0 ++ (appleDoubleEntry 7 0x70 16 ++ (appleDoubleEntry 9 0x80 32)))))) := by
  rw [mfs_fkopen_header_stores]
  generalize hws : headerStores r L none = ws
  unfold headerStores finishStores at hws
  simp only [if_neg hL] at hws
  have p0 : slice (writeAll (List.replicate kAppleDoubleHeaderLength 0) ws) 0 4 =
      htonl kAppleDoubleMagic := by
    rw [← hws]
    exact slice_writeAll_nth 0x300 _ _ 0 _ _ _ (by rfl) (by rfl) replicate_header_length
      (by norm_num)
      (by simp [entryOffset, kAppleDoubleRealNameOffset, kAppleDoubleFileInfoOffset,
        kAppleDoubleFinderInfoOffset])
      (by simp [appleDoubleEntry_length, htons_length, htonl_length, entryOffset,
        kAppleDoubleRealNameOffset, kAppleDoubleFileInfoOffset, kAppleDoubleFinderInfoOffset,
        appleDoubleFilesystem])
  have p1 : slice (writeAll (List.replicate kAppleDoubleHeaderLength 0) ws) 4 4 =
      htonl kAppleDoubleVersion := by
    rw [← hws]
    exact slice_writeAll_nth 0x300 _ _ 1 _ _ _ (by rfl) (by rfl) replicate_header_length
      (by norm_num)
      (by simp [entryOffset, kAppleDoubleRealNameOffset, kAppleDoubleFileInfoOffset,
        kAppleDoubleFinderInfoOffset])
      (by simp [appleDoubleEntry_length, htons_length, htonl_length, entryOffset,
        kAppleDoubleRealNameOffset, kAppleDoubleFileInfoOffset, kAppleDoubleFinderInfoOffset,
        appleDoubleFilesystem])
  have p2 : slice (writeAll (List.replicate kAppleDoubleHeaderLength 0) ws) 8 16 =
      appleDoubleFilesystem := by
    rw [← hws]
    exact slice_writeAll_nth 0x300 _ _ 2 _ _ _ (by rfl) (by rfl) replicate_header_length
      (by norm_num)
      (by simp [entryOffset, kAppleDoubleRealNameOffset, kAppleDoubleFileInfoOffset,
        kAppleDoubleFinderInfoOffset])
      (by simp [appleDoubleEntry_length, htons_length, htonl_length, entryOffset,
        kAppleDoubleRealNameOffset, kAppleDoubleFileInfoOffset, kAppleDoubleFinderInfoOffset,
        appleDoubleFilesystem])
  have p3 : slice (writeAll (List.replicate kAppleDoubleHeaderLength 0) ws) 24 2 =
      htons 3 := by
    rw [← hws]
    exact slice_writeAll_nth 0x300 _ _ 9 _ _ _ (by rfl) (by rfl) replicate_header_length
      (by norm_num)
      (by simp [entryOffset, kAppleDoubleRealNameOffset, kAppleDoubleFileInfoOffset,
        kAppleDoubleFinderInfoOffset])
      (by simp [appleDoubleEntry_length, htons_length, htonl_length, entryOffset,
        kAppleDoubleRealNameOffset, kAppleDoubleFileInfoOffset, kAppleDoubleFinderInfoOffset,
        appleDoubleFilesystem])
  have p5 : slice (writeAll (List.replicate kAppleDoubleHeaderLength 0) ws) 26 12 =
      appleDoubleEntry 3 0xA0 r.flNam0 := by
    rw [← hws]
    exact slice_writeAll_nth 0x300 _ _ 3 _ _ _ (by rfl) (by rfl) replicate_header_length
      (by norm_num)
      (by simp [entryOffset, kAppleDoubleRealNameOffset, kAppleDoubleFileInfoOffset,
        kAppleDoubleFinderInfoOffset])
      (by simp [appleDoubleEntry_length, htons_length, htonl_length, entryOffset,
        kAppleDoubleRealNameOffset, kAppleDoubleFileInfoOffset, kAppleDoubleFinderInfoOffset,
        appleDoubleFilesystem])
  have p6 : slice (writeAll (List.replicate kAppleDoubleHeaderLength 0) ws) 38 12 =
      appleDoubleEntry 7 0x70 16 := by
    rw [← hws]
    exact slice_writeAll_nth 0x300 _ _ 5 _ _ _ (by rfl) (by rfl) replicate_header_length
      (by norm_num)
      (by simp [entryOffset, kAppleDoubleRealNameOffset, kAppleDoubleFileInfoOffset,
        kAppleDoubleFinderInfoOffset])
      (by simp [appleDoubleEntry_length, htons_length, htonl_length, entryOffset,
        kAppleDoubleRealNameOffset, kAppleDoubleFileInfoOffset, kAppleDoubleFinderInfoOffset,
        appleDoubleFilesystem])
  have p7 : slice (writeAll (List.replicate kAppleDoubleHeaderLength 0) ws) 50 12 =
      appleDoubleEntry 9 0x80 32 := by
    rw [← hws]
    exact slice_writeAll_nth 0x300 _ _ 7 _ _ _ (by rfl) (by rfl) replicate_header_length
      (by norm_num)
      (by simp [entryOffset, kAppleDoubleRealNameOffset, kAppleDoubleFileInfoOffset,
        kAppleDoubleFinderInfoOffset])
      (by simp [appleDoubleEntry_length, htons_length, htonl_length, entryOffset,
        kAppleDoubleRealNameOffset, kAppleDoubleFileInfoOffset, kAppleDoubleFinderInfoOffset,
        appleDoubleFilesystem])
  have ht : (writeAll (List.replicate kAppleDoubleHeaderLength 0) ws).take 62 =
      slice (writeAll (List.replicate kAppleDoubleHeaderLength 0) ws) 0 (4 + (4 + (16 + (2 + (12 + (12 + (12))))))) := rfl
  rw [ht]
  simp only [slice_add]
  rw [p0, p1, p2, p3, p5, p6, p7]

/-- C12: for every record opened in AppleDouble mode when the Desktop bridge
supplies no comment, the header has `0x300` bytes and begins with the magic
`00 05 16 07`, the version `00 02 00 00` and the tag `Macintosh` padded with
spaces to 16 bytes, followed at `0x18` by the big-endian entry count and at
`0x1A` by exactly that many big-endian descriptors, in order:
`(2, 0x300, flRLgLen)` present exactly when `flRLgLen` is not 0, then
`(3, 0xA0, flNam[0])`, `(7, 0x70, 16)` and `(9, 0x80, 32)`; the count is 4
with a resource fork and 3 without. -/
theorem mfs_fkopen_header_layout (vol vol1 : MFSVolume) (r : MFSDirectoryRecord) (fk : MFSFork)
    (hopen : mfs_fkopen vol (some r) kMFSForkAppleDouble none = some (.ok fk, vol1))
    (hname : r.flCName.length ≤ 255) (hnam0 : r.flNam0 < 256) (hlg : r.flRLgLen < 2 ^ 32) :
    fk.fkAppleDouble = some (mfs_fkopen_header r r.flRLgLen none) ∧
    (mfs_fkopen_header r r.flRLgLen none).length = 0x300 ∧
    (mfs_fkopen_header r r.flRLgLen none).take (0x1A + 12 * (specDescriptors r).length) =
      [0x00, 0x05, 0x16, 0x07] ++ [0x00, 0x02, 0x00, 0x00] ++
      [0x4D, 0x61, 0x63, 0x69, 0x6E, 0x74, 0x6F, 0x73, 0x68,
        0x20, 0x20, 0x20, 0x20, 0x20, 0x20, 0x20] ++
      htons (specDescriptors r).length ++ (specDescriptors r).flatMap descriptorBytes ∧
    (specDescriptors r).length = (if r.flRLgLen ≠ 0 then 4 else 3) := by
  obtain ⟨_, _, _, _, _, _, hlen, _, had, _, _⟩ := mfs_fkopen_ok vol vol1 r _ none fk hopen
  have hlen1 : fk.fkLgLen = r.flRLgLen := by
    rw [hlen]
    simp
  rw [if_pos rfl, hlen1] at had
  refine ⟨had, mfs_fkopen_header_length_eq r _ none hname, ?_, ?_⟩
  · have e1 : toU32 r.flRLgLen = r.flRLgLen := Nat.mod_eq_of_lt hlg
    have e2 : toU32 r.flNam0 = r.flNam0 := Nat.mod_eq_of_lt (by omega)
    by_cases hL : r.flRLgLen ≠ 0
    · have hd : specDescriptors r =
          [(2, 0x300, r.flRLgLen), (3, 0xA0, r.flNam0), (7, 0x70, 16), (9, 0x80, 32)] := by
        unfold specDescriptors
        rw [if_pos hL]
        rfl
      rw [hd, show 0x1A + 12 * [(2, 0x300, r.flRLgLen), (3, 0xA0, r.flNam0), (7, 0x70, 16),
        (9, 0x80, 32)].length = 74 from rfl, mfs_fkopen_header_prefix_rsrc r r.flRLgLen hL]
      simp only [appleDoubleEntry, e1, e2, List.flatMap_cons, List.flatMap_nil,
        descriptorBytes, List.append_assoc, List.append_nil]
      rfl
    · have hd : specDescriptors r = [(3, 0xA0, r.flNam0), (7, 0x70, 16), (9, 0x80, 32)] := by
        unfold specDescriptors
        rw [if_neg hL]
        rfl
      rw [hd, show 0x1A + 12 * [(3, 0xA0, r.flNam0), (7, 0x70, 16),
        (9, 0x80, 32)].length = 62 from rfl, mfs_fkopen_header_prefix_norsrc r r.flRLgLen hL]
      simp only [appleDoubleEntry, e2, List.flatMap_cons, List.flatMap_nil,
        descriptorBytes, List.append_assoc, List.append_nil]
      rfl
  · unfold specDescriptors
    split <;> rfl

set_option maxRecDepth 1000000 in
/-- The header of the example record, which has a resource fork of 5 bytes
and a name of 2 bytes. -/
theorem mfs_fkopen_header_layout_witness :
    exForkAD.fkAppleDouble = some (mfs_fkopen_header exRec 5 none) ∧
    (mfs_fkopen_header exRec 5 none).length = 0x300 ∧
    (mfs_fkopen_header exRec 5 none).take 74 =
      [0x00, 0x05, 0x16, 0x07, 0x00, 0x02, 0x00, 0x00,
       0x4D, 0x61, 0x63, 0x69, 0x6E, 0x74, 0x6F, 0x73, 0x68,
       0x20, 0x20, 0x20, 0x20, 0x20, 0x20, 0x20, 0, 4,
       0, 0, 0, 2, 0, 0, 3, 0, 0, 0, 0, 5,
       0, 0, 0, 3, 0, 0, 0, 0xA0, 0, 0, 0, 2,
       0, 0, 0, 7, 0, 0, 0, 0x70, 0, 0, 0, 16,
       0, 0, 0, 9, 0, 0, 0, 0x80, 0, 0, 0, 32] := by
  have h := mfs_fkopen_header_layout exVol exVol1 exRec exForkAD rfl (by decide) (by decide)
    (by decide)
  exact ⟨h.1, h.2.1, h.2.2.1⟩

/-! ## The metadata slots of the header -/

/-- The file information, the Finder information and the 16 bytes after it
in the header `mfs_fkopen` builds, with or without a comment. -/
theorem mfs_fkopen_header_slots (r : MFSDirectoryRecord) (L : Nat)
    (comment : Option (List Nat)) (husr : r.flUsrWds.length = 16) :
    slice (mfs_fkopen_header r L comment) 0x70 16 =
      htonl r.flCrDat ++ htonl r.flMdDat ++ htonl 0 ++ htonl (toU32 (r.flFlags &&& 0x7F)) ∧
    slice (mfs_fkopen_header r L comment) 0x80 16 = r.flUsrWds.take 16 ∧
    slice (mfs_fkopen_header r L comment) 0x90 16 =
      slice (List.replicate kAppleDoubleHeaderLength 0) 0x90 16 := by
  rw [mfs_fkopen_header_stores]
  generalize hws : headerStores r L comment = ws
  unfold headerStores finishStores at hws
  by_cases hL : L ≠ 0
  · cases comment with
    | none =>
      simp only [if_pos hL] at hws
      have q1 : slice (writeAll (List.replicate kAppleDoubleHeaderLength 0) ws) 0x70 16 =
          htonl r.flCrDat ++ htonl r.flMdDat ++ htonl 0 ++ htonl (toU32 (r.flFlags &&& 0x7F)) := by
        rw [← hws]
        exact slice_writeAll_nth 0x300 _ _ 7 _ _ _ (by rfl) (by rfl) replicate_header_length
          (by norm_num)
          (by simp [entryOffset, kAppleDoubleRealNameOffset, kAppleDoubleFileInfoOffset,
            kAppleDoubleFinderInfoOffset])
          (by simp [appleDoubleEntry_length, htons_length, htonl_length, entryOffset,
              kAppleDoubleRealNameOffset, kAppleDoubleFileInfoOffset, kAppleDoubleFinderInfoOffset,
              kAppleDoubleCommentOffset, appleDoubleFilesystem, husr])
      have q2 : slice (writeAll (List.replicate kAppleDoubleHeaderLength 0) ws) 0x80 16 =
          r.flUsrWds.take 16 := by
        rw [← hws]
        exact slice_writeAll_nth 0x300 _ _ 9 _ _ _ (by rfl) (by simp [husr])
          replicate_header_length (by norm_num)
          (by simp [entryOffset, kAppleDoubleRealNameOffset, kAppleDoubleFileInfoOffset,
            kAppleDoubleFinderInfoOffset])
          (by simp [appleDoubleEntry_length, htons_length, htonl_length, entryOffset,
              kAppleDoubleRealNameOffset, kAppleDoubleFileInfoOffset, kAppleDoubleFinderInfoOffset,
              kAppleDoubleCommentOffset, appleDoubleFilesystem, husr])
      have q3 : slice (writeAll (List.replicate kAppleDoubleHeaderLength 0) ws) 0x90 16 =
          slice (List.replicate kAppleDoubleHeaderLength 0) 0x90 16 := by
        rw [← hws]
        exact slice_writeAll_out 0x300 0x90 16 (by norm_num) _ _ replicate_header_length
          (by simp [appleDoubleEntry_length, htons_length, htonl_length, entryOffset,
              kAppleDoubleRealNameOffset, kAppleDoubleFileInfoOffset, kAppleDoubleFinderInfoOffset,
              kAppleDoubleCommentOffset, appleDoubleFilesystem, husr])
      exact ⟨q1, q2, q3⟩
    | some c =>
      simp only [if_pos hL] at hws
      have q1 : slice (writeAll (List.replicate kAppleDoubleHeaderLength 0) ws) 0x70 16 =
          htonl r.flCrDat ++ htonl r.flMdDat ++ htonl 0 ++ htonl (toU32 (r.flFlags &&& 0x7F)) := by
        rw [← hws]
        exact slice_writeAll_nth 0x300 _ _ 7 _ _ _ (by rfl) (by rfl) replicate_header_length
          (by norm_num)
          (by simp [entryOffset, kAppleDoubleRealNameOffset, kAppleDoubleFileInfoOffset,
            kAppleDoubleFinderInfoOffset])
          (by simp [appleDoubleEntry_length, htons_length, htonl_length, entryOffset,
              kAppleDoubleRealNameOffset, kAppleDoubleFileInfoOffset, kAppleDoubleFinderInfoOffset,
              kAppleDoubleCommentOffset, appleDoubleFilesystem, husr])
      have q2 : slice (writeAll (List.replicate kAppleDoubleHeaderLength 0) ws) 0x80 16 =
          r.flUsrWds.take 16 := by
        rw [← hws]
        exact slice_writeAll_nth 0x300 _ _ 9 _ _ _ (by rfl) (by simp [husr])
          replicate_header_length (by norm_num)
          (by simp [entryOffset, kAppleDoubleRealNameOffset, kAppleDoubleFileInfoOffset,
            kAppleDoubleFinderInfoOffset])
          (by simp [appleDoubleEntry_length, htons_length, htonl_length, entryOffset,
              kAppleDoubleRealNameOffset, kAppleDoubleFileInfoOffset, kAppleDoubleFinderInfoOffset,
              kAppleDoubleCommentOffset, appleDoubleFilesystem, husr])
      have q3 : slice (writeAll (List.replicate kAppleDoubleHeaderLength 0) ws) 0x90 16 =
          slice (List.replicate kAppleDoubleHeaderLength 0) 0x90 16 := by
        rw [← hws]
        exact slice_writeAll_out 0x300 0x90 16 (by norm_num) _ _ replicate_header_length
          (by simp [appleDoubleEntry_length, htons_length, htonl_length, entryOffset,
              kAppleDoubleRealNameOffset, kAppleDoubleFileInfoOffset, kAppleDoubleFinderInfoOffset,
              kAppleDoubleCommentOffset, appleDoubleFilesystem, husr])
      exact ⟨q1, q2, q3⟩
  · cases comment with
    | none =>
      simp only [if_neg hL] at hws
      have q1 : slice (writeAll (List.replicate kAppleDoubleHeaderLength 0) ws) 0x70 16 =
          htonl r.flCrDat ++ htonl r.flMdDat ++ htonl 0 ++ htonl (toU32 (r.flFlags &&& 0x7F)) := by
        rw [← hws]
        exact slice_writeAll_nth 0x300 _ _ 6 _ _ _ (by rfl) (by rfl) replicate_header_length
          (by norm_num)
          (by simp [entryOffset, kAppleDoubleRealNameOffset, kAppleDoubleFileInfoOffset,
            kAppleDoubleFinderInfoOffset])
          (by simp [appleDoubleEntry_length, htons_length, htonl_length, entryOffset,
              kAppleDoubleRealNameOffset, kAppleDoubleFileInfoOffset, kAppleDoubleFinderInfoOffset,
              kAppleDoubleCommentOffset, appleDoubleFilesystem, husr])
      have q2 : slice (writeAll (List.replicate kAppleDoubleHeaderLength 0) ws) 0x80 16 =
          r.flUsrWds.take 16 := by
        rw [← hws]
        exact slice_writeAll_nth 0x300 _ _ 8 _ _ _ (by rfl) (by simp [husr])
          replicate_header_length (by norm_num)
          (by simp [entryOffset, kAppleDoubleRealNameOffset, kAppleDoubleFileInfoOffset,
            kAppleDoubleFinderInfoOffset])
          (by simp [appleDoubleEntry_length, htons_length, htonl_length, entryOffset,
              kAppleDoubleRealNameOffset, kAppleDoubleFileInfoOffset, kAppleDoubleFinderInfoOffset,
              kAppleDoubleCommentOffset, appleDoubleFilesystem, husr])
      have q3 : slice (writeAll (List.replicate kAppleDoubleHeaderLength 0) ws) 0x90 16 =
          slice (List.replicate kAppleDoubleHeaderLength 0) 0x90 16 := by
        rw [← hws]
        exact slice_writeAll_out 0x300 0x90 16 (by norm_num) _ _ replicate_header_length
          (by simp [appleDoubleEntry_length, htons_length, htonl_length, entryOffset,
              kAppleDoubleRealNameOffset, kAppleDoubleFileInfoOffset, kAppleDoubleFinderInfoOffset,
              kAppleDoubleCommentOffset, appleDoubleFilesystem, husr])
      exact ⟨q1, q2, q3⟩
    | some c =>
      simp only [if_neg hL] at hws
      have q1 : slice (writeAll (List.replicate kAppleDoubleHeaderLength 0) ws) 0x70 16 =
          htonl r.flCrDat ++ htonl r.flMdDat ++ htonl 0 ++ htonl (toU32 (r.flFlags &&& 0x7F)) := by
        rw [← hws]
        exact slice_writeAll_nth 0x300 _ _ 6 _ _ _ (by rfl) (by rfl) replicate_header_length
          (by norm_num)
          (by simp [entryOffset, kAppleDoubleRealNameOffset, kAppleDoubleFileInfoOffset,
            kAppleDoubleFinderInfoOffset])
          (by simp [appleDoubleEntry_length, htons_length, htonl_length, entryOffset,
              kAppleDoubleRealNameOffset, kAppleDoubleFileInfoOffset, kAppleDoubleFinderInfoOffset,
              kAppleDoubleCommentOffset, appleDoubleFilesystem, husr])
      have q2 : slice (writeAll (List.replicate kAppleDoubleHeaderLength 0) ws) 0x80 16 =
          r.flUsrWds.take 16 := by
        rw [← hws]
        exact slice_writeAll_nth 0x300 _ _ 8 _ _ _ (by rfl) (by simp [husr])
          replicate_header_length (by norm_num)
          (by simp [entryOffset, kAppleDoubleRealNameOffset, kAppleDoubleFileInfoOffset,
            kAppleDoubleFinderInfoOffset])
          (by simp [appleDoubleEntry_length, htons_length, htonl_length, entryOffset,
              kAppleDoubleRealNameOffset, kAppleDoubleFileInfoOffset, kAppleDoubleFinderInfoOffset,
              kAppleDoubleCommentOffset, appleDoubleFilesystem, husr])
      have q3 : slice (writeAll (List.replicate kAppleDoubleHeaderLength 0) ws) 0x90 16 =
          slice (List.replicate kAppleDoubleHeaderLength 0) 0x90 16 := by
        rw [← hws]
        exact slice_writeAll_out 0x300 0x90 16 (by norm_num) _ _ replicate_header_length
          (by simp [appleDoubleEntry_length, htons_length, htonl_length, entryOffset,
              kAppleDoubleRealNameOffset, kAppleDoubleFileInfoOffset, kAppleDoubleFinderInfoOffset,
              kAppleDoubleCommentOffset, appleDoubleFilesystem, husr])
      exact ⟨q1, q2, q3⟩

/-- Storing a 32-bit number big-endian gives back the four bytes it was read
from. -/
theorem htonl_beVal (l : List Nat) (hl : l.length = 4) (hb : ∀ b ∈ l, b < 256) :
    htonl (beVal l) = l := by
  match l, hl, hb with
  | [a, b, c, d], _, hb =>
    have ha := hb a (by simp)
    have hb1 := hb b (by simp)
    have hc := hb c (by simp)
    have hd := hb d (by simp)
    simp only [beVal, List.foldl, htonl, List.cons.injEq, and_true]
    refine ⟨?_, ?_, ?_, ?_⟩ <;> omega

theorem htonl_beField (src : List Nat) (off : Nat) (hsrc : ∀ b ∈ src, b < 256)
    (hlen : off + 4 ≤ src.length) : htonl (beField src off 4) = slice src off 4 := by
  unfold beField
  apply htonl_beVal
  · unfold slice
    rw [List.length_take, List.length_drop]
    omega
  · intro b hb
    exact hsrc b (List.mem_of_mem_drop (List.mem_of_mem_take hb))

set_option maxRecDepth 100000 in
theorem slice_replicate_header :
    slice (List.replicate kAppleDoubleHeaderLength 0) 0x90 16 = List.replicate 16 0 := by
  decide

/-- C13: for every record, decoded from its bytes `src` on disk and opened in
AppleDouble mode (with or without comment), bytes `0x70..0x7F` of the header
are the big-endian creation date, the big-endian modification date, a zero
backup date and the big-endian 32-bit value `flFlags & 0x7F`, the two date
words being the date bytes of the record on disk; bytes `0x80..0x8F` are the
16 bytes of `flUsrWds` on disk; bytes `0x90..0x9F` are zero. -/
theorem mfs_fkopen_header_metadata (vol vol1 : MFSVolume) (src : List Nat)
    (comment : Option (List Nat)) (fk : MFSFork)
    (hsrc : ∀ b ∈ src, b < 256) (hlen : 51 ≤ src.length)
    (hopen : mfs_fkopen vol (some (mfs_directory_record src)) kMFSForkAppleDouble comment =
      some (.ok fk, vol1)) :
    ∃ hdr, fk.fkAppleDouble = some hdr ∧
      slice hdr 0x70 16 = htonl (mfs_directory_record src).flCrDat ++
        htonl (mfs_directory_record src).flMdDat ++ [0, 0, 0, 0] ++
        htonl ((mfs_directory_record src).flFlags &&& 0x7F) ∧
      htonl (mfs_directory_record src).flCrDat = slice src 42 4 ∧
      htonl (mfs_directory_record src).flMdDat = slice src 46 4 ∧
      slice hdr 0x80 16 = slice src 2 16 ∧
      slice hdr 0x90 16 = List.replicate 16 0 := by
  obtain ⟨_, _, _, _, _, _, _, _, had, _, _⟩ :=
    mfs_fkopen_ok vol vol1 (mfs_directory_record src) _ comment fk hopen
  rw [if_pos rfl] at had
  have husr : (mfs_directory_record src).flUsrWds.length = 16 := by
    simp only [mfs_directory_record, slice, List.length_take, List.length_drop]
    omega
  obtain ⟨q1, q2, q3⟩ := mfs_fkopen_header_slots (mfs_directory_record src) fk.fkLgLen comment husr
  refine ⟨_, had, ?_, htonl_beField src 42 hsrc (by omega), htonl_beField src 46 hsrc (by omega),
    ?_, ?_⟩
  · rw [q1]
    have e : toU32 ((mfs_directory_record src).flFlags &&& 0x7F) =
        (mfs_directory_record src).flFlags &&& 0x7F := by
      apply Nat.mod_eq_of_lt
      exact Nat.lt_of_le_of_lt Nat.and_le_right (by norm_num)
    rw [e]
    rfl
  · rw [q2, List.take_of_length_le (le_of_eq husr)]
    rfl
  · rw [q3, slice_replicate_header]

set_option maxRecDepth 1000000 in
/-- The metadata slots in the header of the record of `exRecBytes`. -/
theorem mfs_fkopen_header_metadata_witness :
    ∃ hdr, (exForkBytes none).fkAppleDouble = some hdr ∧
      slice hdr 0x70 16 = [0xA0, 0xB1, 0xC2, 0xD3] ++ [0xA4, 0xB5, 0xC6, 0xD7] ++
        [0, 0, 0, 0] ++ [0, 0, 0, 5] ∧
      [0xA0, 0xB1, 0xC2, 0xD3] = slice exRecBytes 42 4 ∧
      [0xA4, 0xB5, 0xC6, 0xD7] = slice exRecBytes 46 4 ∧
      slice hdr 0x80 16 = slice exRecBytes 2 16 ∧
      slice hdr 0x90 16 = List.replicate 16 0 :=
  mfs_fkopen_header_metadata exVol exVol1 exRecBytes none (exForkBytes none) (by decide)
    (by decide) rfl

/-! ## The path resolver -/

theorem cString_name (s tail : List Nat) (hs : IsName s) : cString (s ++ 0 :: tail) = some s := by
  induction s with
  | nil => simp [cString]
  | cons c s ih =>
    have hc := hs c (List.mem_cons_self _ _)
    have hc0 : c ≠ 0 := by omega
    rw [List.cons_append, cString, if_neg hc0, ih (fun x hx => hs x (List.mem_cons_of_mem _ hx))]
    rfl

theorem afterLastColon_subset (s : List Nat) : ∀ c ∈ afterLastColon s, c ∈ s := by
  induction s with
  | nil => intro c hc; simp [afterLastColon] at hc
  | cons d s ih =>
    intro c hc
    unfold afterLastColon at hc
    split at hc
    · exact List.mem_cons_of_mem _ (ih c hc)
    · split at hc
      · exact List.mem_cons_of_mem _ hc
      · exact hc

/-- Without `':'` the string `last` is the whole string. -/
theorem afterLastColon_none (s : List Nat) (h : 0x3A ∉ s) : afterLastColon s = s := by
  cases s with
  | nil => rfl
  | cons c s =>
    have h1 : 0x3A ∉ s := fun hx => h (List.mem_cons_of_mem _ hx)
    have h2 : c ≠ 0x3A := fun hx => h (by rw [hx]; exact List.mem_cons_self _ _)
    simp only [afterLastColon, if_neg h1, if_neg h2]

/-- The string `last` is what follows the last `':'`. -/
theorem afterLastColon_append (a b : List Nat) (h : 0x3A ∉ b) :
    afterLastColon (a ++ 0x3A :: b) = b := by
  induction a with
  | nil => simp only [List.nil_append, afterLastColon, if_neg h, if_true]
  | cons c a ih =>
    have hm : 0x3A ∈ a ++ 0x3A :: b := by simp
    rw [List.cons_append, afterLastColon, if_pos hm, ih]

/-- On a NULL-terminated directory whose names hold no NUL, the search for a
name that holds no NUL returns. -/
theorem mfs_directory_find_name_defined (recs : List MFSDirectoryRecord)
    (rest : List (Option MFSDirectoryRecord)) (q : List Nat)
    (hrecs : ∀ r ∈ recs, IsName r.flCName ∧ r.flNam0 = r.flCName.length) (hq : IsName q) :
    ∃ res, mfs_directory_find_name (recs.map some ++ none :: rest) (q ++ [0]) = some res := by
  unfold mfs_directory_find_name
  rw [strlen_name q [] hq]
  simp only
  induction recs with
  | nil => exact ⟨none, by simp [mfs_directory_find_name_loop]⟩
  | cons r recs ih =>
    have hr := hrecs r (List.mem_cons_self _ _)
    have ih2 := ih (fun x hx => hrecs x (List.mem_cons_of_mem _ hx))
    simp only [List.map_cons, List.cons_append, mfs_directory_find_name_loop]
    split
    · exact ih2
    · obtain ⟨e, he⟩ := mfs_fneq_defined r.flCName q hr.1
      have he2 : mfs_fneq (flCNameMem r) (q ++ [0]) = some e := he
      rw [he2]
      cases e with
      | true => exact ⟨some r, rfl⟩
      | false => exact ih2

/-- The resolver on a path that is not empty after its leading `':'`, up to
the test of `vol->folders`. -/
theorem mfs_path_info_unfold (vol : MFSVolume) (pre s tail : List Nat) (hs : IsName s)
    (hne : s ≠ []) (hpre : pre = [0x3A] ∨ (pre = [] ∧ s.head? ≠ some 0x3A)) :
    mfs_path_info vol (pre ++ s ++ 0 :: tail) =
      match mfs_directory_find_name vol.directory (afterLastColon s ++ [0]) with
      | none => none
      | some r =>
        match vol.folders with
        | none => if r.isSome then some kMFSPathFile else some kMFSPathError
        | some _ =>
          match mfs_folder_find_name vol (afterLastColon s ++ [0]) with
          | none => none
          | some lastFolder =>
            if lastFolder = none ∧ r = none then some kMFSPathError
            else mfs_path_info_loop vol r (strsepItems s) (mfs_folder_find vol kMFSFolderRoot) := by
  cases s with
  | nil => exact absurd rfl hne
  | cons c s =>
    have hc := hs c (List.mem_cons_self _ _)
    have hc0 : c ≠ 0 := by omega
    have hcs := cString_name (c :: s) tail hs
    rcases hpre with h | ⟨h, hh⟩
    · subst h
      show mfs_path_info vol (0x3A :: c :: (s ++ 0 :: tail)) = _
      rw [List.cons_append] at hcs
      simp only [mfs_path_info, if_true, if_neg hc0, hcs]
    · subst h
      have hcc : c ≠ 0x3A := fun hx => hh (by rw [hx]; rfl)
      show mfs_path_info vol (c :: (s ++ 0 :: tail)) = _
      rw [List.cons_append] at hcs
      simp only [mfs_path_info, if_neg hcc, if_neg hc0, hcs]

/-- C16: when the folder layer is not loaded, on a NULL-terminated directory
and for every path that is not empty after its leading `':'`, the search of
the flat directory for the text after the last `':'` (the whole path when it
holds none) returns, and `mfs_path_info` returns File when it has found a
record and Error when it has not, whatever the components before. -/
theorem mfs_path_info_flat (vol : MFSVolume) (recs : List MFSDirectoryRecord)
    (rest : List (Option MFSDirectoryRecord)) (pre s tail : List Nat)
    (hf : vol.folders = none) (hdir : vol.directory = recs.map some ++ none :: rest)
    (hrecs : ∀ r ∈ recs, IsName r.flCName ∧ r.flNam0 = r.flCName.length)
    (hs : IsName s) (hne : s ≠ [])
    (hpre : pre = [0x3A] ∨ (pre = [] ∧ s.head? ≠ some 0x3A)) :
    (∃ res, mfs_directory_find_name vol.directory (afterLastColon s ++ [0]) = some res ∧
      mfs_path_info vol (pre ++ s ++ 0 :: tail) =
        some (if res.isSome then kMFSPathFile else kMFSPathError)) ∧
    (0x3A ∉ s → afterLastColon s = s) ∧
    (∀ a b : List Nat, s = a ++ 0x3A :: b → 0x3A ∉ b → afterLastColon s = b) := by
  refine ⟨?_, afterLastColon_none s, ?_⟩
  · have hl : IsName (afterLastColon s) := fun c hc => hs c (afterLastColon_subset s c hc)
    obtain ⟨res, hres⟩ := mfs_directory_find_name_defined recs rest (afterLastColon s) hrecs hl
    rw [← hdir] at hres
    refine ⟨res, hres, ?_⟩
    rw [mfs_path_info_unfold vol pre s tail hs hne hpre, hres, hf]
    simp only
    split <;> rfl
  · intro a b hab hb
    rw [hab]
    exact afterLastColon_append a b hb

set_option maxRecDepth 100000 in
/-- On the example volume, which has no folder layer, the path `Apps:hi`
is a file, the record `Hi` being found, and the path `:Apps:Hello` is an
error. -/
theorem mfs_path_info_flat_witness :
    mfs_path_info exVol [0x41, 0x70, 0x70, 0x73, 0x3A, 0x68, 0x69, 0] = some kMFSPathFile ∧
    mfs_path_info exVol pathAppsHello = some kMFSPathError := by
  obtain ⟨⟨res, h1, h2⟩, _⟩ := mfs_path_info_flat exVol [exRec] [] []
    [0x41, 0x70, 0x70, 0x73, 0x3A, 0x68, 0x69] [] rfl rfl (by decide) (by decide) (by decide)
    (Or.inr ⟨rfl, by decide⟩)
  obtain ⟨⟨res2, h3, h4⟩, _⟩ := mfs_path_info_flat exVol [exRec] [] [0x3A]
    [0x41, 0x70, 0x70, 0x73, 0x3A, 0x48, 0x65, 0x6C, 0x6C, 0x6F] [] rfl rfl (by decide)
    (by decide) (by decide) (Or.inl rfl)
  have e1 : res = some exRec := by
    have : mfs_directory_find_name exVol.directory
        (afterLastColon [0x41, 0x70, 0x70, 0x73, 0x3A, 0x68, 0x69] ++ [0]) = some (some exRec) := by
      decide
    rw [this] at h1
    exact (Option.some.inj h1).symm
  have e2 : res2 = none := by
    have : mfs_directory_find_name exVol.directory
        (afterLastColon [0x41, 0x70, 0x70, 0x73, 0x3A, 0x48, 0x65, 0x6C, 0x6C, 0x6F] ++ [0]) =
          some none := by
      decide
    rw [this] at h3
    exact (Option.some.inj h3).symm
  subst e1 e2
  exact ⟨h2, h4⟩

/-- C17: for every volume state, `mfs_path_info` returns Folder for the empty
path and for the path `:`. -/
theorem mfs_path_info_root (vol : MFSVolume) (tail : List Nat) :
    mfs_path_info vol (0 :: tail) = some kMFSPathFolder ∧
    mfs_path_info vol (0x3A :: 0 :: tail) = some kMFSPathFolder := by
  constructor <;> simp [mfs_path_info]

/-- On folder names that hold no NUL, `mfs_folder_find_name` returns the
first folder of the array whose name the comparison accepts, whatever its
parent. -/
theorem mfs_folder_find_name_first (vol : MFSVolume) (fs : List MFSFolder) (q : List Nat)
    (hvol : vol.folders = some fs) (hfs : ∀ f ∈ fs, IsName f.fdCNam) (hq : IsName q) :
    mfs_folder_find_name vol (q ++ [0]) =
      some (fs.find? (fun f => decide (sameFold q f.fdCNam))) := by
  unfold mfs_folder_find_name
  rw [hvol]
  simp only
  clear hvol
  induction fs with
  | nil => rfl
  | cons f fs ih =>
    have hf := hfs f (List.mem_cons_self _ _)
    have ih2 := ih (fun x hx => hfs x (List.mem_cons_of_mem _ hx))
    simp only [mfs_folder_find_name_loop, List.find?_cons]
    rw [mfs_fneq_eq_map q f.fdCNam [] [] hq hf]
    by_cases h : q.map toupper = f.fdCNam.map toupper
    · have h2 : sameFold q f.fdCNam := (sameFold_iff_map _ _).mpr h
      simp [h, h2]
    · have h2 : ¬ sameFold q f.fdCNam := fun hx => h ((sameFold_iff_map _ _).mp hx)
      simp [h, h2, ih2]

/-- A component that is not the last one is accepted exactly when the first
folder of the array with that name lies in the current parent. -/
theorem mfs_path_info_loop_nonterminal (vol : MFSVolume) (fs : List MFSFolder)
    (r : Option MFSDirectoryRecord) (q item2 : List Nat) (items : List (List Nat))
    (p : MFSFolder) (hvol : vol.folders = some fs) (hfs : ∀ f ∈ fs, IsName f.fdCNam)
    (hq : IsName q) :
    (fs.find? (fun f => decide (sameFold q f.fdCNam)) = none →
      mfs_path_info_loop vol r (q :: item2 :: items) (some p) = some kMFSPathError) ∧
    (∀ f, fs.find? (fun f => decide (sameFold q f.fdCNam)) = some f →
      mfs_path_info_loop vol r (q :: item2 :: items) (some p) =
        if f.fdParent = p.fdID then mfs_path_info_loop vol r (item2 :: items) (some f)
        else some kMFSPathError) := by
  have h := mfs_folder_find_name_first vol fs q hvol hfs hq
  constructor
  · intro hn
    rw [hn] at h
    simp only [mfs_path_info_loop, h]
  · intro f hf
    rw [hf] at h
    simp only [mfs_path_info_loop, h]
    by_cases hp : f.fdParent = p.fdID
    · simp [hp]
    · simp [hp]

/-- The last component, when it names a file record: the answer is File
exactly when the unsigned reading of the folder field of the record is the id
of the current parent, which no negative id is. -/
theorem mfs_path_info_loop_file (vol : MFSVolume) (fs : List MFSFolder)
    (r : MFSDirectoryRecord) (q : List Nat) (p : MFSFolder) (hvol : vol.folders = some fs)
    (hfs : ∀ f ∈ fs, IsName f.fdCNam) (hq : IsName q) :
    mfs_path_info_loop vol (some r) [q] (some p) =
      some (if (flUsrWdsFolder r : Int) = p.fdID then kMFSPathFile else kMFSPathError) ∧
    (p.fdID < 0 → mfs_path_info_loop vol (some r) [q] (some p) = some kMFSPathError) := by
  have h := mfs_folder_find_name_first vol fs q hvol hfs hq
  have h1 : mfs_path_info_loop vol (some r) [q] (some p) =
      some (if (flUsrWdsFolder r : Int) = p.fdID then kMFSPathFile else kMFSPathError) := by
    simp only [mfs_path_info_loop, h]
    by_cases hp : (flUsrWdsFolder r : Int) = p.fdID
    · simp [hp]
    · simp [hp]
  refine ⟨h1, ?_⟩
  intro hneg
  rw [h1, if_neg]
  intro hx
  have : (0 : Int) ≤ (flUsrWdsFolder r : Int) := Int.natCast_nonneg _
  omega

set_option maxRecDepth 100000 in
/-- C14 fails on the code: on `dupVol` the root folder (id 0) is present and
the folder `Sub` of id 2 has the name of the first component of `:Sub:Hello`
and the root for parent, yet `mfs_path_info` returns Error, because
`mfs_folder_find_name` returns the folder `Sub` of id 1, the first of that
name in the folder array, whose parent is another folder.  Without that
folder the same path is a file. -/
theorem mfs_path_info_duplicate_folder_name :
    mfs_folder_find dupVol kMFSFolderRoot = some folderRoot ∧
    dupVol.folders = some [folderRoot, folderOther, folderSubOther, folderSubRoot] ∧
    mfs_fneq [0x53, 0x75, 0x62, 0] (folderSubRoot.fdCNam ++ [0]) = some true ∧
    folderSubRoot.fdParent = folderRoot.fdID ∧
    mfs_folder_find_name dupVol [0x53, 0x75, 0x62, 0] = some (some folderSubOther) ∧
    folderSubOther.fdParent ≠ folderRoot.fdID ∧
    mfs_path_info dupVol pathSubHello = some kMFSPathError ∧
    mfs_path_info dupVolOne pathSubHello = some kMFSPathFile := by
  refine ⟨?_, rfl, ?_, ?_, ?_, ?_, ?_, ?_⟩ <;> decide

set_option maxRecDepth 100000 in
/-- C15 on the code: with the folder `Apps` (id 5, parent 0) and the file
`Hello` whose folder field is 5, `:Apps:Hello` is a file and `:Hello` an
error, as the claim says.  It fails for a negative id: on `trashVol` the
component `Trash` resolves to the folder of id -3 in the root, the record
`Hello` is found and its folder field `FF FD` is -3 as a signed 16-bit
number, yet `:Trash:Hello` is an error, `ntohs` giving 65533. -/
theorem mfs_path_info_negative_folder_id :
    mfs_path_info appsVol pathAppsHello = some kMFSPathFile ∧
    mfs_path_info appsVol pathHello = some kMFSPathError ∧
    mfs_folder_find trashVol kMFSFolderRoot = some folderRoot ∧
    mfs_folder_find_name trashVol [0x54, 0x72, 0x61, 0x73, 0x68, 0] = some (some folderTrash) ∧
    folderTrash.fdParent = folderRoot.fdID ∧
    mfs_directory_find_name trashVol.directory [0x48, 0x65, 0x6C, 0x6C, 0x6F, 0] =
      some (some (recHello [0xFF, 0xFD])) ∧
    toInt16 (flUsrWdsFolder (recHello [0xFF, 0xFD])) = folderTrash.fdID ∧
    flUsrWdsFolder (recHello [0xFF, 0xFD]) = 65533 ∧
    mfs_path_info trashVol pathTrashHello = some kMFSPathError := by
  refine ⟨?_, ?_, ?_, ?_, ?_, ?_, ?_, ?_, ?_⟩ <;> decide

/-! ## Seeking -/

/-- C18 (amended): `mfs_fkseek` sets the virtual offset to `offset` for
`SEEK_SET`, to `c + offset` for `SEEK_CUR` and, on a fork whose virtual
length `V` is below `2 ^ 32`, to `V + offset` for `SEEK_END`, whenever that
result is not negative and fits an `unsigned long`; it returns the new
offset, leaves the offset as it is for any other `whence` and changes no
other field; `mfs_ftell` then returns that offset when it fits a `long`. -/
theorem mfs_fkseek_offset (fk : MFSFork) (offset whence : Int)
    (hV : whence = SEEK_END → virtualLength fk < 2 ^ 32)
    (ht : 0 ≤ seekTarget fk offset whence) (ht2 : seekTarget fk offset whence < 2 ^ 64) :
    mfs_fkseek fk offset whence =
      ((seekTarget fk offset whence).toNat,
        { fk with fkOffset := (seekTarget fk offset whence).toNat }) ∧
    (seekTarget fk offset whence < 2 ^ 63 →
      mfs_ftell (mfs_fkseek fk offset whence).2 = seekTarget fk offset whence) ∧
    (whence ≠ SEEK_SET → whence ≠ SEEK_CUR → whence ≠ SEEK_END →
      mfs_fkseek fk offset whence = (fk.fkOffset, fk)) := by
  have hof : ∀ t : Int, 0 ≤ t → t < 2 ^ 64 → ofInt64 t = t.toNat := by
    intro t h0 h1
    unfold ofInt64
    rw [Int.emod_eq_of_lt h0 h1]
  have hmain : mfs_fkseek fk offset whence =
      ((seekTarget fk offset whence).toNat,
        { fk with fkOffset := (seekTarget fk offset whence).toNat }) := by
    unfold mfs_fkseek
    by_cases h1 : whence = SEEK_SET
    · have e : seekTarget fk offset whence = offset := by
        unfold seekTarget
        rw [if_pos h1]
      rw [e] at ht ht2 ⊢
      simp only [if_pos h1, hof offset ht ht2]
    · by_cases h2 : whence = SEEK_END
      · have h3 : ¬ whence = SEEK_CUR := by
          rw [h2]
          decide
        have e : seekTarget fk offset whence = (virtualLength fk : Int) + offset := by
          unfold seekTarget
          rw [if_neg h1, if_neg h3, if_pos h2]
        have hv := hV h2
        have e2 : toU32 (fk.fkLgLen +
            (if fk.fkMode = kMFSForkAppleDouble then kAppleDoubleHeaderLength else 0)) =
            virtualLength fk := by
          unfold virtualLength at hv ⊢
          unfold toU32 kAppleDoubleHeaderLength
          split
          · rename_i hm
            rw [if_pos hm] at hv
            rw [Nat.mod_eq_of_lt (by omega)]
            omega
          · rename_i hm
            rw [if_neg hm] at hv
            rw [Nat.mod_eq_of_lt (by omega)]
            rfl
        rw [e] at ht ht2 ⊢
        simp only [if_neg h1, if_pos h2, e2, hof _ ht ht2]
      · by_cases h3 : whence = SEEK_CUR
        · have e : seekTarget fk offset whence = (fk.fkOffset : Int) + offset := by
            unfold seekTarget
            rw [if_neg h1, if_pos h3]
          rw [e] at ht ht2 ⊢
          simp only [if_neg h1, if_neg h2, if_pos h3, hof _ ht ht2]
        · have e : seekTarget fk offset whence = (fk.fkOffset : Int) := by
            unfold seekTarget
            rw [if_neg h1, if_neg h3, if_neg h2]
          rw [e]
          simp only [if_neg h1, if_neg h2, if_neg h3, Int.toNat_ofNat]
  refine ⟨hmain, ?_, ?_⟩
  · intro h63
    rw [hmain]
    unfold mfs_ftell toInt64
    simp only
    have hlt : (seekTarget fk offset whence).toNat < 2 ^ 63 := by
      have := Int.toNat_of_nonneg ht
      omega
    rw [Nat.mod_eq_of_lt (by omega), if_pos hlt, Int.toNat_of_nonneg ht]
  · intro h1 h2 h3
    unfold mfs_fkseek
    simp only [if_neg h1, if_neg h2, if_neg h3]

set_option maxRecDepth 1000000 in
/-- A seek to 5 bytes before the end of the example AppleDouble fork, whose
virtual length is `0x305`. -/
theorem mfs_fkseek_offset_witness :
    mfs_fkseek exForkAD (-5) SEEK_END = (0x300, { exForkAD with fkOffset := 0x300 }) ∧
    mfs_ftell (mfs_fkseek exForkAD (-5) SEEK_END).2 = 0x300 := by
  have h := mfs_fkseek_offset exForkAD (-5) SEEK_END (by decide) (by decide) (by decide)
  exact ⟨h.1, h.2.1 (by decide)⟩

set_option maxRecDepth 1000000 in
/-- C18 as stated fails: the AppleDouble fork of `wrapRec`, as `mfs_fkopen`
returns it, has the logical length `0xFFFFFD00` and so the virtual length
`2 ^ 32`; `mfs_fkseek (fk, 0, SEEK_END)` sets the offset to 0 and returns
0, the length being held in a `uint32_t`. -/
theorem mfs_fkseek_offset_counterexample :
    mfs_fkopen wrapVol (some wrapRec) kMFSForkAppleDouble none =
      some (.ok wrapForkAD, { wrapVol with openForks := 1 }) ∧
    seekTarget wrapForkAD 0 SEEK_END = 4294967296 ∧
    mfs_fkseek wrapForkAD 0 SEEK_END = (0, wrapForkAD) := by
  refine ⟨rfl, ?_, ?_⟩
  · decide
  · decide

/-! ## Failed block reads -/

set_option maxRecDepth 1000000 in
/-- C19 fails on the code: on the example volume with its image cut after
allocation block 2, the data fork of the example record has the chain 2, 3;
the read of block 3 fails (`mfs_albkread` returns -1), yet the read of the 6
bytes of the fork returns 6, the last two bytes being what the block buffer
held before. -/
theorem mfs_fkread_at_ignores_read_failure :
    mfs_fkopen { shortVol with openForks := 0 } (some exRec) kMFSForkData none =
      some (.ok exForkData, shortVol) ∧
    mfs_albkread shortVol 1 2 [0, 0, 0, 0] = (0, [10, 11, 12, 13]) ∧
    mfs_albkread shortVol 1 3 [10, 11, 12, 13] = (-1, [10, 11, 12, 13]) ∧
    mfs_fkread_at shortVol exForkData 6 0 (fun _ => 0) = some (6, [10, 11, 12, 13, 10, 11]) := by
  refine ⟨rfl, ?_, ?_, ?_⟩ <;> decide

/-! ## Time -/

/-- The value of `mfs_time`: the difference modulo `2 ^ 32`. -/
theorem mfs_time_value (d : Nat) (hd : d < 2 ^ 32) :
    mfs_time d = (if kMFSTimeDelta ≤ d then (d : Int) - 2082844800
      else (d : Int) - 2082844800 + 2 ^ 32) ∧
    (mfs_timespec d).tv_sec = mfs_time d ∧ (mfs_timespec d).tv_nsec = 0 := by
  refine ⟨?_, by simp only [mfs_timespec, mfs_time], by simp only [mfs_timespec]⟩
  have h1 : toU32 d = d := Nat.mod_eq_of_lt hd
  have hk : kMFSTimeDelta = 2082844800 := rfl
  have h64 : ∀ x : Nat, x < 2 ^ 32 → toInt64 x = (x : Int) := by
    intro x hx
    unfold toInt64
    rw [Nat.mod_eq_of_lt (by omega), if_pos (by omega)]
  show toInt64 (toU32 (toU32 d + 2 ^ 32 - kMFSTimeDelta)) = _
  rw [h1, hk]
  by_cases h : 2082844800 ≤ d
  · have e : toU32 (d + 2 ^ 32 - 2082844800) = d - 2082844800 := by
      unfold toU32
      omega
    rw [e, if_pos h, h64 _ (by omega)]
    omega
  · have e : toU32 (d + 2 ^ 32 - 2082844800) = d + 2 ^ 32 - 2082844800 := by
      unfold toU32
      omega
    rw [e, if_neg h, h64 _ (by omega)]
    omega

/-- C20 fails on the code: for the timestamp 0 (1 January 1904) `mfs_time`
returns 2212122496, a date in 2040, and not the negative number
`0 - 2082844800`, the subtraction being done in `unsigned int`;
`mfs_timespec` stores the same value.  For the timestamp 2082844800 both
give 0. -/
theorem mfs_time_wraps :
    mfs_time 0 = 2212122496 ∧ (mfs_timespec 0).tv_sec = 2212122496 ∧
    (mfs_timespec 0).tv_nsec = 0 ∧ mfs_time 0 ≠ (0 : Int) - 2082844800 ∧
    mfs_time 2082844800 = 0 ∧ (mfs_timespec 2082844800).tv_sec = 0 := by
  decide

/-! ## Comment ids -/

theorem charBits_lt (c : Nat) : charBits c < 65536 := by
  unfold charBits
  split <;> omega

/-- After one iteration the hash, as a 16-bit pattern, is zero or has its
sign bit set. -/
theorem mfs_comment_id_step_nonpos (hash c : Nat) (hh : hash < 65536) :
    mfs_comment_id_step hash c < 65536 ∧
      (mfs_comment_id_step hash c = 0 ∨ 0x8000 ≤ mfs_comment_id_step hash c) := by
  unfold mfs_comment_id_step
  simp only
  have h1 : hash ^^^ charBits c < 2 ^ 16 := Nat.xor_lt_two_pow hh (charBits_lt c)
  generalize hash ^^^ charBits c = x at h1
  have hx : x >>> 1 < 2 ^ 15 := by
    rw [Nat.shiftRight_eq_div_pow]
    omega
  have h2 : (if x &&& 1 ≠ 0 then toU16 ((x >>> 1) ||| 0x8000) else (x >>> 1) &&& 0x7fff) <
      65536 := by
    split
    · unfold toU16
      exact Nat.mod_lt _ (by norm_num)
    · have := @Nat.and_le_left (x >>> 1) 0x7fff
      omega
  generalize (if x &&& 1 ≠ 0 then toU16 ((x >>> 1) ||| 0x8000) else (x >>> 1) &&& 0x7fff) = y
    at h2
  unfold toU16
  split <;> omega

theorem toInt16_nonpos (h : Nat) (h1 : h < 65536) (h2 : h = 0 ∨ 0x8000 ≤ h) :
    -32768 ≤ toInt16 h ∧ toInt16 h ≤ 0 := by
  unfold toInt16
  rw [Nat.mod_eq_of_lt (by omega)]
  split <;> omega

/-- The loop on a NUL-terminated string is the fold of the step over its
bytes. -/
theorem mfs_comment_id_loop_foldl (s rest : List Nat) (hs : IsName s) :
    ∀ hash, mfs_comment_id_loop hash (s ++ 0 :: rest) = some (s.foldl mfs_comment_id_step hash) := by
  induction s with
  | nil => intro hash; simp [mfs_comment_id_loop]
  | cons c s ih =>
    intro hash
    have hc := hs c (List.mem_cons_self _ _)
    have hc0 : c ≠ 0 := by omega
    rw [List.cons_append, mfs_comment_id_loop, if_neg hc0,
      ih (fun x hx => hs x (List.mem_cons_of_mem _ hx))]
    rfl

theorem foldl_step_nonpos (s : List Nat) :
    ∀ hash, hash < 65536 → (hash = 0 ∨ 0x8000 ≤ hash) →
      s.foldl mfs_comment_id_step hash < 65536 ∧
        (s.foldl mfs_comment_id_step hash = 0 ∨ 0x8000 ≤ s.foldl mfs_comment_id_step hash) := by
  induction s with
  | nil => intro hash h1 h2; exact ⟨h1, h2⟩
  | cons c s ih =>
    intro hash h1 _
    obtain ⟨a, b⟩ := mfs_comment_id_step_nonpos hash c h1
    exact ih _ a b

/-- C21: for every NUL-terminated string `s`, `mfs_comment_id` returns a
signed 16-bit value that is not positive; the running hash after every byte,
which is the id of the prefix read so far, is not positive either; and the
result depends on the bytes of the string only, not on the memory after its
terminator. -/
theorem mfs_comment_id_nonpos (s rest : List Nat) (hs : IsName s) :
    (∃ h, mfs_comment_id (s ++ 0 :: rest) = some h ∧ -32768 ≤ h ∧ h ≤ 0) ∧
    (∀ k, ∃ h, mfs_comment_id (s.take k ++ [0]) = some h ∧
      h = toInt16 ((s.take k).foldl mfs_comment_id_step 0) ∧ h ≤ 0) ∧
    mfs_comment_id (s ++ 0 :: rest) = mfs_comment_id (s ++ [0]) := by
  refine ⟨?_, ?_, ?_⟩
  · obtain ⟨a, b⟩ := foldl_step_nonpos s 0 (by norm_num) (Or.inl rfl)
    refine ⟨_, by unfold mfs_comment_id; rw [mfs_comment_id_loop_foldl s rest hs]; rfl, ?_⟩
    exact toInt16_nonpos _ a b
  · intro k
    have hk : IsName (s.take k) := fun x hx => hs x (List.mem_of_mem_take hx)
    obtain ⟨a, b⟩ := foldl_step_nonpos (s.take k) 0 (by norm_num) (Or.inl rfl)
    refine ⟨_, by unfold mfs_comment_id; rw [mfs_comment_id_loop_foldl _ [] hk]; rfl, rfl, ?_⟩
    exact (toInt16_nonpos _ a b).2
  · unfold mfs_comment_id
    rw [mfs_comment_id_loop_foldl s rest hs, mfs_comment_id_loop_foldl s [] hs]

/-- The id of the name `Hi` is -38, whatever follows the terminator. -/
theorem mfs_comment_id_nonpos_witness :
    mfs_comment_id [0x48, 0x69, 0, 7, 7] = some (-38) ∧
    mfs_comment_id [0x48, 0x69, 0, 7, 7] = mfs_comment_id [0x48, 0x69, 0] := by
  have h := mfs_comment_id_nonpos [0x48, 0x69] [7, 7] (by decide)
  exact ⟨by decide, h.2.2⟩

theorem ror16_eq (x : Nat) (hx : x < 65536) :
    (if x &&& 1 ≠ 0 then toU16 ((x >>> 1) ||| 0x8000) else (x >>> 1) &&& 0x7fff) = ror16 x := by
  unfold ror16
  have hx1 : x >>> 1 < 2 ^ 15 := by
    rw [Nat.shiftRight_eq_div_pow]
    omega
  have hand : x &&& 1 = x % 2 := Nat.and_one_is_mod x
  rw [hand]
  rcases Nat.mod_two_eq_zero_or_one x with h | h
  · rw [h]
    simp only [ne_eq, not_true_eq_false, if_false, Nat.zero_shiftLeft, Nat.or_zero]
    have : (0x7fff : Nat) = 2 ^ 15 - 1 := by norm_num
    rw [this, Nat.and_pow_two_sub_one_eq_mod, Nat.mod_eq_of_lt hx1]
  · rw [h]
    simp only [ne_eq, one_ne_zero, not_false_eq_true, if_true]
    have : (1 : Nat) <<< 15 = 0x8000 := by decide
    rw [this]
    unfold toU16
    apply Nat.mod_eq_of_lt
    exact Nat.or_lt_two_pow (by omega) (by norm_num)

/-- On a byte below `0x80` the step of the code is the step of the reference
fold. -/
theorem mfs_comment_id_step_ascii (hash c : Nat) (hh : hash < 65536) (hc : c < 128) :
    mfs_comment_id_step hash c = specCommentStep hash c := by
  unfold mfs_comment_id_step specCommentStep
  have hcb : charBits c = c := by
    unfold charBits
    rw [Nat.mod_eq_of_lt (by omega), if_pos hc]
  rw [hcb]
  simp only
  have hx : hash ^^^ c < 2 ^ 16 := Nat.xor_lt_two_pow hh (by omega)
  rw [ror16_eq _ hx]
  have hr : ror16 (hash ^^^ c) < 65536 := by
    rw [← ror16_eq _ hx]
    split
    · unfold toU16
      exact Nat.mod_lt _ (by norm_num)
    · have := @Nat.and_le_right ((hash ^^^ c) >>> 1) 0x7fff
      omega
  generalize ror16 (hash ^^^ c) = y at hr
  have hcond : (0 < y ∧ y < 0x8000) ↔ 0 < toInt16 y := by
    unfold toInt16
    rw [Nat.mod_eq_of_lt (by omega)]
    split <;> omega
  by_cases h : 0 < y ∧ y < 0x8000
  · rw [if_pos h, if_pos (hcond.mp h)]
  · rw [if_neg h, if_neg (fun hx => h (hcond.mpr hx))]

/-- On strings whose bytes are all below `0x80` the code computes the
reference fold. -/
theorem mfs_comment_id_ascii (s rest : List Nat) (hs : ∀ c ∈ s, 0 < c ∧ c < 128) :
    mfs_comment_id (s ++ 0 :: rest) = some (specCommentId s) := by
  have hn : IsName s := fun c hc => ⟨(hs c hc).1, by have := (hs c hc).2; omega⟩
  unfold mfs_comment_id specCommentId
  rw [mfs_comment_id_loop_foldl s rest hn]
  have key : ∀ (l : List Nat), (∀ c ∈ l, 0 < c ∧ c < 128) → ∀ hash, hash < 65536 →
      l.foldl mfs_comment_id_step hash = l.foldl specCommentStep hash := by
    intro l
    induction l with
    | nil => intro _ hash _; rfl
    | cons c l ih =>
      intro hl hash hh
      rw [List.foldl_cons, List.foldl_cons,
        ← mfs_comment_id_step_ascii hash c hh (hl c (List.mem_cons_self _ _)).2]
      exact ih (fun x hx => hl x (List.mem_cons_of_mem _ hx)) _
        (mfs_comment_id_step_nonpos hash c hh).1
  rw [key s hs 0 (by norm_num)]
  rfl

/-- C27 fails on the code: for the string of the single byte `0x80` the
reference fold gives -64 (`0x0080` rotated is `0x0040`, negated), whereas
`mfs_comment_id` returns -32704: the byte is read through a `char` pointer
and extended with its sign to `0xFF80` before the exclusive or.  For a name
of bytes below `0x80`, such as `Hi`, both give the same id. -/
theorem mfs_comment_id_sign_extends :
    specCommentId [0x80] = -64 ∧ mfs_comment_id [0x80, 0] = some (-32704) ∧
    specCommentId [0x48, 0x69] = -38 ∧ mfs_comment_id [0x48, 0x69, 0] = some (-38) := by
  decide

/-! ## Decoding the allocation block map -/

/-- A read of logical blocks that the image holds. -/
theorem mfs_blkread_ok (vol : MFSVolume) (n blk : Nat) (buf : List Nat)
    (hfit : vol.offset + 512 * blk + 512 * n ≤ vol.fp.length)
    (hpos : vol.offset + 512 * blk < 2 ^ 63) :
    mfs_blkread vol n blk buf =
      (0, slice vol.fp (vol.offset + 512 * blk) (512 * n) ++ buf.drop (512 * n)) := by
  have hp : toU64 (vol.offset + toU64 (kMFSBlockSize * blk)) = vol.offset + 512 * blk := by
    unfold toU64 kMFSBlockSize
    omega
  have hlen : (List.take (512 * n) (List.drop (vol.offset + 512 * blk) vol.fp)).length =
      512 * n := by
    rw [List.length_take, List.length_drop]
    omega
  unfold mfs_blkread
  simp only [hp, fread]
  rw [if_neg (by omega)]
  simp only [kMFSBlockSize, hlen, slice]
  rw [if_neg (by simp)]

/-- The unpacking of an entry of even index from the 16 bits fetched. -/
theorem unpack_even (hi lo : Nat) (hhi : hi < 256) (hlo : lo < 256) :
    ((hi * 256 + lo) &&& 0xFFF0) >>> 4 = hi * 16 + lo / 16 := by
  have h4 : ∀ a b : Nat, (a &&& b) / 16 = a / 16 &&& b / 16 := by
    intro a b
    have e : ∀ x : Nat, x / 16 = x / 2 / 2 / 2 / 2 := by
      intro x
      omega
    rw [e (a &&& b), e a, e b, Nat.and_div_two, Nat.and_div_two, Nat.and_div_two,
      Nat.and_div_two]
  rw [Nat.shiftRight_eq_div_pow, show (2 : Nat) ^ 4 = 16 from rfl, h4,
    show (0xFFF0 : Nat) / 16 = 2 ^ 12 - 1 from rfl, Nat.and_pow_two_sub_one_eq_mod]
  omega

/-- The unpacking of an entry of odd index from the 16 bits fetched. -/
theorem unpack_odd (hi lo : Nat) (hlo : lo < 256) :
    (hi * 256 + lo) &&& 0xFFF = hi % 16 * 256 + lo := by
  rw [show (0xFFF : Nat) = 2 ^ 12 - 1 from rfl, Nat.and_pow_two_sub_one_eq_mod]
  omega

theorem mfs_vabm_loop_spec (bits : List Nat) (f : Nat → Nat) :
    ∀ (count n : Nat), (∀ j, j < count → mfs_vabm_entry bits (n + j) = some (f (n + j))) →
      mfs_vabm_loop bits count n = some ((List.range count).map (fun j => f (n + j))) := by
  intro count
  induction count with
  | zero => intro n _; rfl
  | succ count ih =>
    intro n h
    have h0 := h 0 (Nat.succ_pos _)
    rw [Nat.add_zero] at h0
    have ih2 := ih (n + 1) (fun j hj => by
      have := h (j + 1) (Nat.succ_lt_succ hj)
      rw [show n + (j + 1) = n + 1 + j from by omega] at this
      exact this)
    unfold mfs_vabm_loop
    rw [h0, ih2]
    simp only [List.range_succ_eq_map, List.map_cons, List.map_map, Nat.add_zero]
    congr 2
    apply List.map_congr_left
    intro j _
    simp only [Function.comp]
    congr 1
    omega

/-- The entry `mfs_vabm` stores at index `n`, from the scratch buffer. -/
theorem mfs_vabm_entry_some (bits : List Nat) (n : Nat)
    (h : 64 + ((n - 2) * 3) / 2 + 1 < bits.length) :
    mfs_vabm_entry bits n =
      some (if n % 2 ≠ 0 then
          (bits.getD (64 + ((n - 2) * 3) / 2) 0 * 256 +
            bits.getD (64 + ((n - 2) * 3) / 2 + 1) 0) &&& 0xFFF
        else ((bits.getD (64 + ((n - 2) * 3) / 2) 0 * 256 +
            bits.getD (64 + ((n - 2) * 3) / 2 + 1) 0) &&& 0xFFF0) >>> 4) := by
  unfold mfs_vabm_entry
  simp only
  rw [List.getElem?_eq_getElem (by omega : 64 + ((n - 2) * 3) / 2 < bits.length),
    List.getElem?_eq_getElem h]
  simp only [List.getD_eq_getElem?_getD,
    List.getElem?_eq_getElem (by omega : 64 + ((n - 2) * 3) / 2 < bits.length),
    List.getElem?_eq_getElem h, Option.getD_some]
  split <;> rfl

/-- When the image holds the blocks of the map and every fetch lies
inside the scratch buffer, `mfs_vabm` returns the map of `N + 2` entries
that decodes the packed bytes `b[0], b[1], ...` found from byte 64 of logical
block 2: for `2k < N` the entry `2 + 2k` is `b[3k] * 16 + b[3k+1] div 16`,
for `2k + 1 < N` the entry `3 + 2k` is `(b[3k+1] mod 16) * 256 + b[3k+2]`,
and every decoded entry is at most `0xFFF`. -/
theorem mfs_vabm_decodes (vol : MFSVolume) (hbytes : ∀ b ∈ vol.fp, b < 256)
    (himg : vol.offset + 1024 + 512 * vabm_blks vol.mdb.drNmAlBlks ≤ vol.fp.length)
    (hpos : vol.offset + 1024 < 2 ^ 63)
    (hfetch : ∀ n, 2 ≤ n → n < 2 + vol.mdb.drNmAlBlks →
      64 + ((n - 2) * 3) / 2 + 1 < 512 * vabm_blks vol.mdb.drNmAlBlks) :
    ∃ v, mfs_vabm vol = some (some v) ∧ v.length = vol.mdb.drNmAlBlks + 2 ∧
      (∀ k, 2 * k < vol.mdb.drNmAlBlks →
        v[2 + 2 * k]? = some (packedByte vol (3 * k) * 16 + packedByte vol (3 * k + 1) / 16)) ∧
      (∀ k, 2 * k + 1 < vol.mdb.drNmAlBlks →
        v[3 + 2 * k]? =
          some (packedByte vol (3 * k + 1) % 16 * 256 + packedByte vol (3 * k + 2))) ∧
      (∀ n, 2 ≤ n → n < vol.mdb.drNmAlBlks + 2 → ∃ e, v[n]? = some e ∧ e ≤ 0xFFF) := by
  have hread := mfs_blkread_ok vol (vabm_blks vol.mdb.drNmAlBlks) 2 [] (by omega) (by omega)
  simp only [List.drop_nil, List.append_nil] at hread
  generalize hbits : slice vol.fp (vol.offset + 512 * 2) (512 * vabm_blks vol.mdb.drNmAlBlks) =
    bits at hread
  have hblen : bits.length = 512 * vabm_blks vol.mdb.drNmAlBlks := by
    rw [← hbits]
    unfold slice
    rw [List.length_take, List.length_drop]
    omega
  have hget : ∀ i, 64 + i < 512 * vabm_blks vol.mdb.drNmAlBlks →
      bits.getD (64 + i) 0 = packedByte vol i := by
    intro i hi
    rw [← hbits]
    unfold slice packedByte
    simp only [List.getD_eq_getElem?_getD]
    rw [List.getElem?_take_of_lt hi, List.getElem?_drop,
      show vol.offset + 512 * 2 + (64 + i) = vol.offset + 1024 + 64 + i from by omega]
  have hb : ∀ i, packedByte vol i < 256 := by
    intro i
    unfold packedByte
    simp only [List.getD_eq_getElem?_getD]
    by_cases h : vol.offset + 1024 + 64 + i < vol.fp.length
    · rw [List.getElem?_eq_getElem h]
      exact hbytes _ (List.getElem_mem _)
    · rw [List.getElem?_eq_none (by omega)]
      simp
  generalize hf : (fun n => if n % 2 ≠ 0 then
          (bits.getD (64 + ((n - 2) * 3) / 2) 0 * 256 +
            bits.getD (64 + ((n - 2) * 3) / 2 + 1) 0) &&& 0xFFF
        else ((bits.getD (64 + ((n - 2) * 3) / 2) 0 * 256 +
            bits.getD (64 + ((n - 2) * 3) / 2 + 1) 0) &&& 0xFFF0) >>> 4) = f
  have hloop := mfs_vabm_loop_spec bits f vol.mdb.drNmAlBlks 2 (fun j hj => by
    rw [mfs_vabm_entry_some bits (2 + j) (by rw [hblen]; exact hfetch (2 + j) (by omega) (by omega)),
      ← hf])
  have hmain : mfs_vabm vol = some (some (vol.mdb.drNmAlBlks :: 0x1337 ::
      (List.range vol.mdb.drNmAlBlks).map (fun j => f (2 + j)))) := by
    have hr : mfs_blkread vol (vabm_blks vol.mdb.drNmAlBlks) 2 [] = (0, bits) := hread
    unfold vabm_blks at hr
    unfold mfs_vabm
    simp only [hr]
    rw [if_neg (by decide), hloop]
  have hentry : ∀ j, j < vol.mdb.drNmAlBlks →
      (vol.mdb.drNmAlBlks :: 0x1337 ::
        (List.range vol.mdb.drNmAlBlks).map (fun j => f (2 + j)))[2 + j]? = some (f (2 + j)) := by
    intro j hj
    have e : 2 + j = j + 1 + 1 := by omega
    conv_lhs => rw [e]
    rw [List.getElem?_cons_succ, List.getElem?_cons_succ, List.getElem?_map,
      List.getElem?_range hj]
    rfl
  have heven : ∀ k, 2 * k < vol.mdb.drNmAlBlks →
      f (2 + 2 * k) = packedByte vol (3 * k) * 16 + packedByte vol (3 * k + 1) / 16 := by
    intro k hk
    have hfe := hfetch (2 + 2 * k) (by omega) (by omega)
    have ho : (2 + 2 * k - 2) * 3 / 2 = 3 * k := by omega
    rw [ho] at hfe
    rw [← hf]
    simp only
    rw [if_neg (by omega), ho, hget (3 * k) (by omega),
      show 64 + 3 * k + 1 = 64 + (3 * k + 1) from rfl, hget (3 * k + 1) (by omega)]
    exact unpack_even _ _ (hb _) (hb _)
  have hodd : ∀ k, 2 * k + 1 < vol.mdb.drNmAlBlks →
      f (2 + (2 * k + 1)) =
        packedByte vol (3 * k + 1) % 16 * 256 + packedByte vol (3 * k + 2) := by
    intro k hk
    have hfe := hfetch (2 + (2 * k + 1)) (by omega) (by omega)
    have ho : (2 + (2 * k + 1) - 2) * 3 / 2 = 3 * k + 1 := by omega
    rw [ho] at hfe
    rw [← hf]
    simp only
    rw [if_pos (by omega), ho, hget (3 * k + 1) (by omega),
      show 64 + (3 * k + 1) + 1 = 64 + (3 * k + 2) from rfl, hget (3 * k + 2) (by omega)]
    exact unpack_odd _ _ (hb _)
  refine ⟨_, hmain, by simp, ?_, ?_, ?_⟩
  · intro k hk
    rw [hentry (2 * k) hk, heven k hk]
  · intro k hk
    rw [show 3 + 2 * k = 2 + (2 * k + 1) from by omega, hentry (2 * k + 1) hk, hodd k hk]
  · intro n hn1 hn2
    obtain ⟨j, rfl⟩ : ∃ j, n = 2 + j := ⟨n - 2, by omega⟩
    refine ⟨_, hentry j (by omega), ?_⟩
    rcases Nat.even_or_odd' j with ⟨k, hk | hk⟩
    · subst hk
      rw [heven k (by omega)]
      have := hb (3 * k)
      have := hb (3 * k + 1)
      omega
    · subst hk
      rw [hodd k (by omega)]
      have := hb (3 * k + 2)
      omega

/-- The decoding loop is undefined as soon as one fetch is. -/
theorem mfs_vabm_loop_none (bits : List Nat) :
    ∀ (count n j : Nat), j < count → mfs_vabm_entry bits (n + j) = none →
      mfs_vabm_loop bits count n = none := by
  intro count
  induction count with
  | zero => intro n j hj _; exact absurd hj (Nat.not_lt_zero j)
  | succ count ih =>
    intro n j hj h
    unfold mfs_vabm_loop
    cases j with
    | zero =>
      rw [Nat.add_zero] at h
      rw [h]
    | succ j =>
      have := ih (n + 1) j (Nat.lt_of_succ_lt_succ hj)
        (by rw [show n + 1 + j = n + (j + 1) from by omega]; exact h)
      rw [this]
      split <;> rfl

theorem mapVol_bytes : ∀ b ∈ mapVol.fp, b < 256 := by
  intro b hb
  simp only [mapVol, List.mem_append, List.mem_replicate, List.mem_cons, List.mem_singleton,
    List.not_mem_nil, or_false] at hb
  omega

set_option maxRecDepth 100000 in
/-- The packed map `00 30 01 00 50 01` decodes to the entries 3, 1, 5, 1. -/
theorem mfs_vabm_decodes_witness :
    ∃ v, mfs_vabm mapVol = some (some v) ∧ v.length = 6 ∧ v[2]? = some 3 ∧ v[3]? = some 1 ∧
      v[4]? = some 5 ∧ v[5]? = some 1 := by
  have hb : vabm_blks mapVol.mdb.drNmAlBlks = 1 := by decide
  have h4 : mapVol.mdb.drNmAlBlks = 4 := rfl
  have hl : mapVol.fp.length = 1536 := by decide
  have ho0 : mapVol.offset = 0 := rfl
  obtain ⟨v, hv, hlen, he, ho, _⟩ := mfs_vabm_decodes mapVol mapVol_bytes
    (by rw [hb, hl, ho0]) (by rw [ho0]; norm_num)
    (fun n h1 h2 => by
      rw [hb]
      rw [h4] at h2
      omega)
  refine ⟨v, hv, hlen, ?_, ?_, ?_, ?_⟩
  · have := he 0 (by rw [h4]; norm_num)
    rw [this]
    decide
  · have := ho 0 (by rw [h4]; norm_num)
    rw [this]
    decide
  · have := he 1 (by rw [h4]; norm_num)
    rw [this]
    decide
  · have := ho 1 (by rw [h4]; norm_num)
    rw [this]
    decide

set_option maxRecDepth 100000 in
/-- C23 fails on the code: for `drNmAlBlks = 299` the decoder computes
`vabm_size = 448` (the packed map has 449 bytes) and reads one logical block,
a scratch buffer of 512 bytes; the fetch for the last entry, `n = 300`, takes
the bytes at positions `64 + 447 = 511` and 512, the second of which lies
past the buffer. -/
theorem mfs_vabm_fetch_past_buffer :
    vabmVol.mdb.drNmAlBlks = 299 ∧ (299 * 3) / 2 = 448 ∧ (299 * 3 + 1) / 2 = 449 ∧
    vabm_blks 299 = 1 ∧
    (mfs_blkread vabmVol (vabm_blks 299) 2 []).1 = 0 ∧
    (mfs_blkread vabmVol (vabm_blks 299) 2 []).2.length = 512 ∧
    64 + ((300 - 2) * 3) / 2 + 1 = 512 ∧
    mfs_vabm_entry (mfs_blkread vabmVol (vabm_blks 299) 2 []).2 300 = none ∧
    mfs_vabm vabmVol = none := by
  have hb : vabm_blks 299 = 1 := by decide
  have hl : vabmVol.fp.length = 2048 := List.length_replicate _ _
  have ho0 : vabmVol.offset = 0 := rfl
  have hr := mfs_blkread_ok vabmVol 1 2 [] (by rw [hl, ho0]; norm_num) (by rw [ho0]; norm_num)
  simp only [List.drop_nil, List.append_nil] at hr
  have hlen : (slice vabmVol.fp (vabmVol.offset + 512 * 2) (512 * 1)).length = 512 := by
    unfold slice
    rw [List.length_take, List.length_drop, hl, ho0]
    rfl
  have hentry : mfs_vabm_entry (slice vabmVol.fp (vabmVol.offset + 512 * 2) (512 * 1)) 300 =
      none := by
    have h2 : (slice vabmVol.fp (vabmVol.offset + 512 * 2) (512 * 1))[64 +
        (300 - 2) * 3 / 2 + 1]? = none := List.getElem?_eq_none (by rw [hlen])
    unfold mfs_vabm_entry
    simp only
    rw [h2]
    split
    · rename_i heq
      exact Option.noConfusion heq
    · rfl
  refine ⟨rfl, rfl, rfl, hb, ?_, ?_, rfl, ?_, ?_⟩
  · rw [hb, hr]
  · rw [hb, hr]
    exact hlen
  · rw [hb, hr]
    exact hentry
  · have hr2 : mfs_blkread vabmVol ((299 * 3 / 2 + 64) / kMFSBlockSize +
        (if (299 * 3 / 2 + 64) % kMFSBlockSize ≠ 0 then 1 else 0)) 2 [] =
        (0, slice vabmVol.fp (vabmVol.offset + 512 * 2) (512 * 1)) := by
      have : (299 * 3 / 2 + 64) / kMFSBlockSize +
        (if (299 * 3 / 2 + 64) % kMFSBlockSize ≠ 0 then 1 else 0) = 1 := hb
      rw [this, hr]
    unfold mfs_vabm
    have hN : vabmVol.mdb.drNmAlBlks = 299 := rfl
    simp only [hN, hr2]
    rw [if_neg (by decide), mfs_vabm_loop_none _ 299 2 298 (by norm_num) hentry]

/-! ## Reading a well-formed directory -/

theorem storeRecords_length (rs : List MFSDirectoryRecord) :
    ∀ (dir : List (Option MFSDirectoryRecord)) (cnt : Nat),
      (storeRecords dir cnt rs).length = dir.length := by
  induction rs with
  | nil => intro dir cnt; rfl
  | cons r rs ih =>
    intro dir cnt
    rw [storeRecords, ih, List.length_set]

theorem storeRecords_append (rs ss : List MFSDirectoryRecord) :
    ∀ (dir : List (Option MFSDirectoryRecord)) (cnt : Nat),
      storeRecords dir cnt (rs ++ ss) = storeRecords (storeRecords dir cnt rs) (cnt + rs.length) ss := by
  induction rs with
  | nil => intro dir cnt; rfl
  | cons r rs ih =>
    intro dir cnt
    rw [List.cons_append, storeRecords, ih, storeRecords, List.length_cons]
    congr 1
    omega

theorem storeRecords_replicate (rs : List MFSDirectoryRecord) :
    ∀ (done : List (Option MFSDirectoryRecord)) (m : Nat), rs.length ≤ m →
      storeRecords (done ++ List.replicate m none) done.length rs =
        done ++ rs.map some ++ List.replicate (m - rs.length) none := by
  induction rs with
  | nil => intro done m _; simp [storeRecords]
  | cons r rs ih =>
    intro done m hm
    obtain ⟨m1, rfl⟩ : ∃ m1, m = m1 + 1 := ⟨m - 1, by simp only [List.length_cons] at hm; omega⟩
    have hset : (done ++ List.replicate (m1 + 1) none).set done.length (some r) =
        (done ++ [some r]) ++ List.replicate m1 none := by
      rw [List.set_append_right _ _ (le_refl _), Nat.sub_self, List.replicate_succ,
        List.set_cons_zero, List.append_assoc]
      rfl
    have := ih (done ++ [some r]) m1 (by simp only [List.length_cons] at hm; omega)
    rw [List.length_append, List.length_singleton] at this
    rw [storeRecords, hset, this]
    simp [List.append_assoc]

theorem getElem?_mid (pre p r : List Nat) (i : Nat) (hi : i < p.length) :
    (pre ++ (p ++ r))[pre.length + i]? = some (p.getD i 0) := by
  rw [List.getElem?_append_right (by omega), Nat.add_sub_cancel_left,
    List.getElem?_append_left hi, List.getD_eq_getElem?_getD, List.getElem?_eq_getElem hi]
  rfl

theorem slice_mid (pre p r : List Nat) (n : Nat) (hn : n ≤ p.length) :
    slice (pre ++ (p ++ r)) pre.length n = p.take n := by
  unfold slice
  rw [List.drop_left, List.take_append_of_le_length hn]

theorem isPaddedRecord_even (p : List Nat) (hp : IsPaddedRecord p) :
    p.length % 2 = 0 ∧ 52 ≤ p.length ∧ 51 + p.getD 50 0 ≤ p.length := by
  have := hp.2
  omega

/-- The inner loop of `mfs_directory` on a run of padded records that a zero
flags byte ends: the records are stored in order. -/
theorem mfs_directory_block_run (ps : List (List Nat)) :
    (∀ p ∈ ps, IsPaddedRecord p) →
    ∀ (pre post : List Nat) (block fuel off : Nat) (dir : List (Option MFSDirectoryRecord))
      (cnt : Nat),
      pre.length = block * kMFSBlockSize + off → off % 2 = 0 → 50 ≤ post.length →
      ps.length < fuel → cnt + ps.length ≤ dir.length →
      mfs_directory_block (pre ++ (ps.flatten ++ 0 :: post)) block fuel off dir cnt =
        some (storeRecords dir cnt (ps.map recordOf), cnt + ps.length) := by
  induction ps with
  | nil =>
    intro _ pre post block fuel off dir cnt hpre _ hpost hfuel _
    obtain ⟨fuel, rfl⟩ : ∃ f, fuel = f + 1 := ⟨fuel - 1, by
      simp only [List.length_nil] at hfuel; omega⟩
    unfold mfs_directory_block
    simp only [List.flatten_nil, List.nil_append, ← hpre]
    have h50 := getElem?_mid pre (0 :: post) [] 50 (by simp only [List.length_cons]; omega)
    have h0 := getElem?_mid pre (0 :: post) [] 0 (by simp)
    rw [List.append_nil] at h50 h0
    rw [Nat.add_zero] at h0
    rw [h50, h0]
    simp [storeRecords]
  | cons p ps ih =>
    intro hps pre post block fuel off dir cnt hpre hoff hpost hfuel hdir
    obtain ⟨fuel, rfl⟩ : ∃ f, fuel = f + 1 := ⟨fuel - 1, by omega⟩
    have hp := hps p (List.mem_cons_self _ _)
    obtain ⟨hev, h52, hsz⟩ := isPaddedRecord_even p hp
    have hflag := hp.1
    have hlenp := hp.2
    simp only [List.length_cons] at hfuel hdir
    unfold mfs_directory_block
    simp only [List.flatten_cons, List.append_assoc, ← hpre]
    rw [getElem?_mid pre p _ 50 (by omega)]
    have h0 := getElem?_mid pre p (ps.flatten ++ 0 :: post) 0 (by omega)
    rw [Nat.add_zero] at h0
    rw [h0]
    simp only
    rw [if_pos hflag, if_neg (by
      simp only [List.length_append, List.length_cons]
      omega), if_neg (by omega), slice_mid pre p _ _ hsz]
    have hoff2 : (if (off + (51 + p.getD 50 0)) % 2 ≠ 0 then off + (51 + p.getD 50 0) + 1
        else off + (51 + p.getD 50 0)) = off + p.length := by
      split <;> omega
    rw [hoff2]
    have := ih (fun q hq => hps q (List.mem_cons_of_mem _ hq)) (pre ++ p) post block fuel
      (off + p.length) (dir.set cnt (some (recordOf p))) (cnt + 1)
      (by rw [List.length_append, hpre]; omega) (by omega) hpost (by omega)
      (by rw [List.length_set]; omega)
    rw [List.append_assoc] at this
    have hrec : mfs_directory_record (List.take (51 + p.getD 50 0) p) = recordOf p := rfl
    rw [hrec, this]
    simp only [List.map_cons, storeRecords, List.length_cons]
    congr 2
    omega

theorem length_le_flatten (ps : List (List Nat)) (h : ∀ p ∈ ps, 1 ≤ p.length) :
    ps.length ≤ ps.flatten.length := by
  induction ps with
  | nil => simp
  | cons p ps ih =>
    have := h p (List.mem_cons_self _ _)
    have := ih (fun q hq => h q (List.mem_cons_of_mem _ hq))
    simp only [List.flatten_cons, List.length_append, List.length_cons]
    omega

theorem areaRecords_nil_of_sum (bs : List (List (List Nat) × List Nat))
    (h : (bs.map (fun b => b.1.length)).sum = 0) : areaRecords bs = [] := by
  induction bs with
  | nil => rfl
  | cons b bs ih =>
    simp only [List.map_cons, List.sum_cons] at h
    have h1 : b.1 = [] := List.length_eq_zero.mp (by omega)
    have h2 := ih (by omega)
    unfold areaRecords at h2 ⊢
    simp only [List.map_cons, List.flatten_cons, h1, List.map_nil, List.nil_append, h2]

/-- The outer loop of `mfs_directory` on well-formed blocks that hold the
records still to collect. -/
theorem mfs_directory_blocks_run (N : Nat) (bs : List (List (List Nat) × List Nat)) :
    (∀ b ∈ bs, (blockBytes b).length = 512 ∧ ∀ p ∈ b.1, IsPaddedRecord p) →
    (∀ b, bs.getLast? = some b → 50 ≤ b.2.length) →
    ∀ (pre : List Nat) (block : Nat) (dir : List (Option MFSDirectoryRecord)) (cnt : Nat),
      pre.length = block * 512 → cnt + (bs.map (fun b => b.1.length)).sum = N →
      dir.length = N + 1 →
      mfs_directory_blocks (pre ++ areaBytes bs) N bs.length block dir cnt =
        some (storeRecords dir cnt (areaRecords bs)) := by
  induction bs with
  | nil =>
    intro _ _ pre block dir cnt _ _ _
    rfl
  | cons b bs ih =>
    intro hbs hlast pre block dir cnt hpre hsum hdir
    obtain ⟨hb512, hbp⟩ := hbs b (List.mem_cons_self _ _)
    simp only [List.map_cons, List.sum_cons] at hsum
    have harea : areaBytes (b :: bs) = b.1.flatten ++ 0 :: (b.2 ++ areaBytes bs) := by
      simp only [areaBytes, List.map_cons, List.flatten_cons, blockBytes, List.append_assoc,
        List.cons_append]
    have hpost : 50 ≤ (b.2 ++ areaBytes bs).length := by
      cases bs with
      | nil =>
        have := hlast b rfl
        simp only [areaBytes, List.map_nil, List.flatten_nil, List.append_nil]
        exact this
      | cons c cs =>
        have hc := (hbs c (List.mem_cons_of_mem _ (List.mem_cons_self _ _))).1
        simp only [areaBytes, List.map_cons, List.flatten_cons, List.length_append, hc]
        omega
    have hfl : b.1.length ≤ b.1.flatten.length :=
      length_le_flatten b.1 (fun p hp => by
        have := (isPaddedRecord_even p (hbp p hp)).2.1
        omega)
    have hrun := mfs_directory_block_run b.1 hbp pre (b.2 ++ areaBytes bs) block
      ((pre ++ areaBytes (b :: bs)).length + 1) 0 dir cnt
      (by unfold kMFSBlockSize; omega) rfl hpost
      (by
        rw [harea]
        simp only [List.length_append, List.length_cons]
        omega)
      (by omega)
    rw [← harea] at hrun
    simp only [List.length_cons]
    unfold mfs_directory_blocks
    rw [hrun]
    simp only
    have hrecs : areaRecords (b :: bs) = b.1.map recordOf ++ areaRecords bs := by
      simp only [areaRecords, List.map_cons, List.flatten_cons]
    by_cases hdone : cnt + b.1.length = N
    · rw [if_pos hdone, hrecs, areaRecords_nil_of_sum bs (by omega), List.append_nil]
    · rw [if_neg hdone]
      have hab : pre ++ areaBytes (b :: bs) = (pre ++ blockBytes b) ++ areaBytes bs := by
        simp only [areaBytes, List.map_cons, List.flatten_cons, List.append_assoc]
      have := ih (fun c hc => hbs c (List.mem_cons_of_mem _ hc))
        (fun c hc => hlast c (by
          cases bs with
          | nil => exact absurd hc (by simp)
          | cons d ds => rw [List.getLast?_cons_cons]; exact hc))
        (pre ++ blockBytes b) (block + 1) (storeRecords dir cnt (b.1.map recordOf))
        (cnt + b.1.length)
        (by rw [List.length_append, hpre, hb512]; omega) (by omega)
        (by rw [storeRecords_length, hdir])
      rw [hab, this, hrecs, storeRecords_append, List.length_map]

theorem areaRecords_length (bs : List (List (List Nat) × List Nat)) :
    (areaRecords bs).length = (bs.map (fun b => b.1.length)).sum := by
  induction bs with
  | nil => rfl
  | cons b bs ih =>
    unfold areaRecords at ih ⊢
    simp only [List.map_cons, List.flatten_cons, List.length_append, List.length_map,
      List.sum_cons, ih]

theorem slice_take (p : List Nat) (sz off len : Nat) (h : off + len ≤ sz) :
    slice (p.take sz) off len = slice p off len := by
  unfold slice
  rw [List.drop_take, List.take_take]
  congr 1
  omega

theorem flatten_take_even (ps : List (List Nat)) (h : ∀ p ∈ ps, IsPaddedRecord p) (k : Nat) :
    (ps.take k).flatten.length % 2 = 0 := by
  induction ps generalizing k with
  | nil => simp
  | cons p ps ih =>
    cases k with
    | zero => simp
    | succ k =>
      have h1 := (isPaddedRecord_even p (h p (List.mem_cons_self _ _))).1
      have h2 := ih (fun q hq => h q (List.mem_cons_of_mem _ hq)) k
      simp only [List.take_succ_cons, List.flatten_cons, List.length_append]
      omega

/-- For a directory area of `drBlLen` blocks that the image holds, in
which each block holds from offset 0 a run of used records (each
`51 + flNam[0]` bytes, padded by one byte when that length is odd) ended by a
zero flags byte inside the same block, the blocks together holding `drNmFls`
records, and in which 50 bytes of the last block follow its zero flags byte,
`mfs_directory` returns those records, in block order and then in-block
order, followed by the NULL entry; every record offset inside a block is
even; each record has the name length, the name bytes followed by a NUL, and
the multi-byte fields decoded from big-endian. -/
theorem mfs_directory_returns_records (vol : MFSVolume)
    (blocks : List (List (List Nat) × List Nat))
    (hlen : blocks.length = vol.mdb.drBlLen)
    (hblocks : ∀ b ∈ blocks, (blockBytes b).length = 512 ∧ ∀ p ∈ b.1, IsPaddedRecord p)
    (hcount : (blocks.map (fun b => b.1.length)).sum = vol.mdb.drNmFls)
    (hlast : ∀ b, blocks.getLast? = some b → 50 ≤ b.2.length)
    (harea : slice vol.fp (vol.offset + 512 * vol.mdb.drDirSt) (512 * vol.mdb.drBlLen) =
      areaBytes blocks)
    (hfit : vol.offset + 512 * vol.mdb.drDirSt + 512 * vol.mdb.drBlLen ≤ vol.fp.length)
    (hpos : vol.offset + 512 * vol.mdb.drDirSt < 2 ^ 63) :
    mfs_directory vol = some ((areaRecords blocks).map some ++ [none]) ∧
    (∀ b ∈ blocks, ∀ k, (b.1.take k).flatten.length % 2 = 0) ∧
    (∀ b ∈ blocks, ∀ p ∈ b.1,
      (recordOf p).flNam0 = p.getD 50 0 ∧
      flCNameMem (recordOf p) = slice p 51 (p.getD 50 0) ++ [0] ∧
      (recordOf p).flFlNum = beField p 18 4 ∧ (recordOf p).flStBlk = beField p 22 2 ∧
      (recordOf p).flLgLen = beField p 24 4 ∧ (recordOf p).flPyLen = beField p 28 4 ∧
      (recordOf p).flRStBlk = beField p 32 2 ∧ (recordOf p).flRLgLen = beField p 34 4 ∧
      (recordOf p).flRPyLen = beField p 38 4 ∧ (recordOf p).flCrDat = beField p 42 4 ∧
      (recordOf p).flMdDat = beField p 46 4) := by
  refine ⟨?_, ?_, ?_⟩
  · have hread := mfs_blkread_ok vol vol.mdb.drBlLen vol.mdb.drDirSt
      (List.replicate (vol.mdb.drBlLen * kMFSBlockSize) 0) hfit hpos
    have hdrop : List.drop (512 * vol.mdb.drBlLen)
        (List.replicate (vol.mdb.drBlLen * kMFSBlockSize) 0) = [] := by
      apply List.drop_of_length_le
      rw [List.length_replicate]
      unfold kMFSBlockSize
      omega
    rw [hdrop, List.append_nil, harea] at hread
    unfold mfs_directory
    simp only [hread]
    have hrun := mfs_directory_blocks_run vol.mdb.drNmFls blocks hblocks hlast [] 0
      (List.replicate (vol.mdb.drNmFls + 1) none) 0 rfl (by omega) (List.length_replicate _ _)
    rw [List.nil_append, hlen] at hrun
    rw [hrun]
    have hst := storeRecords_replicate (areaRecords blocks) [] (vol.mdb.drNmFls + 1)
      (by rw [areaRecords_length, hcount]; omega)
    rw [List.nil_append, List.nil_append, List.length_nil] at hst
    rw [hst, areaRecords_length, hcount, Nat.add_sub_cancel_left]
    rfl
  · intro b hb k
    exact flatten_take_even b.1 (hblocks b hb).2 k
  · intro b hb p hp
    have hsz := (isPaddedRecord_even p ((hblocks b hb).2 p hp)).2.2
    have hbf : ∀ off len, off + len ≤ 51 →
        beField (p.take (51 + p.getD 50 0)) off len = beField p off len := by
      intro off len h
      unfold beField
      rw [slice_take p _ off len (by omega)]
    have hnam : (p.take (51 + p.getD 50 0)).getD 50 0 = p.getD 50 0 := by
      simp only [List.getD_eq_getElem?_getD]
      rw [List.getElem?_take_of_lt (by omega)]
    refine ⟨hnam, ?_, hbf 18 4 (by norm_num), hbf 22 2 (by norm_num), hbf 24 4 (by norm_num),
      hbf 28 4 (by norm_num), hbf 32 2 (by norm_num), hbf 34 4 (by norm_num),
      hbf 38 4 (by norm_num), hbf 42 4 (by norm_num), hbf 46 4 (by norm_num)⟩
    unfold flCNameMem recordOf mfs_directory_record slice
    simp only
    rw [List.drop_take]
    congr 2
    omega

set_option maxRecDepth 1000000 in
/-- The directory block with the records `A` and `B` on a volume that
states two files. -/
theorem mfs_directory_returns_records_witness :
    mfs_directory (dirVol blockAB 1 2) =
      some [some (recordOf (dirRec [0x41])), some (recordOf (dirRec [0x42])), none] :=
  (mfs_directory_returns_records (dirVol blockAB 1 2)
    [([dirRec [0x41], dirRec [0x42]], List.replicate 407 0)] rfl (by decide) rfl
    (fun b hb => by
      have : b = ([dirRec [0x41], dirRec [0x42]], List.replicate 407 0) :=
        (Option.some.inj hb).symm
      rw [this]
      decide)
    (by decide) (by decide) (by decide)).1

/-! ## Directories that are not well formed -/

set_option maxRecDepth 1000000 in
/-- C25 fails on the code: the volume states one file and its directory
block holds the used records `A` and `B`.  The inner loop stores both, the
second in the slot of index `drNmFls = 1` that held the NULL terminator, so
the vector returned has no NULL entry (and `mfs_directory_free` runs past
it).  With a third record `C` in the block the store goes past the vector. -/
theorem mfs_directory_overruns_count :
    (dirVol blockAB 1 1).mdb.drNmFls = 1 ∧
    mfs_directory (dirVol blockAB 1 1) =
      some [some (recordOf (dirRec [0x41])), some (recordOf (dirRec [0x42]))] ∧
    mfs_directory_free [some (recordOf (dirRec [0x41])), some (recordOf (dirRec [0x42]))] =
      none ∧
    mfs_directory (dirVol blockABC 1 1) = none := by
  refine ⟨rfl, ?_, rfl, ?_⟩ <;> decide

set_option maxRecDepth 1000000 in
/-- C26 fails on the code: a directory block is filled to its last byte by
eight records of 64 bytes.  When it is the only block, the walk inspects the
flags byte at offset 512, past the buffer.  When the block with the record
`A` follows it, the walk of block 0 copies a ninth record, which lies in
block 1; on a volume that states ten files the walk of block 1 then copies
the record `A` once more. -/
theorem mfs_directory_crosses_block :
    blockFull.length = 512 ∧
    mfs_directory (dirVol blockFull 1 8) = none ∧
    (mfs_directory_block (blockFull ++ blockA) 0 1025 0 (List.replicate 11 none) 0).map
      Prod.snd = some 9 ∧
    mfs_directory (dirVol (blockFull ++ blockA) 2 10) =
      some (List.replicate 8 (some (recordOf (dirRec name13))) ++
        [some (recordOf (dirRec [0x41])), some (recordOf (dirRec [0x41])), none]) := by
  refine ⟨?_, ?_, ?_, ?_⟩ <;> decide

/-! ## The position of an allocation block -/

/-- `mfs_albkread` seeks to `albkSeekPos` and reads there. -/
theorem mfs_albkread_pos (vol : MFSVolume) (numBlocks start : Nat) (buf : List Nat) :
    mfs_albkread vol numBlocks start buf =
      if 2 ^ 63 ≤ albkSeekPos vol start then (-1, buf)
      else if numBlocks ≠
          (fread vol.fp (albkSeekPos vol start) vol.mdb.drAlBlkSiz numBlocks buf).1 then
        (-1, (fread vol.fp (albkSeekPos vol start) vol.mdb.drAlBlkSiz numBlocks buf).2)
      else (0, (fread vol.fp (albkSeekPos vol start) vol.mdb.drAlBlkSiz numBlocks buf).2) := by
  rfl

/-- When the difference `drAlBlSt * 512 - 2 * drAlBlkSiz` is not negative and
nothing exceeds its type, the position of block `k` is the one of the
specification. -/
theorem albkSeekPos_spec (vol : MFSVolume) (k : Nat) (hk : 2 ≤ k)
    (hoff : vol.alBkOff = alBkOffOf vol.mdb)
    (hst : 2 * vol.mdb.drAlBlkSiz ≤ vol.mdb.drAlBlSt * 512)
    (hst2 : vol.mdb.drAlBlSt < 65536) (hprod : vol.mdb.drAlBlkSiz * k < 2 ^ 32)
    (hpos : specAlbkPos vol k < 2 ^ 64) :
    albkSeekPos vol k = specAlbkPos vol k := by
  have hkk : vol.mdb.drAlBlkSiz * k = 2 * vol.mdb.drAlBlkSiz + (k - 2) * vol.mdb.drAlBlkSiz := by
    obtain ⟨j, rfl⟩ : ∃ j, k = j + 2 := ⟨k - 2, by omega⟩
    rw [Nat.add_sub_cancel, Nat.mul_add, Nat.mul_comm vol.mdb.drAlBlkSiz j,
      Nat.mul_comm vol.mdb.drAlBlkSiz 2]
    omega
  have hle : 2 * vol.mdb.drAlBlkSiz ≤ vol.mdb.drAlBlkSiz * k := by omega
  unfold albkSeekPos specAlbkPos at *
  rw [hoff]
  unfold alBkOffOf toU32 toU64 kMFSBlockSize
  generalize vol.mdb.drAlBlkSiz * k = prod at *
  generalize (k - 2) * vol.mdb.drAlBlkSiz = rest at *
  omega

/-- C28 (code at the failing input): with `drAlBlSt = 1` and
`drAlBlkSiz = 512` the difference `drAlBlSt * 512 - 2 * drAlBlkSiz` is
negative; `mfs_vopen` stores `2 ^ 32 - 512` in `alBkOff`, and `mfs_albkread`
seeks to `2 ^ 32 + 512` for allocation block 2 where the specification gives
`512`: the call fails and leaves the buffer as it was, although the block is
in the image at byte 512. -/
theorem mfs_albkread_position_wraps :
    farVol.alBkOff = alBkOffOf farVol.mdb ∧ farVol.alBkOff = 2 ^ 32 - 512 ∧
      farVol.mdb.drAlBlSt = 1 ∧ farVol.mdb.drAlBlkSiz = 512 ∧ farVol.offset = 0 ∧
      specAlbkPos farVol 2 = 512 ∧
      slice farVol.fp 512 512 = List.replicate 512 0x41 ∧
      albkSeekPos farVol 2 = 2 ^ 32 + 512 ∧
      ∀ buf : List Nat, mfs_albkread farVol 1 2 buf = (-1, buf) := by
  have hpos : albkSeekPos farVol 2 = 2 ^ 32 + 512 := by decide
  refine ⟨rfl, by decide, rfl, rfl, rfl, by decide, ?_, hpos, ?_⟩
  · show slice (List.replicate 512 0 ++ List.replicate 512 0x41) 512 512 = _
    unfold slice
    rw [List.drop_left' (List.length_replicate _ _)]
    exact List.take_of_length_le (by rw [List.length_replicate])
  · intro buf
    rw [mfs_albkread_pos, hpos]
    have hdrop : List.drop (2 ^ 32 + 512) farVol.fp = [] := by
      apply List.drop_eq_nil_of_le
      show (List.replicate 512 0 ++ List.replicate 512 0x41).length ≤ _
      rw [List.length_append, List.length_replicate, List.length_replicate]
      decide
    unfold fread
    simp only [hdrop]
    simp

/-! ## The chain indices of a read -/

theorem mfs_fkread_at_real_loop_reads_lt (blk N : Nat) :
    ∀ (fuel btr bkn : Nat), N < 65536 → bkn * blk + btr ≤ N * blk →
      ∀ i ∈ mfs_fkread_at_real_loop_reads blk fuel btr bkn, i < N := by
  intro fuel
  induction fuel with
  | zero =>
    intro btr bkn _ _ i hi
    simp [mfs_fkread_at_real_loop_reads] at hi
  | succ fuel ih =>
    intro btr bkn hN hb i hi
    unfold mfs_fkread_at_real_loop_reads at hi
    by_cases h0 : btr = 0
    · simp [h0] at hi
    · rw [if_neg h0] at hi
      have hlt : bkn < N := by
        by_contra hge
        have hge2 : N ≤ bkn := by omega
        have := Nat.mul_le_mul_right blk hge2
        omega
      have hu : toU16 (bkn + 1) = bkn + 1 := by
        unfold toU16
        apply Nat.mod_eq_of_lt
        omega
      have hsucc : (bkn + 1) * blk = bkn * blk + blk := Nat.succ_mul _ _
      have hlt2 : (bkn + 1) * blk ≤ N * blk := Nat.mul_le_mul_right _ hlt
      simp only [List.mem_cons, hu] at hi
      rcases hi with hi | hi
      · omega
      · refine ih _ _ hN ?_ i hi
        split <;> omega

theorem mfs_fkread_at_real_reads_lt (vol : MFSVolume) (fk : MFSFork) (size offset : Nat)
    (hn : fk.fkNmBks < 65536) (hL : fk.fkLgLen ≤ fk.fkNmBks * vol.mdb.drAlBlkSiz)
    (hov : offset + size < 2 ^ 64) :
    ∀ i ∈ mfs_fkread_at_real_reads vol fk size offset, i < fk.fkNmBks := by
  intro i hi
  unfold mfs_fkread_at_real_reads at hi
  by_cases hs : size = 0
  · simp [hs] at hi
  by_cases ho : fk.fkLgLen ≤ offset
  · simp [ho] at hi
  by_cases hb : vol.mdb.drAlBlkSiz = 0
  · simp [hb] at hi
  rw [if_neg hs, if_neg ho] at hi
  simp only [if_neg hb] at hi
  have hblk1 : 0 < vol.mdb.drAlBlkSiz := by omega
  have hu64 : toU64 (offset + size) = offset + size := Nat.mod_eq_of_lt hov
  have hsize1 : (if fk.fkLgLen < toU64 (offset + size) then fk.fkLgLen - offset else size) =
      min size (fk.fkLgLen - offset) := by
    rw [hu64]
    split <;> omega
  rw [hsize1] at hi
  generalize hn1 : min size (fk.fkLgLen - offset) = n at hi
  have hnle : offset + n ≤ fk.fkLgLen := by omega
  have hdm : vol.mdb.drAlBlkSiz * (offset / vol.mdb.drAlBlkSiz) + offset % vol.mdb.drAlBlkSiz =
      offset := Nat.div_add_mod _ _
  have hmod : offset % vol.mdb.drAlBlkSiz < vol.mdb.drAlBlkSiz := Nat.mod_lt _ hblk1
  have hcomm : vol.mdb.drAlBlkSiz * (offset / vol.mdb.drAlBlkSiz) =
      offset / vol.mdb.drAlBlkSiz * vol.mdb.drAlBlkSiz := Nat.mul_comm _ _
  have hbkn : offset / vol.mdb.drAlBlkSiz < fk.fkNmBks := by
    by_contra hge
    have hge2 : fk.fkNmBks ≤ offset / vol.mdb.drAlBlkSiz := by omega
    have := Nat.mul_le_mul_right vol.mdb.drAlBlkSiz hge2
    omega
  have hu : toU16 (offset / vol.mdb.drAlBlkSiz) = offset / vol.mdb.drAlBlkSiz := by
    unfold toU16
    apply Nat.mod_eq_of_lt
    omega
  have hu1 : toU16 (offset / vol.mdb.drAlBlkSiz + 1) = offset / vol.mdb.drAlBlkSiz + 1 := by
    unfold toU16
    apply Nat.mod_eq_of_lt
    omega
  have hsucc : (offset / vol.mdb.drAlBlkSiz + 1) * vol.mdb.drAlBlkSiz =
      offset / vol.mdb.drAlBlkSiz * vol.mdb.drAlBlkSiz + vol.mdb.drAlBlkSiz := Nat.succ_mul _ _
  have hlt2 : (offset / vol.mdb.drAlBlkSiz + 1) * vol.mdb.drAlBlkSiz ≤
      fk.fkNmBks * vol.mdb.drAlBlkSiz := Nat.mul_le_mul_right _ hbkn
  rw [hu, hu1] at hi
  simp only [List.mem_cons] at hi
  rcases hi with hi | hi
  · omega
  · refine mfs_fkread_at_real_loop_reads_lt _ _ _ _ _ hn ?_ i hi
    split <;> omega

/-- The loop of `mfs_fkread_at_real` is defined exactly when every index of
its trace is a slot of `fkAlMap`. -/
theorem mfs_fkread_at_real_loop_isSome (vol : MFSVolume) (fk : MFSFork) :
    ∀ (fuel btr bkn : Nat) (bk out : List Nat),
      (mfs_fkread_at_real_loop vol fk fuel btr bkn bk out).isSome = true ↔
        ∀ i ∈ mfs_fkread_at_real_loop_reads vol.mdb.drAlBlkSiz fuel btr bkn,
          i < fk.fkAlMap.length := by
  intro fuel
  induction fuel with
  | zero =>
    intro btr bkn bk out
    simp [mfs_fkread_at_real_loop, mfs_fkread_at_real_loop_reads]
  | succ fuel ih =>
    intro btr bkn bk out
    unfold mfs_fkread_at_real_loop mfs_fkread_at_real_loop_reads
    by_cases h0 : btr = 0
    · simp [h0]
    · rw [if_neg h0, if_neg h0]
      by_cases hlt : bkn < fk.fkAlMap.length
      · rw [List.getElem?_eq_getElem hlt]
        simp only [List.mem_cons, forall_eq_or_imp]
        rw [ih]
        exact ⟨fun h => ⟨hlt, h⟩, fun h => h.2⟩
      · rw [List.getElem?_eq_none (by omega)]
        simp only [List.mem_cons, forall_eq_or_imp, Option.isSome_none, Bool.false_eq_true,
          false_iff]
        intro h
        exact hlt h.1

/-- The read `mfs_fkread_at_real` is defined exactly when the block size is
not zero at the division and every index of its trace is a slot of
`fkAlMap`. -/
theorem mfs_fkread_at_real_isSome (vol : MFSVolume) (fk : MFSFork) (size offset : Nat)
    (heap : Nat → Nat) (hblk : 0 < vol.mdb.drAlBlkSiz) :
    (mfs_fkread_at_real vol fk size offset heap).isSome = true ↔
      ∀ i ∈ mfs_fkread_at_real_reads vol fk size offset, i < fk.fkAlMap.length := by
  unfold mfs_fkread_at_real mfs_fkread_at_real_reads
  by_cases hs : size = 0
  · simp [hs]
  by_cases ho : fk.fkLgLen ≤ offset
  · simp [ho]
  have hb : ¬ vol.mdb.drAlBlkSiz = 0 := by omega
  rw [if_neg hs, if_neg ho, if_neg hs, if_neg ho]
  simp only [if_neg hb]
  by_cases hlt : toU16 (offset / vol.mdb.drAlBlkSiz) < fk.fkAlMap.length
  · rw [List.getElem?_eq_getElem hlt]
    simp only [List.mem_cons, forall_eq_or_imp]
    generalize (if fk.fkLgLen < toU64 (offset + size) then fk.fkLgLen - offset else size) = size1
    generalize (mfs_albkread vol 1 fk.fkAlMap[toU16 (offset / vol.mdb.drAlBlkSiz)]
      ((List.range vol.mdb.drAlBlkSiz).map heap)).2 = bk
    generalize (if size1 < vol.mdb.drAlBlkSiz - offset % vol.mdb.drAlBlkSiz then size1
      else vol.mdb.drAlBlkSiz - offset % vol.mdb.drAlBlkSiz) = bkBtr
    have hiff := mfs_fkread_at_real_loop_isSome vol fk (size1 - bkBtr) (size1 - bkBtr)
      (toU16 (toU16 (offset / vol.mdb.drAlBlkSiz) + 1)) bk
      (slice bk (offset % vol.mdb.drAlBlkSiz) bkBtr)
    cases hloop : mfs_fkread_at_real_loop vol fk (size1 - bkBtr) (size1 - bkBtr)
        (toU16 (toU16 (offset / vol.mdb.drAlBlkSiz) + 1)) bk
        (slice bk (offset % vol.mdb.drAlBlkSiz) bkBtr) with
    | none =>
      rw [hloop] at hiff
      constructor
      · intro h
        simp at h
      · intro h
        have := hiff.2 h.2
        simp at this
    | some o =>
      rw [hloop] at hiff
      exact ⟨fun _ => ⟨hlt, hiff.1 rfl⟩, fun _ => rfl⟩
  · rw [List.getElem?_eq_none (by omega)]
    simp only [List.mem_cons, forall_eq_or_imp, Option.isSome_none, Bool.false_eq_true,
      false_iff]
    intro h
    exact hlt h.1

theorem mfs_fkread_at_real_loop_take (vol : MFSVolume) (fk : MFSFork)
    (hn : fk.fkNmBks < 65536) :
    ∀ (fuel btr bkn : Nat) (bk out : List Nat),
      bkn * vol.mdb.drAlBlkSiz + btr ≤ fk.fkNmBks * vol.mdb.drAlBlkSiz →
      mfs_fkread_at_real_loop vol { fk with fkAlMap := fk.fkAlMap.take fk.fkNmBks }
          fuel btr bkn bk out =
        mfs_fkread_at_real_loop vol fk fuel btr bkn bk out := by
  intro fuel
  induction fuel with
  | zero => intro btr bkn bk out _; rfl
  | succ fuel ih =>
    intro btr bkn bk out hb
    unfold mfs_fkread_at_real_loop
    by_cases h0 : btr = 0
    · rw [if_pos h0, if_pos h0]
    · rw [if_neg h0, if_neg h0]
      have hlt : bkn < fk.fkNmBks := by
        by_contra hge
        have hge2 : fk.fkNmBks ≤ bkn := by omega
        have := Nat.mul_le_mul_right vol.mdb.drAlBlkSiz hge2
        omega
      have hu : toU16 (bkn + 1) = bkn + 1 := by
        unfold toU16
        apply Nat.mod_eq_of_lt
        omega
      have hsucc : (bkn + 1) * vol.mdb.drAlBlkSiz = bkn * vol.mdb.drAlBlkSiz + vol.mdb.drAlBlkSiz :=
        Nat.succ_mul _ _
      have hlt2 : (bkn + 1) * vol.mdb.drAlBlkSiz ≤ fk.fkNmBks * vol.mdb.drAlBlkSiz :=
        Nat.mul_le_mul_right _ hlt
      show (match (fk.fkAlMap.take fk.fkNmBks)[bkn]? with
        | none => none
        | some start => _) = _
      rw [List.getElem?_take_of_lt hlt]
      cases fk.fkAlMap[bkn]? with
      | none => rfl
      | some start =>
        simp only [hu]
        apply ih
        split <;> omega

theorem mfs_fkread_at_real_take (vol : MFSVolume) (fk : MFSFork) (size offset : Nat)
    (heap : Nat → Nat) (hblk : 0 < vol.mdb.drAlBlkSiz) (hn : fk.fkNmBks < 65536)
    (hL : fk.fkLgLen ≤ fk.fkNmBks * vol.mdb.drAlBlkSiz) (hov : offset + size < 2 ^ 64) :
    mfs_fkread_at_real vol { fk with fkAlMap := fk.fkAlMap.take fk.fkNmBks } size offset heap =
      mfs_fkread_at_real vol fk size offset heap := by
  unfold mfs_fkread_at_real
  by_cases hs : size = 0
  · rw [if_pos hs, if_pos hs]
  by_cases ho : fk.fkLgLen ≤ offset
  · rw [if_neg hs, if_neg hs, if_pos ho, if_pos ho]
  have hb : ¬ vol.mdb.drAlBlkSiz = 0 := by omega
  rw [if_neg hs, if_neg hs, if_neg ho, if_neg ho]
  simp only [if_neg hb]
  have hu64 : toU64 (offset + size) = offset + size := Nat.mod_eq_of_lt hov
  have hsize1 : (if fk.fkLgLen < toU64 (offset + size) then fk.fkLgLen - offset else size) =
      min size (fk.fkLgLen - offset) := by
    rw [hu64]
    split <;> omega
  rw [hsize1]
  generalize hn1 : min size (fk.fkLgLen - offset) = n
  have hnle : offset + n ≤ fk.fkLgLen := by omega
  have hdm : vol.mdb.drAlBlkSiz * (offset / vol.mdb.drAlBlkSiz) + offset % vol.mdb.drAlBlkSiz =
      offset := Nat.div_add_mod _ _
  have hmod : offset % vol.mdb.drAlBlkSiz < vol.mdb.drAlBlkSiz := Nat.mod_lt _ hblk
  have hcomm : vol.mdb.drAlBlkSiz * (offset / vol.mdb.drAlBlkSiz) =
      offset / vol.mdb.drAlBlkSiz * vol.mdb.drAlBlkSiz := Nat.mul_comm _ _
  have hbkn : offset / vol.mdb.drAlBlkSiz < fk.fkNmBks := by
    by_contra hge
    have hge2 : fk.fkNmBks ≤ offset / vol.mdb.drAlBlkSiz := by omega
    have := Nat.mul_le_mul_right vol.mdb.drAlBlkSiz hge2
    omega
  have hu : toU16 (offset / vol.mdb.drAlBlkSiz) = offset / vol.mdb.drAlBlkSiz := by
    unfold toU16
    apply Nat.mod_eq_of_lt
    omega
  have hu1 : toU16 (offset / vol.mdb.drAlBlkSiz + 1) = offset / vol.mdb.drAlBlkSiz + 1 := by
    unfold toU16
    apply Nat.mod_eq_of_lt
    omega
  have hsucc : (offset / vol.mdb.drAlBlkSiz + 1) * vol.mdb.drAlBlkSiz =
      offset / vol.mdb.drAlBlkSiz * vol.mdb.drAlBlkSiz + vol.mdb.drAlBlkSiz := Nat.succ_mul _ _
  have hlt2 : (offset / vol.mdb.drAlBlkSiz + 1) * vol.mdb.drAlBlkSiz ≤
      fk.fkNmBks * vol.mdb.drAlBlkSiz := Nat.mul_le_mul_right _ hbkn
  rw [hu, hu1, List.getElem?_take_of_lt hbkn]
  cases fk.fkAlMap[offset / vol.mdb.drAlBlkSiz]? with
  | none => rfl
  | some start =>
    simp only
    rw [mfs_fkread_at_real_loop_take vol fk hn]
    split <;> omega

/-- C29: for a fork that `mfs_fkopen` has returned, with a logical length
(a `uint32_t`) of at most `fkNmBks * drAlBlkSiz`, and every `size` and
`offset` whose sum does not overflow: every index at which
`mfs_fkread_at_real` reads `fkAlMap` is below `fkNmBks`; the read is defined
exactly when the indices of that trace are slots of `fkAlMap`, and it is
defined; it gives the same result when the sentinel slot and everything
after it are removed from `fkAlMap`; and when it returns 0 it has read no
slot at all. -/
theorem mfs_fkread_at_real_chain_indices (vol vol1 : MFSVolume) (r : MFSDirectoryRecord)
    (mode : Int) (comment : Option (List Nat)) (fk : MFSFork) (size offset : Nat)
    (heap : Nat → Nat)
    (hopen : mfs_fkopen vol (some r) mode comment = some (.ok fk, vol1))
    (hLt : fk.fkLgLen < 2 ^ 32)
    (hL : fk.fkLgLen ≤ fk.fkNmBks * vol1.mdb.drAlBlkSiz)
    (hov : offset + size < 2 ^ 64) :
    0 < vol1.mdb.drAlBlkSiz ∧
      (∀ i ∈ mfs_fkread_at_real_reads vol1 fk size offset, i < fk.fkNmBks) ∧
      ((mfs_fkread_at_real vol1 fk size offset heap).isSome = true ↔
        ∀ i ∈ mfs_fkread_at_real_reads vol1 fk size offset, i < fk.fkAlMap.length) ∧
      (mfs_fkread_at_real vol1 fk size offset heap).isSome = true ∧
      mfs_fkread_at_real vol1 { fk with fkAlMap := fk.fkAlMap.take fk.fkNmBks } size offset heap =
        mfs_fkread_at_real vol1 fk size offset heap ∧
      (∀ out, mfs_fkread_at_real vol1 fk size offset heap = some (0, out) →
        mfs_fkread_at_real_reads vol1 fk size offset = []) := by
  obtain ⟨hblk0, hv1, _, _, _, hnm, _, hlen, _, _, _⟩ := mfs_fkopen_ok vol vol1 r mode comment fk hopen
  have hmdb : vol1.mdb = vol.mdb := by rw [hv1]
  have hblk : 0 < vol1.mdb.drAlBlkSiz := by rw [hmdb]; exact hblk0
  have hn : fk.fkNmBks < 65536 := by
    rw [hnm]
    unfold toU16
    exact Nat.mod_lt _ (by decide)
  obtain ⟨out0, hres, _⟩ := mfs_fkread_at_real_count vol1 fk size offset heap (Or.inl hblk) hn hlen
    hL hov
  refine ⟨hblk, mfs_fkread_at_real_reads_lt vol1 fk size offset hn hL hov,
    mfs_fkread_at_real_isSome vol1 fk size offset heap hblk, by rw [hres]; rfl,
    mfs_fkread_at_real_take vol1 fk size offset heap hblk hn hL hov, ?_⟩
  intro out hout
  unfold mfs_fkread_at_real_reads
  by_cases hs : size = 0
  · rw [if_pos hs]
  by_cases ho : fk.fkLgLen ≤ offset
  · rw [if_neg hs, if_pos ho]
  exfalso
  rw [hres] at hout
  have hcond : ¬ (size = 0 ∨ fk.fkLgLen ≤ offset) := by
    intro h
    rcases h with h | h
    · exact hs h
    · exact ho h
  rw [if_neg hcond] at hout
  simp only [Option.some.injEq, Prod.mk.injEq] at hout
  have h0 := hout.1
  have hm : 0 < min size (fk.fkLgLen - offset) := by omega
  have hm2 : min size (fk.fkLgLen - offset) < 2 ^ 32 := by omega
  unfold toInt32 at h0
  rw [Nat.mod_eq_of_lt hm2] at h0
  split at h0 <;> omega

/-- C29 at the data fork of the example record: a read of 5 bytes from
offset 1 reads the slots 0 and 1 of `fkAlMap`, both below `fkNmBks = 2`. -/
theorem mfs_fkread_at_real_chain_indices_witness :
    mfs_fkread_at_real_reads exVol1 exForkData 5 1 = [0, 1] ∧
      (0 < exVol1.mdb.drAlBlkSiz ∧
      (∀ i ∈ mfs_fkread_at_real_reads exVol1 exForkData 5 1, i < exForkData.fkNmBks) ∧
      ((mfs_fkread_at_real exVol1 exForkData 5 1 (fun _ => 0)).isSome = true ↔
        ∀ i ∈ mfs_fkread_at_real_reads exVol1 exForkData 5 1, i < exForkData.fkAlMap.length) ∧
      (mfs_fkread_at_real exVol1 exForkData 5 1 (fun _ => 0)).isSome = true ∧
      mfs_fkread_at_real exVol1
          { exForkData with fkAlMap := exForkData.fkAlMap.take exForkData.fkNmBks } 5 1
          (fun _ => 0) =
        mfs_fkread_at_real exVol1 exForkData 5 1 (fun _ => 0) ∧
      (∀ out, mfs_fkread_at_real exVol1 exForkData 5 1 (fun _ => 0) = some (0, out) →
        mfs_fkread_at_real_reads exVol1 exForkData 5 1 = [])) :=
  ⟨by decide, mfs_fkread_at_real_chain_indices exVol exVol1 exRec kMFSForkData none exForkData 5 1
    (fun _ => 0) rfl (by decide) (by decide) (by decide)⟩

/-! ## The map indices of `mfs_fkopen` -/

/-- The loop of `mfs_fkopen` is defined exactly when every index of its
trace but the last, which the terminator test reads, is inside `vabm`. -/
theorem mfs_fkopen_map_isSome (vabm : List Nat) (fkNmBks first : Nat) :
    (mfs_fkopen_map (some vabm) fkNmBks first).isSome = true ↔
      ∀ i ∈ mfs_fkopen_reads vabm fkNmBks first, i < vabm.length := by
  have hloop : ∀ (count last : Nat),
      (∃ rest l, mfs_fkopen_loop vabm count last = some (rest, l) ∧ l < vabm.length) ↔
        ∀ i ∈ mfs_fkopen_loop_reads vabm count last, i < vabm.length := by
    intro count
    induction count with
    | zero =>
      intro last
      simp only [mfs_fkopen_loop, mfs_fkopen_loop_reads, List.mem_singleton, forall_eq,
        Option.some.injEq, Prod.mk.injEq]
      constructor
      · rintro ⟨_, _, ⟨_, rfl⟩, h⟩
        exact h
      · intro h
        exact ⟨[], last, ⟨rfl, rfl⟩, h⟩
    | succ count ih =>
      intro last
      unfold mfs_fkopen_loop mfs_fkopen_loop_reads
      by_cases hlt : last < vabm.length
      · rw [List.getElem?_eq_getElem hlt]
        simp only [List.mem_cons, forall_eq_or_imp]
        rw [← ih]
        constructor
        · rintro ⟨rest, l, h, hl⟩
          refine ⟨hlt, ?_⟩
          cases hrec : mfs_fkopen_loop vabm count vabm[last] with
          | none => rw [hrec] at h; simp at h
          | some p =>
            rw [hrec] at h
            simp only [Option.some.injEq, Prod.mk.injEq] at h
            exact ⟨p.1, p.2, rfl, by rw [h.2]; exact hl⟩
        · rintro ⟨_, rest, l, h, hl⟩
          rw [h]
          exact ⟨vabm[last] :: rest, l, rfl, hl⟩
      · rw [List.getElem?_eq_none (by omega)]
        simp only [List.mem_singleton, forall_eq]
        constructor
        · rintro ⟨rest, l, h, _⟩
          simp at h
        · intro h
          exact absurd h hlt
  unfold mfs_fkopen_map mfs_fkopen_reads
  by_cases h0 : fkNmBks ≠ 0
  · rw [if_pos h0, if_pos h0, ← hloop]
    simp only
    constructor
    · intro h
      cases hrec : mfs_fkopen_loop vabm (fkNmBks - 1) first with
      | none => rw [hrec] at h; simp at h
      | some p =>
        obtain ⟨rest, l⟩ := p
        rw [hrec] at h
        refine ⟨rest, l, rfl, ?_⟩
        by_contra hge
        simp only at h
        rw [List.getElem?_eq_none (by omega)] at h
        simp at h
    · rintro ⟨rest, l, h, hl⟩
      rw [h]
      simp only
      rw [List.getElem?_eq_getElem hl]
      rfl
  · rw [if_neg h0, if_neg h0]
    simp

/-- C30 (code at the failing input): on the example volume, whose map has
`drNmAlBlks + 2 = 6` entries with those of the blocks 2 to 5 equal to 3, 1, 5
and 1, a record with start block 2 and a physical EOF of 16 bytes (four
blocks of four bytes, where the chain 2, 3 has two) makes `mfs_fkopen` read
the map at 2, at 3, at the end marker 1 and then at `vabm[1] = 0x1337`, which
is outside the map. -/
theorem mfs_fkopen_follows_end_marker :
    exVol.vabm = some [4, 0x1337, 3, 1, 5, 1] ∧ exVol.mdb.drNmAlBlks = 4 ∧
      exVol.mdb.drAlBlkSiz = 4 ∧
      (∀ a ∈ [2, 3, 4, 5], ∀ v, [4, 0x1337, 3, 1, 5, 1][a]? = some v →
        v = 0 ∨ v = 1 ∨ v = 0xFFF ∨ (2 ≤ v ∧ v ≤ 5)) ∧
      (2 ≤ exRec.flStBlk ∧ exRec.flStBlk ≤ 5) ∧
      mfs_fkopen_reads [4, 0x1337, 3, 1, 5, 1] 4 2 = [2, 3, 1, 0x1337] ∧
      ¬ 0x1337 < exVol.mdb.drNmAlBlks + 2 ∧
      mfs_fkopen_map exVol.vabm 4 2 = none ∧
      mfs_fkopen exVol (some { exRec with flPyLen := 16 }) kMFSForkData none = none := by
  refine ⟨rfl, rfl, rfl, by decide, by decide, by decide, by decide, rfl, rfl⟩

/-! ## Reads through the cursor -/

theorem toInt32_range (n : Nat) : -2 ^ 31 ≤ toInt32 n ∧ toInt32 n < 2 ^ 31 := by
  unfold toInt32
  split <;> omega

theorem toInt32_ofInt64 (n : Int) (h1 : -2 ^ 31 ≤ n) (h2 : n < 2 ^ 31) :
    toInt32 (ofInt64 n) = n ∧ (0 ≤ n → ((ofInt64 n : Nat) : Int) = n) := by
  unfold toInt32 ofInt64
  constructor
  · split <;> omega
  · intro h0
    omega

/-- The value `mfs_fkread_at_real` returns is an `int`. -/
theorem mfs_fkread_at_real_range (vol : MFSVolume) (fk : MFSFork) (size offset : Nat)
    (heap : Nat → Nat) (n : Int) (out : List Nat)
    (h : mfs_fkread_at_real vol fk size offset heap = some (n, out)) :
    -2 ^ 31 ≤ n ∧ n < 2 ^ 31 := by
  unfold mfs_fkread_at_real at h
  split at h
  · simp only [Option.some.injEq, Prod.mk.injEq] at h
    omega
  · split at h
    · simp only [Option.some.injEq, Prod.mk.injEq] at h
      omega
    · simp only at h
      split at h
      · simp at h
      · split at h
        · simp at h
        · split at h
          · simp at h
          · simp only [Option.some.injEq, Prod.mk.injEq] at h
            rw [← h.1]
            exact toInt32_range _

/-- The value `mfs_fkread_at_appledouble` returns is an `int`. -/
theorem mfs_fkread_at_appledouble_range (vol : MFSVolume) (fk : MFSFork) (size offset : Nat)
    (heap : Nat → Nat) (n : Int) (out : List Nat)
    (h : mfs_fkread_at_appledouble vol fk size offset heap = some (n, out)) :
    -2 ^ 31 ≤ n ∧ n < 2 ^ 31 := by
  unfold mfs_fkread_at_appledouble at h
  simp only at h
  generalize toU32 (kAppleDoubleHeaderLength + fk.fkLgLen) = asLgLen at h
  generalize (if asLgLen < toU64 (offset + size) then asLgLen - offset else size) = size1 at h
  generalize (if size1 < kAppleDoubleHeaderLength - offset then size1
    else kAppleDoubleHeaderLength - offset) = hdBtr at h
  by_cases hs : size = 0
  · rw [if_pos hs] at h
    simp only [Option.some.injEq, Prod.mk.injEq] at h
    omega
  rw [if_neg hs] at h
  by_cases h1 : asLgLen ≤ offset
  · rw [if_pos h1] at h
    simp only [Option.some.injEq, Prod.mk.injEq] at h
    omega
  rw [if_neg h1] at h
  by_cases h2 : kAppleDoubleResourceForkOffset ≤ offset
  · rw [if_pos h2] at h
    exact mfs_fkread_at_real_range vol fk _ _ heap n out h
  rw [if_neg h2] at h
  cases has : fk.fkAppleDouble with
  | none =>
    rw [has] at h
    simp at h
  | some as =>
    rw [has] at h
    simp only at h
    by_cases h3 : as.length < hdBtr
    · rw [if_pos h3] at h
      simp at h
    rw [if_neg h3] at h
    by_cases h4 : size1 - hdBtr ≠ 0
    · rw [if_pos h4] at h
      cases hr : mfs_fkread_at_real vol fk (size1 - hdBtr) 0 heap with
      | none =>
        rw [hr] at h
        simp at h
      | some p =>
        rw [hr] at h
        simp only [Option.some.injEq, Prod.mk.injEq] at h
        rw [← h.1]
        exact toInt32_range _
    · rw [if_neg h4] at h
      simp only [Option.some.injEq, Prod.mk.injEq] at h
      rw [← h.1]
      exact toInt32_range _

/-- The value `mfs_fkread_at` returns is an `int`. -/
theorem mfs_fkread_at_range (vol : MFSVolume) (fk : MFSFork) (size offset : Nat)
    (heap : Nat → Nat) (n : Int) (out : List Nat)
    (h : mfs_fkread_at vol fk size offset heap = some (n, out)) :
    -2 ^ 31 ≤ n ∧ n < 2 ^ 31 := by
  unfold mfs_fkread_at at h
  by_cases h1 : fk.fkMode = kMFSForkData ∨ fk.fkMode = kMFSForkRsrc
  · rw [if_pos h1] at h
    exact mfs_fkread_at_real_range vol fk size offset heap n out h
  rw [if_neg h1] at h
  by_cases h2 : fk.fkMode = kMFSForkAppleDouble
  · rw [if_pos h2] at h
    exact mfs_fkread_at_appledouble_range vol fk size offset heap n out h
  · rw [if_neg h2] at h
    simp at h

/-- When the blocks of the chain can be read, what `mfs_fkread_at_real`
delivers does not depend on the content of its block buffer. -/
theorem mfs_fkread_at_real_heap (vol : MFSVolume) (fk : MFSFork) (size offset : Nat)
    (heap1 heap2 : Nat → Nat)
    (hblk : 0 < vol.mdb.drAlBlkSiz ∨ fk.fkLgLen = 0) (hn : fk.fkNmBks < 65536)
    (hlen : fk.fkNmBks ≤ fk.fkAlMap.length)
    (hread : ∀ a ∈ forkChain fk, albkReadable vol a)
    (hL : fk.fkLgLen ≤ fk.fkNmBks * vol.mdb.drAlBlkSiz) (hov : offset + size < 2 ^ 64) :
    mfs_fkread_at_real vol fk size offset heap1 = mfs_fkread_at_real vol fk size offset heap2 := by
  by_cases hs : size = 0
  · unfold mfs_fkread_at_real
    rw [if_pos hs, if_pos hs]
  by_cases ho : fk.fkLgLen ≤ offset
  · unfold mfs_fkread_at_real
    rw [if_neg hs, if_neg hs, if_pos ho, if_pos ho]
  have hblk1 : 0 < vol.mdb.drAlBlkSiz := by
    rcases hblk with h | h
    · exact h
    · omega
  rw [mfs_fkread_at_real_spec vol fk size offset heap1 hblk1 hn hlen hread hL (by omega)
      (by omega) hov,
    mfs_fkread_at_real_spec vol fk size offset heap2 hblk1 hn hlen hread hL (by omega)
      (by omega) hov]

/-- The reader `mfs_fkread_at_appledouble` uses the block buffer only
through `mfs_fkread_at_real`. -/
theorem mfs_fkread_at_appledouble_heap (vol : MFSVolume) (fk : MFSFork) (size offset : Nat)
    (heap1 heap2 : Nat → Nat) (hov : offset + size < 2 ^ 64)
    (hreal : ∀ s o, o + s < 2 ^ 64 →
      mfs_fkread_at_real vol fk s o heap1 = mfs_fkread_at_real vol fk s o heap2) :
    mfs_fkread_at_appledouble vol fk size offset heap1 =
      mfs_fkread_at_appledouble vol fk size offset heap2 := by
  unfold mfs_fkread_at_appledouble
  have hu64 : toU64 (offset + size) = offset + size := Nat.mod_eq_of_lt hov
  rw [hu64]
  simp only
  generalize toU32 (kAppleDoubleHeaderLength + fk.fkLgLen) = asLgLen
  have hsize1 : (if asLgLen < offset + size then asLgLen - offset else size) ≤ size := by
    split <;> omega
  generalize (if asLgLen < offset + size then asLgLen - offset else size) = size1 at hsize1 ⊢
  rw [hreal size1 (offset - kAppleDoubleResourceForkOffset) (by omega)]
  generalize (if size1 < kAppleDoubleHeaderLength - offset then size1
    else kAppleDoubleHeaderLength - offset) = hdBtr
  rw [hreal (size1 - hdBtr) 0 (by omega)]

/-- The reader `mfs_fkread_at_appledouble` returns when
`mfs_fkread_at_real` does and the header has its `0x300` bytes. -/
theorem mfs_fkread_at_appledouble_defined (vol : MFSVolume) (fk : MFSFork) (size offset : Nat)
    (heap : Nat → Nat) (as : List Nat)
    (has : fk.fkAppleDouble = some as) (haslen : 0x300 ≤ as.length)
    (hov : offset + size < 2 ^ 64)
    (hreal : ∀ s o, o + s < 2 ^ 64 → ∃ res, mfs_fkread_at_real vol fk s o heap = some res) :
    ∃ res, mfs_fkread_at_appledouble vol fk size offset heap = some res := by
  unfold mfs_fkread_at_appledouble
  have hu64 : toU64 (offset + size) = offset + size := Nat.mod_eq_of_lt hov
  rw [hu64, has]
  simp only
  generalize toU32 (kAppleDoubleHeaderLength + fk.fkLgLen) = asLgLen
  have hsize1 : (if asLgLen < offset + size then asLgLen - offset else size) ≤ size := by
    split <;> omega
  generalize (if asLgLen < offset + size then asLgLen - offset else size) = size1 at hsize1 ⊢
  have hhd : (if size1 < kAppleDoubleHeaderLength - offset then size1
      else kAppleDoubleHeaderLength - offset) ≤ 0x300 := by
    unfold kAppleDoubleHeaderLength
    split <;> omega
  generalize (if size1 < kAppleDoubleHeaderLength - offset then size1
    else kAppleDoubleHeaderLength - offset) = hdBtr at hhd ⊢
  by_cases hs : size = 0
  · rw [if_pos hs]
    exact ⟨_, rfl⟩
  rw [if_neg hs]
  by_cases h1 : asLgLen ≤ offset
  · rw [if_pos h1]
    exact ⟨_, rfl⟩
  rw [if_neg h1]
  by_cases h2 : kAppleDoubleResourceForkOffset ≤ offset
  · rw [if_pos h2]
    exact hreal _ _ (by omega)
  rw [if_neg h2, if_neg (by omega : ¬ as.length < hdBtr)]
  by_cases h3 : size1 - hdBtr ≠ 0
  · rw [if_pos h3]
    obtain ⟨res, hres⟩ := hreal (size1 - hdBtr) 0 (by omega)
    rw [hres]
    exact ⟨_, rfl⟩
  · rw [if_neg h3]
    exact ⟨_, rfl⟩

/-- A read of an open fork whose chain covers its length returns. -/
theorem mfs_fkread_at_defined (vol : MFSVolume) (fk : MFSFork) (size offset : Nat)
    (heap : Nat → Nat)
    (hmode : fk.fkMode = kMFSForkData ∨ fk.fkMode = kMFSForkRsrc ∨
      fk.fkMode = kMFSForkAppleDouble)
    (hn : fk.fkNmBks < 65536) (hlen : fk.fkNmBks ≤ fk.fkAlMap.length)
    (hblk : 0 < vol.mdb.drAlBlkSiz ∨ fk.fkLgLen = 0)
    (had : fk.fkMode = kMFSForkAppleDouble → ∃ as, fk.fkAppleDouble = some as ∧ 0x300 ≤ as.length)
    (hL : fk.fkLgLen ≤ fk.fkNmBks * vol.mdb.drAlBlkSiz) (hov : offset + size < 2 ^ 64) :
    ∃ res, mfs_fkread_at vol fk size offset heap = some res := by
  have hreal : ∀ s o, o + s < 2 ^ 64 →
      ∃ res, mfs_fkread_at_real vol fk s o heap = some res := by
    intro s o hso
    obtain ⟨out, h, _⟩ := mfs_fkread_at_real_count vol fk s o heap hblk hn hlen hL hso
    exact ⟨_, h⟩
  unfold mfs_fkread_at
  by_cases h1 : fk.fkMode = kMFSForkData ∨ fk.fkMode = kMFSForkRsrc
  · rw [if_pos h1]
    exact hreal size offset hov
  · have hAD : fk.fkMode = kMFSForkAppleDouble := by
      rcases hmode with h | h | h
      · exact absurd (Or.inl h) h1
      · exact absurd (Or.inr h) h1
      · exact h
    rw [if_neg h1, if_pos hAD]
    obtain ⟨as, has, haslen⟩ := had hAD
    exact mfs_fkread_at_appledouble_defined vol fk size offset heap as has haslen hov hreal

/-- When the blocks of the chain can be read, what `mfs_fkread_at` delivers
does not depend on the content of the block buffer. -/
theorem mfs_fkread_at_heap (vol : MFSVolume) (fk : MFSFork) (size offset : Nat)
    (heap1 heap2 : Nat → Nat)
    (hblk : 0 < vol.mdb.drAlBlkSiz ∨ fk.fkLgLen = 0) (hn : fk.fkNmBks < 65536)
    (hlen : fk.fkNmBks ≤ fk.fkAlMap.length)
    (hread : ∀ a ∈ forkChain fk, albkReadable vol a)
    (hL : fk.fkLgLen ≤ fk.fkNmBks * vol.mdb.drAlBlkSiz) (hov : offset + size < 2 ^ 64) :
    mfs_fkread_at vol fk size offset heap1 = mfs_fkread_at vol fk size offset heap2 := by
  have hreal : ∀ s o, o + s < 2 ^ 64 →
      mfs_fkread_at_real vol fk s o heap1 = mfs_fkread_at_real vol fk s o heap2 :=
    fun s o hso => mfs_fkread_at_real_heap vol fk s o heap1 heap2 hblk hn hlen hread hL hso
  unfold mfs_fkread_at
  rw [hreal size offset hov,
    mfs_fkread_at_appledouble_heap vol fk size offset heap1 heap2 hov hreal]

/-- A run of reads that all return leaves the handle as it was and gives, for
each call, what that call gives on the handle before the run. -/
theorem mfs_fkread_run_spec (vol : MFSVolume) (fk : MFSFork) :
    ∀ (calls : List (Nat × (Nat → Nat))),
      (∀ c ∈ calls, ∃ r, mfs_fkread vol fk c.1 c.2 = some r) →
      ∃ rs, mfs_fkread_run vol fk calls = some (rs, fk) ∧
        rs.map some = calls.map (fun c => mfs_fkread vol fk c.1 c.2) := by
  intro calls
  induction calls with
  | nil =>
    intro _
    exact ⟨[], rfl, rfl⟩
  | cons c cs ih =>
    intro h
    obtain ⟨r, hr⟩ := h c (List.mem_cons_self _ _)
    obtain ⟨rs, hrs, hmap⟩ := ih (fun d hd => h d (List.mem_cons_of_mem _ hd))
    refine ⟨r :: rs, ?_, ?_⟩
    · unfold mfs_fkread_run mfs_fkread_step
      rw [hr]
      simp only
      rw [hrs]
    · rw [List.map_cons, List.map_cons, hmap, hr]

/-- C31: for a handle that `mfs_fkopen` or `mfs_dhopen` has returned, at any
current virtual offset, whose chain covers its logical length, and every
`length` that does not overflow the offset: `mfs_fkread` returns, it stores
the bytes that `mfs_fkread_at` stores for the current offset and returns its
`int` as an `unsigned long` (the same number when it is not negative); every
run of consecutive reads leaves the handle, and so what `mfs_ftell` returns,
as it was, each read of the run giving what it gives on the handle before the
run; two consecutive reads of the same length give the same result, also
with different contents of the block buffer when the blocks of the chain can
be read. -/
theorem mfs_fkread_keeps_offset (vol : MFSVolume) (fk : MFSFork) (length : Nat)
    (heap heap2 : Nat → Nat) (calls : List (Nat × (Nat → Nat)))
    (hopen : OpenedOn vol { fk with fkOffset := 0 })
    (hL : fk.fkLgLen ≤ fk.fkNmBks * vol.mdb.drAlBlkSiz)
    (hov : fk.fkOffset + length < 2 ^ 64)
    (hcalls : ∀ d ∈ calls, fk.fkOffset + d.1 < 2 ^ 64) :
    (∃ n out, mfs_fkread_at vol fk length fk.fkOffset heap = some (n, out) ∧
      mfs_fkread vol fk length heap = some (ofInt64 n, out) ∧
      toInt32 (ofInt64 n) = n ∧ (0 ≤ n → ((ofInt64 n : Nat) : Int) = n)) ∧
    (∃ rs fk1, mfs_fkread_run vol fk calls = some (rs, fk1) ∧ fk1 = fk ∧
      mfs_ftell fk1 = mfs_ftell fk ∧
      rs.map some = calls.map (fun d => mfs_fkread vol fk d.1 d.2)) ∧
    (∀ r, mfs_fkread vol fk length heap = some r →
      mfs_fkread_run vol fk [(length, heap), (length, heap)] = some ([r, r], fk) ∧
      ((∀ a ∈ forkChain fk, albkReadable vol a) →
        mfs_fkread_run vol fk [(length, heap), (length, heap2)] = some ([r, r], fk))) := by
  obtain ⟨hmode, hn, hlen, hblk, had⟩ := openedOn_facts vol _ hopen
  have hmode1 : fk.fkMode = kMFSForkData ∨ fk.fkMode = kMFSForkRsrc ∨
      fk.fkMode = kMFSForkAppleDouble := hmode
  have hn1 : fk.fkNmBks < 65536 := hn
  have hlen1 : fk.fkNmBks ≤ fk.fkAlMap.length := hlen
  have hblk1 : 0 < vol.mdb.drAlBlkSiz ∨ fk.fkLgLen = 0 := hblk
  have had1 : fk.fkMode = kMFSForkAppleDouble →
      ∃ as, fk.fkAppleDouble = some as ∧ 0x300 ≤ as.length := had
  have hdef : ∀ (l : Nat) (hp : Nat → Nat), fk.fkOffset + l < 2 ^ 64 →
      ∃ n out, mfs_fkread_at vol fk l fk.fkOffset hp = some (n, out) ∧
        mfs_fkread vol fk l hp = some (ofInt64 n, out) := by
    intro l hp hl
    obtain ⟨res, hres⟩ := mfs_fkread_at_defined vol fk l fk.fkOffset hp hmode1 hn1 hlen1 hblk1
      had1 hL hl
    refine ⟨res.1, res.2, hres, ?_⟩
    unfold mfs_fkread
    rw [hres]
  refine ⟨?_, ?_, ?_⟩
  · obtain ⟨n, out, h1, h2⟩ := hdef length heap hov
    obtain ⟨hr1, hr2⟩ := mfs_fkread_at_range vol fk length fk.fkOffset heap n out h1
    exact ⟨n, out, h1, h2, toInt32_ofInt64 n hr1 hr2⟩
  · obtain ⟨rs, hrs, hmap⟩ := mfs_fkread_run_spec vol fk calls (fun d hd => by
      obtain ⟨n, out, _, h2⟩ := hdef d.1 d.2 (hcalls d hd)
      exact ⟨_, h2⟩)
    exact ⟨rs, fk, hrs, rfl, rfl, hmap⟩
  · intro r hr
    have hrun : mfs_fkread_run vol fk [(length, heap), (length, heap)] = some ([r, r], fk) := by
      simp only [mfs_fkread_run, mfs_fkread_step, hr]
    refine ⟨hrun, ?_⟩
    intro hread
    have h2 : mfs_fkread vol fk length heap2 = some r := by
      rw [← hr]
      unfold mfs_fkread
      rw [mfs_fkread_at_heap vol fk length fk.fkOffset heap2 heap hblk1 hn1 hlen1 hread hL hov]
    simp only [mfs_fkread_run, mfs_fkread_step, hr, h2]

set_option maxRecDepth 100000 in
/-- C31 at the data fork of the example record, with the cursor at 1: two
consecutive reads of 3 bytes both deliver the bytes 1 to 3 of the fork,
whatever the block buffer held, and leave the cursor at 1. -/
theorem mfs_fkread_keeps_offset_witness :
    mfs_fkread exVol1 { exForkData with fkOffset := 1 } 3 (fun _ => 0) = some (3, [11, 12, 13]) ∧
      mfs_fkread_run exVol1 { exForkData with fkOffset := 1 }
          [(3, fun _ => 0), (3, fun _ => 7)] =
        some ([(3, [11, 12, 13]), (3, [11, 12, 13])], { exForkData with fkOffset := 1 }) ∧
      mfs_ftell { exForkData with fkOffset := 1 } = 1 :=
  ⟨by decide,
    ((mfs_fkread_keeps_offset exVol1 { exForkData with fkOffset := 1 } 3 (fun _ => 0)
      (fun _ => 7) [] (Or.inl ⟨exRec, kMFSForkData, none, _, Or.inl rfl, rfl⟩) (by decide)
      (by decide) (by simp)).2.2 (3, [11, 12, 13]) (by decide)).2 (by decide),
    by decide⟩

/-! ## Inputs on which a decoder leaves its buffer -/

set_option maxRecDepth 1000000 in
/-- C9 fails on the code: `mfs_vopen` copies the volume name with `strncpy`,
taking the length from the byte `drVN[0]` of the image, before it tests the
signature.  On an image whose logical block 2 is readable, begins with
`00 00` and has the length byte 255, the copy writes 255 bytes to the 28
bytes of `vol->name`, past the volume structure: the call is undefined,
where the specification has a clean rejection.  With the signature `D2 D7`
and the same length byte no volume comes back either. -/
theorem mfs_vopen_copies_name_before_test :
    badNameImage.length = 1536 ∧ beField badNameImage (0 + 1024) 2 = 0 ∧
      badNameImage.getD (0 + 1060) 0 = 255 ∧
      mfs_vopen (some badNameImage) 0 0 none = none ∧
      sigNameImage.length = 1536 ∧ beField sigNameImage (0 + 1024) 2 = 0xD2D7 ∧
      sigNameImage.getD (0 + 1060) 0 = 255 ∧
      mfs_vopen (some sigNameImage) 0 0 none = none := by
  refine ⟨?_, ?_, ?_, ?_, ?_, ?_, ?_, ?_⟩
  · simp [badNameImage]
  · rfl
  · rfl
  · rfl
  · simp [sigNameImage]
  · rfl
  · rfl
  · rfl

set_option maxRecDepth 1000000 in
/-- C22 fails on the code: for `drNmAlBlks = 299` the entry of index
`300 = 2 + 2 * 149` is `b[447] * 16 + b[448] div 16` in the canonical packing,
here `0x123`; the byte `b[448]` is byte 512 of logical block 2 onwards, and
the decoder, which has read the one block of 512 bytes that
`vabm_size = 448` asks for, fetches it from past its scratch buffer: the
entry is not decoded from the packed map. -/
theorem mfs_vabm_last_entry_unread :
    oddVol.mdb.drNmAlBlks = 299 ∧ 2 * 149 < 299 ∧
      packedByte oddVol (3 * 149) = 0x12 ∧ packedByte oddVol (3 * 149 + 1) = 0x30 ∧
      packedByte oddVol (3 * 149) * 16 + packedByte oddVol (3 * 149 + 1) / 16 = 0x123 ∧
      vabm_blks 299 = 1 ∧
      (mfs_blkread oddVol (vabm_blks 299) 2 []).2.length = 512 ∧
      64 + (3 * 149 + 1) = 512 ∧
      mfs_vabm_entry (mfs_blkread oddVol (vabm_blks 299) 2 []).2 (2 + 2 * 149) = none ∧
      mfs_vabm oddVol = none := by
  have hb : vabm_blks 299 = 1 := by decide
  have hl : oddVol.fp.length = 2048 := by simp [oddVol]
  have ho0 : oddVol.offset = 0 := rfl
  have hr := mfs_blkread_ok oddVol 1 2 [] (by rw [hl, ho0]; norm_num) (by rw [ho0]; norm_num)
  simp only [List.drop_nil, List.append_nil] at hr
  have hlen : (slice oddVol.fp (oddVol.offset + 512 * 2) (512 * 1)).length = 512 := by
    unfold slice
    rw [List.length_take, List.length_drop, hl, ho0]
    rfl
  have hentry : mfs_vabm_entry (slice oddVol.fp (oddVol.offset + 512 * 2) (512 * 1)) 300 =
      none := by
    have h2 : (slice oddVol.fp (oddVol.offset + 512 * 2) (512 * 1))[64 +
        (300 - 2) * 3 / 2 + 1]? = none := List.getElem?_eq_none (by rw [hlen])
    unfold mfs_vabm_entry
    simp only
    rw [h2]
    split
    · rename_i heq
      exact Option.noConfusion heq
    · rfl
  have hp1 : packedByte oddVol (3 * 149) = 0x12 := by rfl
  have hp2 : packedByte oddVol (3 * 149 + 1) = 0x30 := by rfl
  refine ⟨rfl, by decide, hp1, hp2, by rw [hp1, hp2], hb, ?_, rfl, ?_, ?_⟩
  · rw [hb, hr]
    exact hlen
  · rw [hb, hr]
    exact hentry
  · have hr2 : mfs_blkread oddVol ((299 * 3 / 2 + 64) / kMFSBlockSize +
        (if (299 * 3 / 2 + 64) % kMFSBlockSize ≠ 0 then 1 else 0)) 2 [] =
        (0, slice oddVol.fp (oddVol.offset + 512 * 2) (512 * 1)) := by
      have : (299 * 3 / 2 + 64) / kMFSBlockSize +
        (if (299 * 3 / 2 + 64) % kMFSBlockSize ≠ 0 then 1 else 0) = 1 := hb
      rw [this, hr]
    unfold mfs_vabm
    have hN : oddVol.mdb.drNmAlBlks = 299 := rfl
    simp only [hN, hr2]
    rw [if_neg (by decide), mfs_vabm_loop_none _ 299 2 298 (by norm_num) hentry]

end LibMFS
